import Mathlib

/-!
# The flatbuffer serializer of mobile modules

A shallow embedding of `torch/csrc/jit/serialization/flatbuffer_serializer.cpp`.

* A flatbuffer offset is modelled by the record it points to, so the vector
  `ivalue_offsets_` is the value sequence itself; an offset `0` of an optional
  field is `none`.
* The `std::unordered_map` members are association lists: `find` is the first
  match, `m[k] = v` overwrites the match or appends.
* A C++ exception leaves the serializer in the state reached so far, so every
  operation returns its outcome together with the state: `M α`.
* Indices are `uint32_t` in the source.  The builder caps the buffer below
  `2^31` bytes and every record takes several bytes, so no count reaches
  `2^32`; indices are natural numbers.  The narrowing conversions of tensor
  metadata (`int64_t` to `int`) are kept.
* Reading past a vector or through a null pointer is undefined in C++; the
  model reports it as the error `Err.undefined`.
* Strings are written with their length, except the name of a function
  record, which `functionToFB` passes as `qn.c_str()`: the record holds the
  name up to its first NUL (`c_str`), the name table the whole name.
-/

namespace FlatbufferSerializer

/-! ## Input side: the runtime values (`c10::IValue`, `at::Tensor`, `c10::ClassType`) -/

/-- A C++ `double`, carried by its 64-bit pattern; the serializer copies it. -/
structure Double where
  bits : Nat
deriving DecidableEq

/-- The enumeration `at::QScheme`. -/
inductive QScheme where
  | kPerTensorAffine
  | kPerChannelAffine
  | kPerTensorSymmetric
  | kPerChannelSymmetric
  | kPerChannelAffineFloatQParams
deriving DecidableEq

/-- The numeric value of a `QScheme` enumerator. -/
def QScheme.toInt : QScheme → Int
  | .kPerTensorAffine => 0
  | .kPerChannelAffine => 1
  | .kPerTensorSymmetric => 2
  | .kPerChannelSymmetric => 3
  | .kPerChannelAffineFloatQParams => 4

/-- The backing buffer of a tensor: `impl` is the address
`unsafeGetStorageImpl()` returns, `data` its bytes (`nbytes = data.length`). -/
structure Storage where
  impl : Nat
  is_cpu : Bool
  data : List Nat
deriving DecidableEq

/-- Bytes held by a storage: `nbytes()`. -/
def Storage.nbytes (st : Storage) : Nat := st.data.length

mutual
/-- What the serializer reads of an `at::Tensor`. -/
inductive Tensor where
  | mk (storage : Storage) (scalar_type : Int) (storage_offset : Int)
      (sizes : List Int) (strides : List Int) (requires_grad : Bool)
      (element_size : Nat) (quantizer : Quantizer)
/-- The quantizer of a tensor, with the accessors each scheme supports. -/
inductive Quantizer where
  | not_quantized
  | per_tensor_affine (q_scale : Double) (q_zero_point : Int)
  | per_channel (float_qparams : Bool) (q_per_channel_scales : Tensor)
      (q_per_channel_zero_points : Tensor) (q_per_channel_axis : Int)
  | symmetric (per_channel : Bool)
end

/-- Accessor `tensor.storage()`. -/
def Tensor.storage : Tensor → Storage
  | .mk st _ _ _ _ _ _ _ => st

/-- Accessor `tensor.scalar_type()`. -/
def Tensor.scalar_type : Tensor → Int
  | .mk _ x _ _ _ _ _ _ => x

/-- Accessor `tensor.storage_offset()`. -/
def Tensor.storage_offset : Tensor → Int
  | .mk _ _ x _ _ _ _ _ => x

/-- Accessor `tensor.sizes()`. -/
def Tensor.sizes : Tensor → List Int
  | .mk _ _ _ x _ _ _ _ => x

/-- Accessor `tensor.strides()`. -/
def Tensor.strides : Tensor → List Int
  | .mk _ _ _ _ x _ _ _ => x

/-- Accessor `tensor.requires_grad()`. -/
def Tensor.requires_grad : Tensor → Bool
  | .mk _ _ _ _ _ x _ _ => x

/-- Accessor `tensor.element_size()`. -/
def Tensor.element_size : Tensor → Nat
  | .mk _ _ _ _ _ _ x _ => x

/-- The quantizer of the tensor. -/
def Tensor.quantizer : Tensor → Quantizer
  | .mk _ _ _ _ _ _ _ x => x

/-- Accessor `tensor.is_quantized()`. -/
def Tensor.is_quantized (t : Tensor) : Bool :=
  match t.quantizer with
  | .not_quantized => false
  | _ => true

/-- Accessor `tensor.qscheme()` of a quantized tensor. -/
def Quantizer.qscheme : Quantizer → QScheme
  | .not_quantized => .kPerTensorAffine
  | .per_tensor_affine _ _ => .kPerTensorAffine
  | .per_channel false _ _ _ => .kPerChannelAffine
  | .per_channel true _ _ _ => .kPerChannelAffineFloatQParams
  | .symmetric false => .kPerTensorSymmetric
  | .symmetric true => .kPerChannelSymmetric

/-- What the serializer reads of a `c10::ClassType`: its qualified name, its
attribute names in declaration order and the names of its methods. -/
structure ClassType where
  name : String
  attributeNames : List String
  methods : List String
deriving DecidableEq

/-- Accessor `class_ptr->numAttributes()`. -/
def ClassType.numAttributes (c : ClassType) : Nat := c.attributeNames.length

/-- Whether `class_ptr->findMethod(name)` finds a method. -/
def ClassType.findMethod (c : ClassType) (name : String) : Bool := c.methods.contains name

/-- The runtime values.  The typed lists answer `isList()` as well as their own
test.  An object carries, next to its slots, the value its `__getstate__`
method returns when called on it (read only if the class has that method and
`__setstate__`).  `Other` stands for the remaining tags (storage, future,
capsule, stream, ...). -/
inductive IValue where
  | None
  | Tensor (t : Tensor)
  | Tuple (elements : List IValue)
  | Double (d : Double)
  | ComplexDouble (real : Double) (imag : Double)
  | Int (i : Int)
  | Bool (b : Bool)
  | String (s : String)
  | GenericDict (entries : List (IValue × IValue)) (type_str : String)
  | IntList (l : List Int)
  | DoubleList (l : List Double)
  | BoolList (l : List Bool)
  | List (elements : List IValue) (type_str : String)
  | Object (type : ClassType) (slots : List IValue) (getstate : IValue)
  | Device (str : String)
  | Enum (qualifiedClassName : String) (value : IValue)
  | Other (tagKind : String)

/-- The test `ivalue.isNone()`. -/
def isNone : IValue → Bool
  | .None => true
  | _ => false

/-- The conversion of a `c10::optional<IValue>` to an `IValue`. -/
def ofOptional : Option IValue → IValue
  | none => .None
  | some v => v

/-- External operations on values (`ATen/core/ivalue.h`): `hash` is
`IValue::hash`, `equals` is `operator==`; `none` means the call throws
(`std::runtime_error` or `c10::Error`). -/
structure IValueOps where
  hash : IValue → Option Nat
  equals : IValue → IValue → Option Bool

/-- What the serializer reads of a type: the string
`realType(t)->annotation_str()`, the string
`realType(t)->annotation_str(type_printer)` and the result of
`t->cast<ClassType>()`. -/
structure TypePtr where
  annotation_str : String
  annotation_str_printer : String
  castClassType : Option ClassType

/-- A `c10::Argument` of a function schema. -/
structure Argument where
  name : String
  type : TypePtr
  default_value : Option IValue

/-- A `c10::FunctionSchema`. -/
structure FunctionSchema where
  overload_name : String
  arguments : List Argument
  returns : List Argument
  is_vararg : Bool
  is_varret : Bool

/-- A bytecode instruction of `mobile::Code`. -/
structure Instruction where
  op : Nat
  N : Nat
  X : Int
deriving DecidableEq

/-- The struct `Instruction` of the container. -/
structure FBInstruction where
  op : Nat
  n : Nat
  x : Int
deriving DecidableEq

/-- A `c10::OperatorName`. -/
structure OperatorName where
  name : String
  overload_name : String
deriving DecidableEq

/-- The `mobile::Code` of a function. -/
structure Code where
  instructions_ : List Instruction
  op_names_ : List OperatorName
  operator_input_sizes_ : List Int
  constants_ : List IValue
  types_ : List TypePtr
  register_size_ : Nat
  debug_handles_ : List Int

/-- A `mobile::Function`. -/
structure Function where
  qualname : String
  code : Code
  schema : Option FunctionSchema

/-- A `mobile::CompilationUnit`. -/
structure CompilationUnit where
  methods_ : List Function

/-- Whether `find_function(qn)` returns a function. -/
def CompilationUnit.find_function (cu : CompilationUnit) (qn : String) : Bool :=
  cu.methods_.any (fun fn => fn.qualname == qn)

/-- What `serializeModule` reads of a `mobile::Module`. -/
structure Module where
  compilation_unit : CompilationUnit
  get_methods : List Function
  _ivalue : IValue
  bytecode_version : Int

/-! ## Output side: the records of `mobile_bytecode.fbs` -/

mutual
/-- The table `TensorMetadata`. -/
inductive TensorMetadata where
  | mk (storage_location_index : Nat) (scalar_type : Int) (storage_offset : Int)
      (sizes : List Int) (strides : List Int) (requires_grad : Bool)
      (quantized_schema : Option QuantizedSchema)
/-- The table `QuantizedSchema`. -/
inductive QuantizedSchema where
  | mk (qscheme : Int) (scale : Double) (zero_point : Int)
      (scales : Option TensorMetadata) (zero_points : Option TensorMetadata)
      (axis : Int)
end

/-- Field `storage_location_index`. -/
def TensorMetadata.storage_location_index : TensorMetadata → Nat
  | .mk i _ _ _ _ _ _ => i

/-- Field `quantized_schema`. -/
def TensorMetadata.quantized_schema : TensorMetadata → Option QuantizedSchema
  | .mk _ _ _ _ _ _ q => q

/-- The table `Arg` of a schema. -/
structure Arg where
  name : String
  type : String
  default_value : Nat
deriving DecidableEq

/-- The table `Schema`. -/
structure Schema where
  arguments : List Arg
  returns : List Arg
deriving DecidableEq

/-- The table `Operator`. -/
structure Operator where
  name : String
  overload_name : String
  num_args_serialized : Int
deriving DecidableEq

/-- The table `Function`. -/
structure FBFunction where
  qn : String
  instructions : List FBInstruction
  operators : List Operator
  constants : List Nat
  type_annotations : List String
  register_size : Int
  schema : Option Schema
  debug_info : List Int
  class_type : Nat
deriving DecidableEq

/-- The enumeration `TypeType`. -/
inductive TypeType where
  | UNSET
  | CLASS_WITH_FIELD
  | CUSTOM_CLASS
  | CLASS_WITH_SETSTATE
  | NON_OBJ
deriving DecidableEq

/-- The table `ObjectType`. -/
structure ObjectType where
  type_name : String
  type : TypeType
  attr_names : Option (List String)
deriving DecidableEq

/-- The table `Object`. -/
structure FBObject where
  type_index : Nat
  state : Nat
  attrs : Option (List Nat)
  setstate_func : Nat
deriving DecidableEq

/-- The table `IValue`: the kind tag `IValueUnion` with its payload. -/
inductive FBIValue where
  | NONE
  | Int (int_val : Int)
  | Bool (bool_val : Bool)
  | Double (double_val : Double)
  | ComplexDouble (real : Double) (imag : Double)
  | TensorMetadata (t : TensorMetadata)
  | String (data : String)
  | List (items : List Nat) (annotation_str : String)
  | Tuple (items : List Nat)
  | Dict (keys : List Nat) (values : List Nat) (annotation_str : String)
  | Object (o : FBObject)
  | IntList (items : List Int)
  | DoubleList (items : List Double)
  | BoolList (items : List Bool)
  | Device (str : String)
  | EnumValue (type_name : String) (value : Nat)
  | Function (f : FBFunction)

/-- The table `ExtraFile`. -/
structure ExtraFile where
  name : String
  content : String
deriving DecidableEq

/-- The root table `Module`. -/
structure FBModule where
  bytecode_version : Nat
  extra_files : List ExtraFile
  methods : List Nat
  state_obj : Nat
  ivalues : List FBIValue
  storage_data_size : Nat
  storage_data : Option (List (List Nat))
  object_types : List ObjectType
  jit_sources : List ExtraFile
  jit_constants : List Nat

/-! ## The serializer -/

/-- The failures of the serializer: the `TORCH_CHECK`s and `AT_ERROR` of the
source, and `undefined` for undefined behaviour. -/
inductive Err where
  | overloads
  | vararg
  | varret
  | torch_type (type_str : String)
  | unsupported_qscheme (q : QScheme)
  | invalid_ivalue (tagKind : String)
  | undefined
deriving DecidableEq

/-- The data members of `FlatbufferSerializer`. -/
structure Serializer where
  tensor_data_ : List Tensor
  memoized_storage_map_ : List (Nat × Nat)
  ivalue_offsets_ : List FBIValue
  obj_types_offset_ : List ObjectType
  qn_to_serialized_values_ : List (String × Nat)
  cached_ivalues_ : List (IValue × Nat)
  mcu_ : CompilationUnit

/-- A member function: it returns a value or throws, and leaves a state. -/
def M (α : Type) : Type := Serializer → Except Err α × Serializer

/-- Return without touching the state. -/
def M.pure {α : Type} (a : α) : M α := fun s => (.ok a, s)

/-- Sequencing; an exception skips the rest and keeps the state reached. -/
def M.bind {α β : Type} (m : M α) (f : α → M β) : M β := fun s =>
  match m s with
  | (.ok a, s1) => f a s1
  | (.error e, s1) => (.error e, s1)

/-- Throw. -/
def M.throw {α : Type} (e : Err) : M α := fun s => (.error e, s)

instance : Monad M where
  pure := M.pure
  bind := M.bind

/-- Lookup `m.find(k)` of an unordered map. -/
def mapFind {κ : Type} [DecidableEq κ] (m : List (κ × Nat)) (k : κ) : Option Nat :=
  match m with
  | [] => none
  | (k1, v) :: rest => if k1 = k then some v else mapFind rest k

/-- Assignment `m[k] = v` of an unordered map. -/
def mapAssign {κ : Type} [DecidableEq κ] (m : List (κ × Nat)) (k : κ) (v : Nat) :
    List (κ × Nat) :=
  match m with
  | [] => [(k, v)]
  | (k1, v1) :: rest => if k1 = k then (k1, v) :: rest else (k1, v1) :: mapAssign rest k v

/-- Narrowing conversion to a 32-bit `int`. -/
def static_cast_int32 (x : Int) : Int := (x + 2147483648) % 4294967296 - 2147483648

/-- The reserved index of the none value. -/
def kNoneIndex : Nat := 0

/-- Member `insertIValue`: append a record and return its position. -/
def insertIValue (ivalue : FBIValue) : M Nat := fun s =>
  (.ok s.ivalue_offsets_.length, { s with ivalue_offsets_ := s.ivalue_offsets_ ++ [ivalue] })

/-- Lines 596-605 of `tensorToFB`: the storage slot of a tensor, registering
the tensor when its storage has not been seen. -/
def storageIndex (tensor : Tensor) : M Nat := fun s =>
  match mapFind s.memoized_storage_map_ tensor.storage.impl with
  | some storage_index => (.ok storage_index, s)
  | none =>
    (.ok s.tensor_data_.length,
      { s with
        memoized_storage_map_ :=
          mapAssign s.memoized_storage_map_ tensor.storage.impl s.tensor_data_.length
        tensor_data_ := s.tensor_data_ ++ [tensor] })

mutual
/-- Member `tensorToFB`. -/
def tensorToFB : Tensor → M TensorMetadata
  | .mk storage scalar_type storage_offset sizes strides requires_grad element_size q => do
    let qschema_offset ← qschemaToFB q
    let storage_index ←
      storageIndex (.mk storage scalar_type storage_offset sizes strides requires_grad
        element_size q)
    pure (.mk storage_index scalar_type (static_cast_int32 storage_offset)
      (sizes.map static_cast_int32) (strides.map static_cast_int32) requires_grad
      qschema_offset)
/-- Lines 558-594 of `tensorToFB`: the quantization side-record. -/
def qschemaToFB : Quantizer → M (Option QuantizedSchema)
  | .not_quantized => pure none
  | .per_tensor_affine q_scale q_zero_point =>
    pure (some (.mk QScheme.kPerTensorAffine.toInt q_scale (static_cast_int32 q_zero_point)
      none none 0))
  | .per_channel float_qparams q_scales q_zero_points q_axis => do
    let scales ← tensorToFB q_scales
    let zero_points ← tensorToFB q_zero_points
    pure (some (.mk (Quantizer.per_channel float_qparams q_scales q_zero_points q_axis).qscheme.toInt
      ⟨0⟩ 0 (some scales) (some zero_points) (static_cast_int32 q_axis)))
  | .symmetric per_channel => M.throw (.unsupported_qscheme (Quantizer.symmetric per_channel).qscheme)
end

/-- Whether `s.find(pre) == 0`, that is, whether `s` begins with `pre`. -/
def findIsZero (s : String) (pre : String) : Bool := pre.toList.isPrefixOf s.toList

/-- The internal-namespace marker of `functionToFB`. -/
def torch_prefix : String := "__torch__"

/-- The marker of custom C++ classes of `functionToFB`. -/
def class_prefix : String := "__torch__.torch.classes"

/-- The scan of a bucket by `cached_ivalues_.find(k)`: `operator==` is called
on the stored keys whose hash code is that of `k`; the outer `none` means the
comparison throws. -/
def cacheScan (ops : IValueOps) (h : Nat) (k : IValue) :
    List (IValue × Nat) → Option (Option Nat)
  | [] => some none
  | (k1, i) :: rest =>
    if ops.hash k1 = some h then
      match ops.equals k k1 with
      | none => none
      | some true => some (some i)
      | some false => cacheScan ops h k rest
    else cacheScan ops h k rest

/-- The call `cached_ivalues_.find(k)`; the outer `none` means it throws. -/
def cacheFind (ops : IValueOps) (cache : List (IValue × Nat)) (k : IValue) :
    Option (Option Nat) :=
  match ops.hash k with
  | none => none
  | some h => cacheScan ops h k cache

/-- The scan of `cached_ivalues_[k] = index`: the match is overwritten, a key
without a match is added; `none` means the comparison throws. -/
def cacheAssignScan (ops : IValueOps) (h : Nat) (k : IValue) (index : Nat) :
    List (IValue × Nat) → Option (List (IValue × Nat))
  | [] => some [(k, index)]
  | (k1, i) :: rest =>
    if ops.hash k1 = some h then
      match ops.equals k k1 with
      | none => none
      | some true => some ((k1, index) :: rest)
      | some false => (cacheAssignScan ops h k index rest).map (fun c => (k1, i) :: c)
    else (cacheAssignScan ops h k index rest).map (fun c => (k1, i) :: c)

/-- The assignment `cached_ivalues_[k] = index`; `none` means it throws, and
then the table is unchanged. -/
def cacheAssign (ops : IValueOps) (cache : List (IValue × Nat)) (k : IValue) (index : Nat) :
    Option (List (IValue × Nat)) :=
  match ops.hash k with
  | none => none
  | some h => cacheAssignScan ops h k index cache

/-- Lines 628-637 of `storeIValueAndGetIndex`: the guarded lookup; an
exception is caught and counts as a miss. -/
def cachedIndex (ops : IValueOps) (ivalue : IValue) : M (Option Nat) := fun s =>
  match cacheFind ops s.cached_ivalues_ ivalue with
  | some found => (.ok found, s)
  | none => (.ok none, s)

/-- Lines 641-645 of `storeIValueAndGetIndex`: the guarded registration; an
exception is caught and leaves the table as it was. -/
def rememberIndex (ops : IValueOps) (ivalue : IValue) (index : Nat) : M Unit := fun s =>
  match cacheAssign ops s.cached_ivalues_ ivalue index with
  | some c => (.ok (), { s with cached_ivalues_ := c })
  | none => (.ok (), s)

/-- Member `storeIValueAndGetIndex`, with the call `iValueToFB(fbb, ivalue)`
passed as `encode`. -/
def storeIValueAndGetIndexWith (ops : IValueOps) (encode : M FBIValue) (ivalue : IValue) :
    M Nat :=
  if isNone ivalue then pure kNoneIndex
  else do
    let found ← cachedIndex ops ivalue
    match found with
    | some index => pure index
    | none =>
      let offset ← encode
      let index ← insertIValue offset
      rememberIndex ops ivalue index
      pure index

/-- Accessor `class_ptr->getAttributeName(i)`. -/
def ClassType.getAttributeName (c : ClassType) (i : Nat) : String := c.attributeNames.getD i ""

/-- The body of `classTypeToFB`, which reads the compilation unit `mcu_`. -/
def classTypeRecord (mcu : CompilationUnit) (class_ptr : ClassType) : ObjectType :=
  let setstate_name := class_ptr.name ++ ".__setstate__"
  if mcu.find_function setstate_name then
    ⟨class_ptr.name, .CLASS_WITH_SETSTATE, none⟩
  else if class_ptr.findMethod "__setstate__" then
    ⟨class_ptr.name, .CUSTOM_CLASS, none⟩
  else
    ⟨class_ptr.name, .CLASS_WITH_FIELD,
      some ((List.range class_ptr.numAttributes).map class_ptr.getAttributeName)⟩

/-- Member `classTypeToFB`. -/
def classTypeToFB (class_ptr : ClassType) : M ObjectType := fun s =>
  (.ok (classTypeRecord s.mcu_ class_ptr), s)

/-- Lookup in `qn_to_serialized_values_`. -/
def findQn (qn : String) : M (Option Nat) := fun s =>
  (.ok (mapFind s.qn_to_serialized_values_ qn), s)

/-- Assignment `qn_to_serialized_values_[qn] = index`. -/
def assignQn (qn : String) (index : Nat) : M Unit := fun s =>
  (.ok (), { s with qn_to_serialized_values_ := mapAssign s.qn_to_serialized_values_ qn index })

/-- Lines 510-511 of `storeClassTypeAndGetIndex`: append a class record. -/
def pushObjType (offset : ObjectType) : M Nat := fun s =>
  (.ok s.obj_types_offset_.length, { s with obj_types_offset_ := s.obj_types_offset_ ++ [offset] })

/-- Member `storeClassTypeAndGetIndex`. -/
def storeClassTypeAndGetIndex (class_ptr : ClassType) : M Nat := do
  let iter ← findQn class_ptr.name
  match iter with
  | some second => pure second
  | none =>
    let offset ← classTypeToFB class_ptr
    let res ← pushObjType offset
    assignQn class_ptr.name res
    pure res

/-- Member `objectToFB`, with the encoding of the state value and the loop over
the slots passed as `storeState` and `storeSlots`. -/
def objectToFBWith (type : ClassType) (storeState : M Nat) (storeSlots : M (List Nat)) :
    M FBObject :=
  if type.findMethod "__getstate__" && type.findMethod "__setstate__" then do
    let state_index ← storeState
    let func_index ← findQn (type.name ++ ".__setstate__")
    let setstate_func_index := match func_index with
      | some second => second
      | none => 0
    let type_index ← storeClassTypeAndGetIndex type
    pure ⟨type_index, state_index, none, setstate_func_index⟩
  else do
    let tuple_index ← storeSlots
    let type_index ← storeClassTypeAndGetIndex type
    pure ⟨type_index, 0, some tuple_index, 0⟩

mutual
/-- Member `iValueToFB`; the bodies of `tupleToFB`, `listToFB`, `dictToFB` and
`objectToFB` are in their branches. -/
def iValueToFB (ops : IValueOps) : IValue → M FBIValue
  | .Tensor t => do
    let offset ← tensorToFB t
    pure (.TensorMetadata offset)
  | .Tuple elements => do
    let items ← storeIValuesAndGetIndexes ops elements
    pure (.Tuple items)
  | .Double d => pure (.Double d)
  | .ComplexDouble real imag => pure (.ComplexDouble real imag)
  | .Int i => pure (.Int i)
  | .Bool b => pure (.Bool b)
  | .String str => pure (.String str)
  | .GenericDict entries type_str => do
    let kv ← storeDictEntries ops entries
    pure (.Dict kv.1 kv.2 type_str)
  | .None => pure .NONE
  | .IntList l => pure (.IntList l)
  | .DoubleList l => pure (.DoubleList l)
  | .BoolList l => pure (.BoolList l)
  | .List elements type_str => do
    let items ← storeIValuesAndGetIndexes ops elements
    pure (.List items type_str)
  | .Object type slots getstate => do
    let offset ← objectToFBWith type
      (storeIValueAndGetIndexWith ops (iValueToFB ops getstate) getstate)
      (storeSlots ops type.numAttributes slots)
    pure (.Object offset)
  | .Device str => pure (.Device str)
  | .Enum qualifiedClassName value => do
    let ival_pos ← storeIValueAndGetIndexWith ops (iValueToFB ops value) value
    pure (.EnumValue qualifiedClassName ival_pos)
  | .Other tagKind => M.throw (.invalid_ivalue tagKind)
/-- Member `storeIValuesAndGetIndexes`. -/
def storeIValuesAndGetIndexes (ops : IValueOps) : List IValue → M (List Nat)
  | [] => pure []
  | ivalue :: rest => do
    let index ← storeIValueAndGetIndexWith ops (iValueToFB ops ivalue) ivalue
    let indexes ← storeIValuesAndGetIndexes ops rest
    pure (index :: indexes)
/-- Lines 437-442 of `dictToFB`: the loop over the entries. -/
def storeDictEntries (ops : IValueOps) : List (IValue × IValue) → M (List Nat × List Nat)
  | [] => pure ([], [])
  | (key, value) :: rest => do
    let key_index ← storeIValueAndGetIndexWith ops (iValueToFB ops key) key
    let value_index ← storeIValueAndGetIndexWith ops (iValueToFB ops value) value
    let kv ← storeDictEntries ops rest
    pure (key_index :: kv.1, value_index :: kv.2)
/-- Lines 538-542 of `objectToFB`: the loop over the first `num_attr` slots. -/
def storeSlots (ops : IValueOps) : Nat → List IValue → M (List Nat)
  | 0, _ => pure []
  | _ + 1, [] => M.throw .undefined
  | num_attr + 1, slot :: rest => do
    let index ← storeIValueAndGetIndexWith ops (iValueToFB ops slot) slot
    let indexes ← storeSlots ops num_attr rest
    pure (index :: indexes)
end

/-- Member `storeIValueAndGetIndex`. -/
def storeIValueAndGetIndex (ops : IValueOps) (ivalue : IValue) : M Nat :=
  storeIValueAndGetIndexWith ops (iValueToFB ops ivalue) ivalue

/-- Member `tupleToFB`, on the elements of the tuple. -/
def tupleToFB (ops : IValueOps) (elements : List IValue) : M (List Nat) :=
  storeIValuesAndGetIndexes ops elements

/-- Member `listToFB`, on the elements and the type string of the list. -/
def listToFB (ops : IValueOps) (elements : List IValue) (type_str : String) :
    M (List Nat × String) := do
  let items ← storeIValuesAndGetIndexes ops elements
  pure (items, type_str)

/-- Member `dictToFB`, on the entries and the type string of the dict. -/
def dictToFB (ops : IValueOps) (entries : List (IValue × IValue)) (type_str : String) :
    M (List Nat × List Nat × String) := do
  let kv ← storeDictEntries ops entries
  pure (kv.1, kv.2, type_str)

/-- Member `objectToFB`, on the class, the slots and the get-state value of the
object. -/
def objectToFB (ops : IValueOps) (type : ClassType) (slots : List IValue) (getstate : IValue) :
    M FBObject :=
  objectToFBWith type (storeIValueAndGetIndex ops getstate)
    (storeSlots ops type.numAttributes slots)

/-- Lines 177-185 and 187-195 of `CreateFBSchema`: the loop over a list of
arguments. -/
def CreateFBSchemaArgs (ops : IValueOps) : List Argument → M (List Arg)
  | [] => pure []
  | arg :: rest => do
    let index ← storeIValueAndGetIndex ops (ofOptional arg.default_value)
    let arg_vec ← CreateFBSchemaArgs ops rest
    pure (⟨arg.name, arg.type.annotation_str_printer, index⟩ :: arg_vec)

/-- Member `CreateFBSchema`. -/
def CreateFBSchema (ops : IValueOps) (args : List Argument) (returns : List Argument) :
    M Schema := do
  let arg_vec ← CreateFBSchemaArgs ops args
  let return_vec ← CreateFBSchemaArgs ops returns
  pure ⟨arg_vec, return_vec⟩

/-- Lines 217-225 of `functionToFB`: the operator table; entry `i` reads
`operator_input_sizes_[i]`. -/
def operatorsToFB : List OperatorName → List Int → Except Err (List Operator)
  | [], _ => .ok []
  | _ :: _, [] => .error .undefined
  | opname :: rest, op_size :: sizes =>
    match operatorsToFB rest sizes with
    | .ok operator_vector => .ok (⟨opname.name, opname.overload_name, op_size⟩ :: operator_vector)
    | .error e => .error e

/-- Lines 240-252 of `functionToFB`: the referenced types. -/
def typesToFB : List TypePtr → Except Err (List String)
  | [] => .ok []
  | t :: rest =>
    if findIsZero t.annotation_str torch_prefix && !findIsZero t.annotation_str class_prefix then
      .error (.torch_type t.annotation_str)
    else
      match typesToFB rest with
      | .ok type_offsets => .ok (t.annotation_str :: type_offsets)
      | .error e => .error e

/-- Lift a pure step that may throw. -/
def liftExcept {α : Type} (r : Except Err α) : M α := fun s => (r, s)

/-- Lines 285-286 of `functionToFB`: the class of the first argument of the
schema, stored in the class table.  An empty argument list and a first
argument that is not of class type are undefined behaviour. -/
def storeSchemaClass (schema : FunctionSchema) : M Nat :=
  match schema.arguments with
  | [] => M.throw .undefined
  | arg0 :: _ =>
    match arg0.type.castClassType with
    | none => M.throw .undefined
    | some classtype => storeClassTypeAndGetIndex classtype

/-- Lines 270-287 of `functionToFB`: the schema and the class index. -/
def schemaToFB (ops : IValueOps) : Option FunctionSchema → M (Option Schema × Nat)
  | none => pure (none, 0)
  | some schema =>
    if schema.overload_name ≠ "" then M.throw .overloads
    else if schema.is_vararg then M.throw .vararg
    else if schema.is_varret then M.throw .varret
    else do
      let schema_offset ← CreateFBSchema ops schema.arguments schema.returns
      let class_index ← storeSchemaClass schema
      pure (some schema_offset, class_index)

/-- The string a `const char*` parameter receives from `qn.c_str()`: the
characters of `qn` before its first NUL. -/
def c_str (qn : String) : String :=
  String.mk (qn.toList.takeWhile (fun c => c ≠ Char.ofNat 0))

/-- Member `functionToFB`.  The name is passed as `qn.c_str()` (line 294). -/
def functionToFB (ops : IValueOps) (qn : String) (func : Function) : M FBFunction := do
  let code := func.code
  let instruction_vector : List FBInstruction :=
    code.instructions_.map (fun inst => ⟨inst.op, inst.N, inst.X⟩)
  let operator_vector ← liftExcept (operatorsToFB code.op_names_ code.operator_input_sizes_)
  let constant_indexes ← storeIValuesAndGetIndexes ops code.constants_
  let type_offsets ← liftExcept (typesToFB code.types_)
  let register_size := static_cast_int32 code.register_size_
  let sc ← schemaToFB ops func.schema
  pure ⟨c_str qn, instruction_vector, operator_vector, constant_indexes, type_offsets,
    register_size, sc.1, code.debug_handles_, sc.2⟩

/-- Member `storeFunctionAndGetIndex`. -/
def storeFunctionAndGetIndex (ops : IValueOps) (qn : String) (function : Function) : M Nat := do
  let iter ← findQn qn
  match iter with
  | some second => pure second
  | none =>
    let offset ← functionToFB ops qn function
    let index ← insertIValue (.Function offset)
    assignQn qn index
    pure index

/-- Member `storeExtraFilesAndGetOffset`, on the entries in iteration order. -/
def storeExtraFilesAndGetOffset (extra_files : List (String × String)) : List ExtraFile :=
  extra_files.map (fun extra_file => ⟨extra_file.1, extra_file.2⟩)

/-- Lines 341-345 of `serializeModule`: the loop over the methods. -/
def storeMethods (ops : IValueOps) : List Function → M (List Nat)
  | [] => pure []
  | method :: rest => do
    let func_offset ← storeFunctionAndGetIndex ops method.qualname method
    let functions_index ← storeMethods ops rest
    pure (func_offset :: functions_index)

/-- Lines 357-375 of `serializeModule`: the bytes written for one registered
tensor.  A storage that is not on the CPU is copied through a tensor of
`nbytes / element_size` elements. -/
def storageBlock (td : Tensor) : List Nat :=
  if td.storage.is_cpu then td.storage.data
  else td.storage.data.take (td.storage.nbytes / td.element_size * td.element_size)

/-- Lines 353-378 of `serializeModule`: the storage segment, read from
`tensor_data_` at this point. -/
def storageData (include_tensor_data_in_flatbuffer : Bool) : M (Option (List (List Nat))) :=
  fun s =>
    if include_tensor_data_in_flatbuffer then (.ok (some (s.tensor_data_.map storageBlock)), s)
    else (.ok none, s)

/-- Lines 392-403 of `serializeModule`: the root record, read from the members
at this point. -/
def CreateModule (bytecode_version : Nat) (extra_files : List ExtraFile) (functions : List Nat)
    (ivalue_index : Nat) (storage_data : Option (List (List Nat))) (jit_sources : List ExtraFile)
    (jit_constants_indexes : List Nat) : M FBModule := fun s =>
  (.ok ⟨bytecode_version, extra_files, functions, ivalue_index, s.ivalue_offsets_,
    s.tensor_data_.length, storage_data, s.obj_types_offset_, jit_sources,
    jit_constants_indexes⟩, s)

/-- The state of a default-constructed serializer whose `mcu_` has been set
(line 333). -/
def Serializer.fresh (mcu : CompilationUnit) : Serializer := ⟨[], [], [], [], [], [], mcu⟩

/-- The body of `serializeModule` from line 336 on. -/
def serializeModuleBody (ops : IValueOps) (module : Module)
    (include_tensor_data_in_flatbuffer : Bool) (extra_files : List (String × String))
    (jit_sources : List (String × String)) (jit_constants : List IValue) : M FBModule := do
  let _ ← insertIValue .NONE
  let functions_index ← storeMethods ops module.get_methods
  let ivalue_index ← storeIValueAndGetIndex ops module._ivalue
  let storage_data_offset ← storageData include_tensor_data_in_flatbuffer
  let extra_files_offset := storeExtraFilesAndGetOffset extra_files
  let jit_source_offset := storeExtraFilesAndGetOffset jit_sources
  let jit_constants_indexes ← storeIValuesAndGetIndexes ops jit_constants
  let bytecode_version := (module.bytecode_version % 4294967296).toNat
  CreateModule bytecode_version extra_files_offset functions_index ivalue_index
    storage_data_offset jit_source_offset jit_constants_indexes

/-- Member `serializeModule`: the container, or the exception thrown. -/
def serializeModule (ops : IValueOps) (module : Module)
    (include_tensor_data_in_flatbuffer : Bool) (extra_files : List (String × String))
    (jit_sources : List (String × String)) (jit_constants : List IValue) : Except Err FBModule :=
  (serializeModuleBody ops module include_tensor_data_in_flatbuffer extra_files jit_sources
    jit_constants (Serializer.fresh module.compilation_unit)).1

/-- Function `save_mobile_module_to_bytes`. -/
def save_mobile_module_to_bytes (ops : IValueOps) (module : Module)
    (extra_files : List (String × String)) (jit_sources : List (String × String))
    (jit_constants : List IValue) : Except Err FBModule :=
  serializeModule ops module true extra_files jit_sources jit_constants

/-! ## Properties of the sessions -/

/-- The operation `m` relates every state to the state it leaves, whether it
returns or throws. -/
def Pres (R : Serializer → Serializer → Prop) {α : Type} (m : M α) : Prop :=
  ∀ s, R s (m s).2

/-- Whether a record is of the function kind. -/
def isFunctionRecord : FBIValue → Bool
  | .Function _ => true
  | _ => false

/-- A relation between states that the steps of `tensorToFB` respect. -/
structure TensorFrame (R : Serializer → Serializer → Prop) : Prop where
  refl : ∀ s, R s s
  trans : ∀ a b c, R a b → R b c → R a c
  storageIndex : ∀ t, Pres R (storageIndex t)

/-- A relation between states that the writing steps of the value encoder
respect: the registration of a storage, of a class that satisfies `C`, and of
a value record with its cache entry. -/
structure ValueFrame (ops : IValueOps) (C : ClassType → Prop)
    (R : Serializer → Serializer → Prop) extends TensorFrame R : Prop where
  storeClass : ∀ c, C c → Pres R (storeClassTypeAndGetIndex c)
  insertRemember : ∀ (v : IValue) (offset : FBIValue), isFunctionRecord offset = false →
    Pres R (do
      let index ← insertIValue offset
      rememberIndex ops v index
      pure index)

/-- A relation between states that every writing step of the encoders
respects, for all classes and with the registration of a function record
under its name. -/
structure Frame (ops : IValueOps) (R : Serializer → Serializer → Prop)
    extends ValueFrame ops (fun _ => True) R : Prop where
  insertFunction : ∀ (qn : String) (offset : FBFunction),
    Pres R (do
      let index ← insertIValue (.Function offset)
      assignQn qn index
      pure index)

mutual
/-- Every class of an object inside the value satisfies `C`. -/
def ClassesIn (C : ClassType → Prop) : IValue → Prop
  | .Tuple elements => ClassesInList C elements
  | .GenericDict entries _ => ClassesInDict C entries
  | .List elements _ => ClassesInList C elements
  | .Object type slots getstate => C type ∧ ClassesInList C slots ∧ ClassesIn C getstate
  | .Enum _ value => ClassesIn C value
  | _ => True
/-- Every class of an object inside the values satisfies `C`. -/
def ClassesInList (C : ClassType → Prop) : List IValue → Prop
  | [] => True
  | v :: rest => ClassesIn C v ∧ ClassesInList C rest
/-- Every class of an object inside the entries satisfies `C`. -/
def ClassesInDict (C : ClassType → Prop) : List (IValue × IValue) → Prop
  | [] => True
  | (key, value) :: rest => ClassesIn C key ∧ ClassesIn C value ∧ ClassesInDict C rest
end

/-- The value sequence, the class table and the storage list only grow. -/
structure Grows (s s' : Serializer) : Prop where
  ivalues : s.ivalue_offsets_ <+: s'.ivalue_offsets_
  types : s.obj_types_offset_ <+: s'.obj_types_offset_
  tensors : s.tensor_data_ <+: s'.tensor_data_
  mcu : s'.mcu_ = s.mcu_

/-- The none record is first and no cached index is `0`. -/
def SentinelInv (s : Serializer) : Prop :=
  s.ivalue_offsets_.head? = some .NONE ∧ ∀ p ∈ s.cached_ivalues_, 1 ≤ p.2

/-- The storage memo table and the storage list describe each other: a
storage identity maps to the position of the tensor registered for it. -/
def StorageInv (s : Serializer) : Prop :=
  (∀ a i, mapFind s.memoized_storage_map_ a = some i →
    ∃ t, s.tensor_data_[i]? = some t ∧ t.storage.impl = a) ∧
  (∀ i t, s.tensor_data_[i]? = some t →
    mapFind s.memoized_storage_map_ t.storage.impl = some i)

/-- The storage memo table keeps its entries. -/
def MemoKept (s s' : Serializer) : Prop :=
  ∀ a i, mapFind s.memoized_storage_map_ a = some i →
    mapFind s'.memoized_storage_map_ a = some i

/-- One encoding operation of a session, whether it returns or throws. -/
inductive Step (ops : IValueOps) : Serializer → Serializer → Prop where
  | storeIValue (v : IValue) (s : Serializer) : Step ops s (storeIValueAndGetIndex ops v s).2
  | storeFunction (qn : String) (f : Function) (s : Serializer) :
    Step ops s (storeFunctionAndGetIndex ops qn f s).2
  | storeClassType (c : ClassType) (s : Serializer) :
    Step ops s (storeClassTypeAndGetIndex c s).2
  | tensor (t : Tensor) (s : Serializer) : Step ops s (tensorToFB t s).2

/-- Any sequence of encoding operations. -/
inductive Steps (ops : IValueOps) : Serializer → Serializer → Prop where
  | refl (s : Serializer) : Steps ops s s
  | tail {s s1 s2 : Serializer} : Steps ops s s1 → Step ops s1 s2 → Steps ops s s2

/-- The state with which `serializeModule` starts encoding: the none record
has been appended (line 336). -/
def Serializer.start (mcu : CompilationUnit) : Serializer :=
  (insertIValue .NONE (Serializer.fresh mcu)).2

/-- The states of a session started by `serializeModule`. -/
def Session (ops : IValueOps) (s : Serializer) : Prop :=
  ∃ mcu, Steps ops (Serializer.start mcu) s

/-! ## Sample inputs -/

/-- Whether the bit pattern of a double is a NaN (IEEE 754: exponent all ones,
fraction not zero). -/
def Double.isNaN (d : Double) : Bool :=
  (d.bits / 4503599627370496) % 2048 == 2047 && d.bits % 4503599627370496 != 0

/-- The comparison `==` of two doubles (IEEE 754): a NaN equals nothing, the
two zeros are equal. -/
def Double.eq (a b : Double) : Bool :=
  !a.isNaN && !b.isNaN &&
    (a.bits == b.bits || (a.bits % 9223372036854775808 == 0 && b.bits % 9223372036854775808 == 0))

/-- An instance of the external operations, after `IValue::hash` and
`IValue::equals` of `ATen/core/ivalue.cpp` on the kinds used below: ints,
bools, doubles and strings hash and compare by content, doubles with the
comparison `==` of C++; a tensor hashes by identity and its comparison throws
(the truth value of a tensor with several elements); lists, dicts and objects
are not hashable. -/
def sampleOps : IValueOps where
  hash := fun v =>
    match v with
    | .Int i => some (i % 18446744073709551616).toNat
    | .Bool b => some (if b then 1 else 0)
    | .Double d => some (if d.bits % 9223372036854775808 = 0 then 0 else d.bits)
    | .String str => some str.length
    | .Tensor t => some t.storage.impl
    | _ => none
  equals := fun a b =>
    match a, b with
    | .Int i, .Int j => some (decide (i = j))
    | .Bool i, .Bool j => some (decide (i = j))
    | .Double x, .Double y => some (Double.eq x y)
    | .String x, .String y => some (decide (x = y))
    | .Tensor _, .Tensor _ => none
    | _, _ => some false

/-- A quiet NaN. -/
def sampleNaN : Double := ⟨9221120237041090560⟩

/-- A session state: the none record and the record of the int `5`. -/
def sampleState : Serializer :=
  (storeIValueAndGetIndex sampleOps (.Int 5) (Serializer.start ⟨[]⟩)).2

/-- A float tensor of one element on storage `100`. -/
def sampleTensor : Tensor :=
  .mk ⟨100, true, [0, 0, 128, 63]⟩ 6 0 [1] [1] false 4 .not_quantized

/-- The per-channel scales of `sampleQTensor`, on storage `200`. -/
def sampleScales : Tensor :=
  .mk ⟨200, true, [0, 0, 0, 0, 0, 0, 240, 63]⟩ 7 0 [1] [1] false 8 .not_quantized

/-- The per-channel zero points of `sampleQTensor`, on storage `201`. -/
def sampleZeroPoints : Tensor :=
  .mk ⟨201, true, [0, 0, 0, 0, 0, 0, 0, 0]⟩ 4 0 [1] [1] false 8 .not_quantized

/-- A per-channel quantized view of the storage of `sampleTensor`. -/
def sampleQTensor : Tensor :=
  .mk ⟨100, true, [0, 0, 128, 63]⟩ 12 0 [4] [1] false 1
    (.per_channel false sampleScales sampleZeroPoints 0)

/-- Whether the tensor is quantized per channel. -/
def isPerChannel (t : Tensor) : Bool :=
  match t.quantizer with
  | .per_channel _ _ _ _ => true
  | _ => false

/-- The value indices stored in a schema record: the default values of its
arguments and returns. -/
def schemaRefs : Option Schema → List Nat
  | none => []
  | some schema =>
    schema.arguments.map Arg.default_value ++ schema.returns.map Arg.default_value

/-- The value indices stored inside a record of the value sequence: tuple and
list items, dict keys and values, the underlying value of an enum, the state,
the set-state function and the attributes of an object, the constants and the
default values of a function. -/
def valueRefs : FBIValue → List Nat
  | .List items _ => items
  | .Tuple items => items
  | .Dict keys values _ => keys ++ values
  | .Object o => o.state :: o.setstate_func :: o.attrs.getD []
  | .EnumValue _ value => [value]
  | .Function f => f.constants ++ schemaRefs f.schema
  | _ => []

/-- The invariant behind the DAG property: every index inside a record points
before the record, every remembered index is a position of the value sequence,
and the class table is shorter than the value sequence by at least `k`. -/
structure DagInv (k : Nat) (s : Serializer) : Prop where
  dag : ∀ i rec, s.ivalue_offsets_[i]? = some rec → ∀ r ∈ valueRefs rec, r < i
  cache : ∀ p ∈ s.cached_ivalues_, p.2 < s.ivalue_offsets_.length
  qn : ∀ p ∈ s.qn_to_serialized_values_, p.2 < s.ivalue_offsets_.length
  types : s.obj_types_offset_.length + k ≤ s.ivalue_offsets_.length
  pos : 1 ≤ s.ivalue_offsets_.length

/-- What a successful step leaves: the invariant, the indices `refs` it hands
back inside the value sequence, and a value sequence that is not shorter. -/
structure DagPost (k : Nat) (refs : List Nat) (s s' : Serializer) : Prop where
  inv : DagInv k s'
  refs : ∀ r ∈ refs, r < s'.ivalue_offsets_.length
  le : s.ivalue_offsets_.length ≤ s'.ivalue_offsets_.length

/-- Every successful run of `m` from a state with the invariant leaves
`DagPost` for the indices `refs` of its result. -/
def DagSpec {α : Type} (k : Nat) (refs : α → List Nat) (m : M α) : Prop :=
  ∀ s a s', DagInv 1 s → m s = (.ok a, s') → DagPost k (refs a) s s'

/-- The operation leaves the value sequence, the class table and the two
tables of remembered indices as they are. -/
def SameValues (s s' : Serializer) : Prop :=
  s'.ivalue_offsets_ = s.ivalue_offsets_ ∧ s'.cached_ivalues_ = s.cached_ivalues_ ∧
  s'.qn_to_serialized_values_ = s.qn_to_serialized_values_ ∧
  s'.obj_types_offset_ = s.obj_types_offset_ ∧ s'.mcu_ = s.mcu_

/-- A module of one method `forward` (one tensor argument, returned unchanged)
and one string attribute `name = "m"`. -/
def sampleClass : ClassType := ⟨"__torch__.M", ["name"], ["forward"]⟩

/-- The type of the receiver of `sampleForward`. -/
def sampleSelfType : TypePtr := ⟨"__torch__.M", "__torch__.M", some sampleClass⟩

/-- The tensor type. -/
def sampleTensorType : TypePtr := ⟨"Tensor", "Tensor", none⟩

/-- The method `forward` of `sampleModule`. -/
def sampleForward : Function :=
  ⟨"__torch__.M.forward",
    ⟨[⟨10, 1, 2⟩, ⟨4, 0, 2⟩, ⟨11, 0, 0⟩], [], [], [], [], 2, [0, 1, 2]⟩,
    some ⟨"", [⟨"self", sampleSelfType, none⟩, ⟨"x", sampleTensorType, none⟩],
      [⟨"", sampleTensorType, none⟩], false, false⟩⟩

/-- The module of the end-to-end example. -/
def sampleModule : Module :=
  ⟨⟨[sampleForward]⟩, [sampleForward], .Object sampleClass [.String "m"] .None, 9⟩

/-- Whether an outcome is a returned value. -/
def isOk {α : Type} : Except Err α → Bool
  | .ok _ => true
  | .error _ => false

/-- The returned value of an outcome, `d` when it is an exception. -/
def okValue {α : Type} (d : α) : Except Err α → α
  | .ok a => a
  | .error _ => d

/-- A container without content. -/
def FBModule.empty : FBModule := ⟨0, [], [], 0, [], 0, none, [], [], []⟩

mutual
/-- The storage slots named in a tensor record, those of the nested records
of its quantization side-record included. -/
def tensorSlots : TensorMetadata → List Nat
  | .mk storage_location_index _ _ _ _ _ q => storage_location_index :: qschemaSlots q
/-- The storage slots named in a quantization side-record. -/
def qschemaSlots : Option QuantizedSchema → List Nat
  | none => []
  | some (.mk _ _ _ scales zero_points _) => optTensorSlots scales ++ optTensorSlots zero_points
/-- The storage slots named in an optional tensor record. -/
def optTensorSlots : Option TensorMetadata → List Nat
  | none => []
  | some t => tensorSlots t
end

/-- The storage slots named in a record of the value sequence. -/
def storageSlots : FBIValue → List Nat
  | .TensorMetadata t => tensorSlots t
  | _ => []

/-- The operation appends no record of the function kind to the value
sequence. -/
def OnlyValues (s s' : Serializer) : Prop :=
  ∃ l, s'.ivalue_offsets_ = s.ivalue_offsets_ ++ l ∧ ∀ rec ∈ l, isFunctionRecord rec = false

/-- The operation leaves the entry of `qn` in the name table as it is. -/
def QnKept (qn : String) (s s' : Serializer) : Prop :=
  mapFind s'.qn_to_serialized_values_ qn = mapFind s.qn_to_serialized_values_ qn

/-- A method with an overloaded schema. -/
def sampleOverloaded : Function :=
  ⟨"__torch__.M.forward", ⟨[], [], [], [.Int 5], [], 0, []⟩,
    some ⟨"overload", [⟨"self", sampleSelfType, none⟩], [], false, false⟩⟩

/-- The default value of an argument as the value `CreateFBSchema` encodes. -/
def Argument.defaultIValue (arg : Argument) : IValue := ofOptional arg.default_value

/-- The entry `CreateFBSchema` writes for an argument whose default value has
the index `index`. -/
def Argument.toArg (arg : Argument) (index : Nat) : Arg :=
  ⟨arg.name, arg.type.annotation_str_printer, index⟩

/-- A function whose schema is fixed and without overload, but whose first
argument is a tensor. -/
def sampleFreeFunction : Function :=
  ⟨"__torch__.f", ⟨[⟨11, 0, 0⟩], [], [], [], [], 1, [0]⟩,
    some ⟨"", [⟨"x", sampleTensorType, none⟩], [⟨"", sampleTensorType, none⟩], false, false⟩⟩

/-- A class with the get-state and set-state pair. -/
def sampleStateClass : ClassType := ⟨"__torch__.S", [], ["__getstate__", "__setstate__"]⟩

/-- The indices `storeIValueAndGetIndex` returns for the values of a list, one
call after the other: `indexes[i]` is returned for `values[i]` in the state
the calls before it have left. -/
inductive StoreChain (ops : IValueOps) :
    List IValue → List Nat → Serializer → Serializer → Prop where
  | nil (s : Serializer) : StoreChain ops [] [] s s
  | cons {v : IValue} {rest : List IValue} {index : Nat} {indexes : List Nat}
      {s s1 s2 : Serializer} :
    storeIValueAndGetIndex ops v s = (.ok index, s1) → StoreChain ops rest indexes s1 s2 →
    StoreChain ops (v :: rest) (index :: indexes) s s2

/-- A plain class with two attributes. -/
def samplePairClass : ClassType := ⟨"__torch__.P", ["first", "second"], []⟩

/-- The operation keeps every entry of the name table. -/
def QnEntriesKept (s s' : Serializer) : Prop :=
  ∀ k r, mapFind s.qn_to_serialized_values_ k = some r →
    mapFind s'.qn_to_serialized_values_ k = some r

/-- The type of the receiver of `sampleSetstate`. -/
def sampleStateSelfType : TypePtr := ⟨"__torch__.S", "__torch__.S", some sampleStateClass⟩

/-- The method `__setstate__` of `sampleStateClass`. -/
def sampleSetstate : Function :=
  ⟨"__torch__.S.__setstate__",
    ⟨[⟨11, 0, 0⟩], [], [], [], [], 2, [0]⟩,
    some ⟨"", [⟨"self", sampleStateSelfType, none⟩, ⟨"state", ⟨"str", "str", none⟩, none⟩],
      [⟨"", ⟨"NoneType", "NoneType", none⟩, none⟩], false, false⟩⟩

/-- A session state in which the method `__setstate__` of `sampleStateClass`
has been encoded. -/
def sampleSetstateState : Serializer :=
  (storeFunctionAndGetIndex sampleOps sampleSetstate.qualname sampleSetstate
    (Serializer.start ⟨[]⟩)).2

/-- A per-tensor-affine quantized tensor whose zero point does not fit in 32
bits. -/
def sampleWideZeroPoint : Tensor :=
  .mk ⟨100, true, [0, 0, 128, 63]⟩ 13 0 [4] [1] false 1 (.per_tensor_affine ⟨0⟩ 4294967301)

/-- The members of the union `IValueUnion`, by which a record of the value
sequence is tagged. -/
inductive IValueUnion where
  | NONE
  | Int
  | Bool
  | Double
  | ComplexDouble
  | TensorMetadata
  | String
  | List
  | Tuple
  | Dict
  | Object
  | IntList
  | DoubleList
  | BoolList
  | Device
  | EnumValue
  | Function
deriving DecidableEq

/-- The tag `ivalue_type` of a record. -/
def ivalue_type : FBIValue → IValueUnion
  | .NONE => .NONE
  | .Int _ => .Int
  | .Bool _ => .Bool
  | .Double _ => .Double
  | .ComplexDouble _ _ => .ComplexDouble
  | .TensorMetadata _ => .TensorMetadata
  | .String _ => .String
  | .List _ _ => .List
  | .Tuple _ => .Tuple
  | .Dict _ _ _ => .Dict
  | .Object _ => .Object
  | .IntList _ => .IntList
  | .DoubleList _ => .DoubleList
  | .BoolList _ => .BoolList
  | .Device _ => .Device
  | .EnumValue _ _ => .EnumValue
  | .Function _ => .Function

/-- The value kinds of the data model, as the specification lists them. -/
inductive ValueKind where
  | noneKind
  | intKind
  | boolKind
  | doubleKind
  | complexDoubleKind
  | stringKind
  | tensorKind
  | tupleKind
  | listKind
  | dictKind
  | objectKind
  | deviceKind
  | enumKind
  | functionKind
deriving DecidableEq

/-- The kind of a runtime value among the kinds the specification lists: a
list of ints, doubles or bools is a list; `none` for a value of any other
kind. -/
def kindOf : IValue → Option ValueKind
  | .None => some .noneKind
  | .Tensor _ => some .tensorKind
  | .Tuple _ => some .tupleKind
  | .Double _ => some .doubleKind
  | .ComplexDouble _ _ => some .complexDoubleKind
  | .Int _ => some .intKind
  | .Bool _ => some .boolKind
  | .String _ => some .stringKind
  | .GenericDict _ _ => some .dictKind
  | .IntList _ => some .listKind
  | .DoubleList _ => some .listKind
  | .BoolList _ => some .listKind
  | .List _ _ => some .listKind
  | .Object _ _ _ => some .objectKind
  | .Device _ => some .deviceKind
  | .Enum _ _ => some .enumKind
  | .Other _ => none

/-- The tag of the records of a kind of the specification. -/
def kindTag : ValueKind → IValueUnion
  | .noneKind => .NONE
  | .intKind => .Int
  | .boolKind => .Bool
  | .doubleKind => .Double
  | .complexDoubleKind => .ComplexDouble
  | .stringKind => .String
  | .tensorKind => .TensorMetadata
  | .tupleKind => .Tuple
  | .listKind => .List
  | .dictKind => .Dict
  | .objectKind => .Object
  | .deviceKind => .Device
  | .enumKind => .EnumValue
  | .functionKind => .Function

/-- The tag `iValueToFB` assigns in the branch taken for the value; `none` in
the last branch, which throws. -/
def dispatchTag : IValue → Option IValueUnion
  | .Tensor _ => some .TensorMetadata
  | .Tuple _ => some .Tuple
  | .Double _ => some .Double
  | .ComplexDouble _ _ => some .ComplexDouble
  | .Int _ => some .Int
  | .Bool _ => some .Bool
  | .String _ => some .String
  | .GenericDict _ _ => some .Dict
  | .None => some .NONE
  | .IntList _ => some .IntList
  | .DoubleList _ => some .DoubleList
  | .BoolList _ => some .BoolList
  | .List _ _ => some .List
  | .Object _ _ _ => some .Object
  | .Device _ => some .Device
  | .Enum _ _ => some .EnumValue
  | .Other _ => none

mutual
/-- A value of a kind without a branch in `iValueToFB`, of tag kind `k`, is
the value or lies inside it. -/
def OtherIn (k : String) : IValue → Prop
  | .Other tagKind => tagKind = k
  | .Tuple elements => OtherInList k elements
  | .GenericDict entries _ => OtherInDict k entries
  | .List elements _ => OtherInList k elements
  | .Object _ slots getstate => OtherInList k slots ∨ OtherIn k getstate
  | .Enum _ value => OtherIn k value
  | _ => False
/-- A value of tag kind `k` without a branch lies inside one of the values. -/
def OtherInList (k : String) : List IValue → Prop
  | [] => False
  | v :: rest => OtherIn k v ∨ OtherInList k rest
/-- A value of tag kind `k` without a branch lies inside one of the entries. -/
def OtherInDict (k : String) : List (IValue × IValue) → Prop
  | [] => False
  | (key, value) :: rest => OtherIn k key ∨ OtherIn k value ∨ OtherInDict k rest
end

/-- Every exception the operation throws satisfies `P`. -/
def ErrSpec {α : Type} (P : Err → Prop) (m : M α) : Prop :=
  ∀ s e s', m s = (.error e, s') → P e

/-- The indices `storeIValueAndGetIndex` returns for the keys and the values
of the entries of a dict, the key of an entry before its value, one entry
after the other. -/
inductive DictChain (ops : IValueOps) :
    List (IValue × IValue) → List Nat → List Nat → Serializer → Serializer → Prop where
  | nil (s : Serializer) : DictChain ops [] [] [] s s
  | cons {key value : IValue} {rest : List (IValue × IValue)} {key_index value_index : Nat}
      {keys values : List Nat} {s s1 s2 s3 : Serializer} :
    storeIValueAndGetIndex ops key s = (.ok key_index, s1) →
    storeIValueAndGetIndex ops value s1 = (.ok value_index, s2) →
    DictChain ops rest keys values s2 s3 →
    DictChain ops ((key, value) :: rest) (key_index :: keys) (value_index :: values) s s3

/-- A float tensor of two elements on storage `300`. -/
def sampleVector : Tensor :=
  .mk ⟨300, true, [0, 0, 128, 63, 0, 0, 0, 64]⟩ 6 0 [2] [1] false 4 .not_quantized

/-- The class of the first argument of a schema, which `functionToFB` stores
in the class table. -/
def FunctionSchema.receiverClass (schema : FunctionSchema) : Option ClassType :=
  match schema.arguments with
  | [] => none
  | arg0 :: _ => arg0.type.castClassType

/-- Every class `functionToFB` stores for the schema satisfies `C`: the
classes of the objects inside the default values and the class of the first
argument. -/
def ClassesInSchema (C : ClassType → Prop) (schema : FunctionSchema) : Prop :=
  ClassesInList C (schema.arguments.map Argument.defaultIValue) ∧
  ClassesInList C (schema.returns.map Argument.defaultIValue) ∧
  ∀ c, schema.receiverClass = some c → C c

/-- Every class `functionToFB` stores for the function satisfies `C`: the
classes of the objects inside the constants and the classes of the schema. -/
def ClassesInFunction (C : ClassType → Prop) (func : Function) : Prop :=
  ClassesInList C func.code.constants_ ∧
  ∀ schema, func.schema = some schema → ClassesInSchema C schema

/-- One encoding operation of a session in which the names satisfying `isFn`
are the names of the functions and no class has such a name. -/
inductive NamedStep (ops : IValueOps) (isFn : String → Prop) :
    Serializer → Serializer → Prop where
  | storeIValue (v : IValue) (s : Serializer) :
    ClassesIn (fun c => ¬ isFn c.name) v →
    NamedStep ops isFn s (storeIValueAndGetIndex ops v s).2
  | storeFunction (qn : String) (f : Function) (s : Serializer) :
    isFn qn → ClassesInFunction (fun c => ¬ isFn c.name) f →
    NamedStep ops isFn s (storeFunctionAndGetIndex ops qn f s).2
  | storeClassType (c : ClassType) (s : Serializer) :
    ¬ isFn c.name → NamedStep ops isFn s (storeClassTypeAndGetIndex c s).2
  | tensor (t : Tensor) (s : Serializer) : NamedStep ops isFn s (tensorToFB t s).2

/-- Any sequence of encoding operations of such a session. -/
inductive NamedSteps (ops : IValueOps) (isFn : String → Prop) :
    Serializer → Serializer → Prop where
  | refl (s : Serializer) : NamedSteps ops isFn s s
  | tail {s s1 s2 : Serializer} :
    NamedSteps ops isFn s s1 → NamedStep ops isFn s1 s2 → NamedSteps ops isFn s s2

/-- The states of a session started by `serializeModule` in which no class is
named like a function. -/
def NamedSession (ops : IValueOps) (isFn : String → Prop) (s : Serializer) : Prop :=
  ∃ mcu, NamedSteps ops isFn (Serializer.start mcu) s

/-- Every entry of the name table points to the record of its name: the name
of a function to a function record of the value sequence that carries the
name as `functionToFB` writes it (the name up to its first NUL), any other
name to a record of the class table that carries the name. -/
def NameInv (isFn : String → Prop) (s : Serializer) : Prop :=
  ∀ k r, mapFind s.qn_to_serialized_values_ k = some r →
    (isFn k → ∃ f, s.ivalue_offsets_[r]? = some (.Function f) ∧ f.qn = c_str k) ∧
    (¬ isFn k → ∃ o, s.obj_types_offset_[r]? = some o ∧ o.type_name = k)

/-- A session state in which the method `forward` of `sampleModule` has been
encoded. -/
def sampleForwardState : Serializer :=
  (storeFunctionAndGetIndex sampleOps sampleForward.qualname sampleForward
    (Serializer.start ⟨[]⟩)).2

/-- The string of a record of the string kind. -/
def stringOf : FBIValue → Option String
  | .String str => some str
  | _ => none

/-- The object record of a record of the object kind. -/
def objectOf : FBIValue → Option FBObject
  | .Object o => some o
  | _ => none

/-- Field `storage_offset`. -/
def TensorMetadata.storage_offset : TensorMetadata → Int
  | .mk _ _ x _ _ _ _ => x

/-- Field `sizes`. -/
def TensorMetadata.sizes : TensorMetadata → List Int
  | .mk _ _ _ x _ _ _ => x

/-- Field `strides`. -/
def TensorMetadata.strides : TensorMetadata → List Int
  | .mk _ _ _ _ x _ _ => x

/-- The metadata of a tensor of `2^32 + 1` elements with stride 0 and storage
offset `2^31`; the bytes of its storage, which `tensorToFB` does not read, are
left out. -/
def sampleWideTensor : Tensor :=
  .mk ⟨400, true, []⟩ 0 2147483648 [4294967297] [0] false 1 .not_quantized

/-- A class with one attribute and a `__setstate__` method, without a
`__getstate__` method. -/
def sampleSetOnlyClass : ClassType := ⟨"__torch__.C", ["a"], ["__setstate__"]⟩

/-- The cache keeps its entries, in place: what an operation does to
`cached_ivalues_` is added behind them. -/
def CacheExt (s s' : Serializer) : Prop :=
  s.cached_ivalues_ <+: s'.cached_ivalues_

/-- An overloaded function named like the class of the object among its
constants. -/
def sampleOverloadedNamed : Function :=
  ⟨"__torch__.K", ⟨[], [], [], [.Object ⟨"__torch__.K", [], []⟩ [] .None], [], 0, []⟩,
    some ⟨"overload", [⟨"self", sampleSelfType, none⟩], [], false, false⟩⟩

/-- The tag of the record of a value of a kind of the specification: the tag
of the kind, except that a list of ints, of doubles or of bools has the tag
int list, double list or bool list. -/
def valueTag (v : IValue) (kind : ValueKind) : IValueUnion :=
  match v with
  | .IntList _ => .IntList
  | .DoubleList _ => .DoubleList
  | .BoolList _ => .BoolList
  | _ => kindTag kind

/-- The function record of a record of the function kind. -/
def functionOf : FBIValue → Option FBFunction
  | .Function f => some f
  | _ => none

/-- A qualified name with a NUL in it: `f`, NUL, `g`. -/
def sampleNulName : String := String.mk ['f', Char.ofNat 0, 'g']

/-- A method without schema whose constant is an object of the class
`__torch__.M.g`. -/
def sampleClashF : Function :=
  ⟨"__torch__.M.f",
    ⟨[⟨11, 0, 0⟩], [], [], [.Object ⟨"__torch__.M.g", [], []⟩ [] .None], [], 1, [0]⟩, none⟩

/-- A method without schema named `__torch__.M.g`. -/
def sampleClashG : Function :=
  ⟨"__torch__.M.g", ⟨[⟨11, 0, 0⟩], [], [], [], [], 1, [0]⟩, none⟩

/-- A module with the methods `sampleClashF` and `sampleClashG`: a class
stored for the first method is named like the second. -/
def sampleClashModule : Module :=
  ⟨⟨[sampleClashF, sampleClashG]⟩, [sampleClashF, sampleClashG],
    .Object sampleClass [.String "m"] .None, 9⟩

/-! ## Theorems -/

/-! ### The monad of the serializer -/

theorem bind_apply {α β : Type} (m : M α) (f : α → M β) (s : Serializer) :
    (m >>= f) s = match m s with
      | (.ok a, s1) => f a s1
      | (.error e, s1) => (.error e, s1) := rfl

theorem pure_apply {α : Type} (a : α) (s : Serializer) : (pure a : M α) s = (.ok a, s) := rfl

theorem throw_apply {α : Type} (e : Err) (s : Serializer) :
    (M.throw e : M α) s = (.error e, s) := rfl

theorem bind_ok {α β : Type} {m : M α} {f : α → M β} {s s1 : Serializer} {a : α}
    (h : m s = (.ok a, s1)) : (m >>= f) s = f a s1 := by
  rw [bind_apply, h]

theorem bind_error {α β : Type} {m : M α} {f : α → M β} {s s1 : Serializer} {e : Err}
    (h : m s = (.error e, s1)) : (m >>= f) s = (.error e, s1) := by
  rw [bind_apply, h]

/-- A successful sequence splits into a successful first step and a
successful rest. -/
theorem bind_eq_ok {α β : Type} {m : M α} {f : α → M β} {s s2 : Serializer} {b : β}
    (h : (m >>= f) s = (.ok b, s2)) :
    ∃ a s1, m s = (.ok a, s1) ∧ f a s1 = (.ok b, s2) := by
  rw [bind_apply] at h
  rcases hm : m s with ⟨r, s1⟩
  rw [hm] at h
  cases r with
  | error e => simp at h
  | ok a => exact ⟨a, s1, rfl, h⟩

theorem Pres.pure {R : Serializer → Serializer → Prop} (hr : ∀ s, R s s) {α : Type} (a : α) :
    Pres R (pure a : M α) := fun s => hr s

theorem Pres.throw {R : Serializer → Serializer → Prop} (hr : ∀ s, R s s) {α : Type}
    (e : Err) : Pres R (M.throw e : M α) := fun s => hr s

theorem Pres.of_state_eq {R : Serializer → Serializer → Prop} (hr : ∀ s, R s s) {α : Type}
    {m : M α} (h : ∀ s, (m s).2 = s) : Pres R m := fun s => by
  rw [h s]; exact hr s

/-- Sequencing, where the rest is only run on what the first step returns. -/
theorem Pres.bind_of_ok {R : Serializer → Serializer → Prop}
    (ht : ∀ a b c, R a b → R b c → R a c) {α β : Type} {m : M α} {f : α → M β}
    (hm : Pres R m) (hf : ∀ s a s1, m s = (.ok a, s1) → R s1 (f a s1).2) :
    Pres R (m >>= f) := by
  intro s
  rw [bind_apply]
  have h1 := hm s
  rcases h : m s with ⟨r, s1⟩
  rw [h] at h1
  cases r with
  | error e => exact h1
  | ok a => exact ht _ _ _ h1 (hf s a s1 h)

theorem Pres.bind {R : Serializer → Serializer → Prop}
    (ht : ∀ a b c, R a b → R b c → R a c) {α β : Type} {m : M α} {f : α → M β}
    (hm : Pres R m) (hf : ∀ a, Pres R (f a)) : Pres R (m >>= f) :=
  Pres.bind_of_ok ht hm (fun _ a s1 _ => hf a s1)

/-! ### Every encoder respects a frame -/

mutual
theorem tensorToFB_pres {R : Serializer → Serializer → Prop} (F : TensorFrame R) :
    ∀ t, Pres R (tensorToFB t)
  | .mk storage scalar_type storage_offset sizes strides requires_grad element_size q => by
    rw [tensorToFB]
    exact Pres.bind F.trans (qschemaToFB_pres F q)
      (fun _ => Pres.bind F.trans (F.storageIndex _) (fun _ => Pres.pure F.refl _))
theorem qschemaToFB_pres {R : Serializer → Serializer → Prop} (F : TensorFrame R) :
    ∀ q, Pres R (qschemaToFB q)
  | .not_quantized => by rw [qschemaToFB]; exact Pres.pure F.refl _
  | .per_tensor_affine _ _ => by rw [qschemaToFB]; exact Pres.pure F.refl _
  | .per_channel _ a b _ => by
    rw [qschemaToFB]
    exact Pres.bind F.trans (tensorToFB_pres F a)
      (fun _ => Pres.bind F.trans (tensorToFB_pres F b) (fun _ => Pres.pure F.refl _))
  | .symmetric _ => by rw [qschemaToFB]; exact Pres.throw F.refl _
end

theorem cachedIndex_state (ops : IValueOps) (v : IValue) (s : Serializer) :
    (cachedIndex ops v s).2 = s := by
  unfold cachedIndex; split <;> rfl

theorem findQn_apply (qn : String) (s : Serializer) :
    findQn qn s = (.ok (mapFind s.qn_to_serialized_values_ qn), s) := rfl

theorem classTypeToFB_apply (c : ClassType) (s : Serializer) :
    classTypeToFB c s = (.ok (classTypeRecord s.mcu_ c), s) := rfl

/-- The encoder never produces a record of the function kind. -/
theorem iValueToFB_not_function (ops : IValueOps) (v : IValue) (s s1 : Serializer)
    (rec : FBIValue) (h : iValueToFB ops v s = (.ok rec, s1)) : isFunctionRecord rec = false := by
  cases v <;> rw [iValueToFB] at h
  all_goals first
    | (obtain ⟨a, s2, _, h2⟩ := bind_eq_ok h
       rw [pure_apply] at h2
       cases h2; rfl)
    | (rw [pure_apply] at h; cases h; rfl)
    | (rw [throw_apply] at h; cases h)

theorem storeIValueAndGetIndexWith_pres {ops : IValueOps} {C : ClassType → Prop}
    {R : Serializer → Serializer → Prop}
    (F : ValueFrame ops C R) {encode : M FBIValue} (v : IValue) (henc : Pres R encode)
    (hrec : ∀ s a s1, encode s = (.ok a, s1) → isFunctionRecord a = false) :
    Pres R (storeIValueAndGetIndexWith ops encode v) := by
  unfold storeIValueAndGetIndexWith
  split
  · exact Pres.pure F.refl _
  · refine Pres.bind F.trans (Pres.of_state_eq F.refl (cachedIndex_state ops v)) ?_
    intro found
    cases found with
    | some index => exact Pres.pure F.refl _
    | none =>
      exact Pres.bind_of_ok F.trans henc
        (fun s a s1 h => F.insertRemember v a (hrec s a s1 h) s1)

theorem objectToFBWith_pres {ops : IValueOps} {C : ClassType → Prop}
    {R : Serializer → Serializer → Prop}
    (F : ValueFrame ops C R) (type : ClassType) (hC : C type) {storeState : M Nat}
    {storeSlots : M (List Nat)} (hs : Pres R storeState) (hl : Pres R storeSlots) :
    Pres R (objectToFBWith type storeState storeSlots) := by
  unfold objectToFBWith
  split
  · exact Pres.bind F.trans hs (fun _ =>
      Pres.bind F.trans (Pres.of_state_eq F.refl (fun _ => rfl)) (fun _ =>
        Pres.bind F.trans (F.storeClass type hC) (fun _ => Pres.pure F.refl _)))
  · exact Pres.bind F.trans hl (fun _ =>
      Pres.bind F.trans (F.storeClass type hC) (fun _ => Pres.pure F.refl _))

mutual
theorem iValueToFB_pres_of {ops : IValueOps} {C : ClassType → Prop}
    {R : Serializer → Serializer → Prop}
    (F : ValueFrame ops C R) : ∀ v, ClassesIn C v → Pres R (iValueToFB ops v)
  | .Tensor t, _ => by
    rw [iValueToFB]
    exact Pres.bind F.trans (tensorToFB_pres F.toTensorFrame t) (fun _ => Pres.pure F.refl _)
  | .Tuple elements, hc => by
    rw [iValueToFB]
    rw [ClassesIn] at hc
    exact Pres.bind F.trans (storeIValuesAndGetIndexes_pres_of F elements hc)
      (fun _ => Pres.pure F.refl _)
  | .Double _, _ => by rw [iValueToFB]; exact Pres.pure F.refl _
  | .ComplexDouble _ _, _ => by rw [iValueToFB]; exact Pres.pure F.refl _
  | .Int _, _ => by rw [iValueToFB]; exact Pres.pure F.refl _
  | .Bool _, _ => by rw [iValueToFB]; exact Pres.pure F.refl _
  | .String _, _ => by rw [iValueToFB]; exact Pres.pure F.refl _
  | .GenericDict entries _, hc => by
    rw [iValueToFB]
    rw [ClassesIn] at hc
    exact Pres.bind F.trans (storeDictEntries_pres_of F entries hc)
      (fun _ => Pres.pure F.refl _)
  | .None, _ => by rw [iValueToFB]; exact Pres.pure F.refl _
  | .IntList _, _ => by rw [iValueToFB]; exact Pres.pure F.refl _
  | .DoubleList _, _ => by rw [iValueToFB]; exact Pres.pure F.refl _
  | .BoolList _, _ => by rw [iValueToFB]; exact Pres.pure F.refl _
  | .List elements _, hc => by
    rw [iValueToFB]
    rw [ClassesIn] at hc
    exact Pres.bind F.trans (storeIValuesAndGetIndexes_pres_of F elements hc)
      (fun _ => Pres.pure F.refl _)
  | .Object type slots getstate, hc => by
    rw [iValueToFB]
    rw [ClassesIn] at hc
    exact Pres.bind F.trans
      (objectToFBWith_pres F type hc.1
        (storeIValueAndGetIndexWith_pres F getstate (iValueToFB_pres_of F getstate hc.2.2)
          (fun s a s1 h => iValueToFB_not_function ops getstate s s1 a h))
        (storeSlots_pres_of F type.numAttributes slots hc.2.1))
      (fun _ => Pres.pure F.refl _)
  | .Device _, _ => by rw [iValueToFB]; exact Pres.pure F.refl _
  | .Enum _ value, hc => by
    rw [iValueToFB]
    rw [ClassesIn] at hc
    exact Pres.bind F.trans
      (storeIValueAndGetIndexWith_pres F value (iValueToFB_pres_of F value hc)
        (fun s a s1 h => iValueToFB_not_function ops value s s1 a h))
      (fun _ => Pres.pure F.refl _)
  | .Other _, _ => by rw [iValueToFB]; exact Pres.throw F.refl _
theorem storeIValuesAndGetIndexes_pres_of {ops : IValueOps} {C : ClassType → Prop}
    {R : Serializer → Serializer → Prop}
    (F : ValueFrame ops C R) :
    ∀ vs, ClassesInList C vs → Pres R (storeIValuesAndGetIndexes ops vs)
  | [], _ => by rw [storeIValuesAndGetIndexes]; exact Pres.pure F.refl _
  | v :: rest, hc => by
    rw [storeIValuesAndGetIndexes]
    rw [ClassesInList] at hc
    exact Pres.bind F.trans
      (storeIValueAndGetIndexWith_pres F v (iValueToFB_pres_of F v hc.1)
        (fun s a s1 h => iValueToFB_not_function ops v s s1 a h))
      (fun _ => Pres.bind F.trans (storeIValuesAndGetIndexes_pres_of F rest hc.2)
        (fun _ => Pres.pure F.refl _))
theorem storeDictEntries_pres_of {ops : IValueOps} {C : ClassType → Prop}
    {R : Serializer → Serializer → Prop}
    (F : ValueFrame ops C R) : ∀ es, ClassesInDict C es → Pres R (storeDictEntries ops es)
  | [], _ => by rw [storeDictEntries]; exact Pres.pure F.refl _
  | (key, value) :: rest, hc => by
    rw [storeDictEntries]
    rw [ClassesInDict] at hc
    exact Pres.bind F.trans
      (storeIValueAndGetIndexWith_pres F key (iValueToFB_pres_of F key hc.1)
        (fun s a s1 h => iValueToFB_not_function ops key s s1 a h))
      (fun _ => Pres.bind F.trans
        (storeIValueAndGetIndexWith_pres F value (iValueToFB_pres_of F value hc.2.1)
          (fun s a s1 h => iValueToFB_not_function ops value s s1 a h))
        (fun _ => Pres.bind F.trans (storeDictEntries_pres_of F rest hc.2.2)
          (fun _ => Pres.pure F.refl _)))
theorem storeSlots_pres_of {ops : IValueOps} {C : ClassType → Prop}
    {R : Serializer → Serializer → Prop}
    (F : ValueFrame ops C R) :
    ∀ n vs, ClassesInList C vs → Pres R (storeSlots ops n vs)
  | 0, _, _ => by rw [storeSlots]; exact Pres.pure F.refl _
  | _ + 1, [], _ => by rw [storeSlots]; exact Pres.throw F.refl _
  | n + 1, v :: rest, hc => by
    rw [storeSlots]
    rw [ClassesInList] at hc
    exact Pres.bind F.trans
      (storeIValueAndGetIndexWith_pres F v (iValueToFB_pres_of F v hc.1)
        (fun s a s1 h => iValueToFB_not_function ops v s s1 a h))
      (fun _ => Pres.bind F.trans (storeSlots_pres_of F n rest hc.2)
        (fun _ => Pres.pure F.refl _))
end

mutual
theorem classesIn_true : ∀ v, ClassesIn (fun _ => True) v
  | .Tensor _ => by simp [ClassesIn]
  | .Tuple elements => by rw [ClassesIn]; exact classesInList_true elements
  | .Double _ => by simp [ClassesIn]
  | .ComplexDouble _ _ => by simp [ClassesIn]
  | .Int _ => by simp [ClassesIn]
  | .Bool _ => by simp [ClassesIn]
  | .String _ => by simp [ClassesIn]
  | .GenericDict entries _ => by rw [ClassesIn]; exact classesInDict_true entries
  | .None => by simp [ClassesIn]
  | .IntList _ => by simp [ClassesIn]
  | .DoubleList _ => by simp [ClassesIn]
  | .BoolList _ => by simp [ClassesIn]
  | .List elements _ => by rw [ClassesIn]; exact classesInList_true elements
  | .Object _ slots getstate => by
    rw [ClassesIn]
    exact ⟨trivial, classesInList_true slots, classesIn_true getstate⟩
  | .Device _ => by simp [ClassesIn]
  | .Enum _ value => by rw [ClassesIn]; exact classesIn_true value
  | .Other _ => by simp [ClassesIn]
theorem classesInList_true : ∀ vs, ClassesInList (fun _ => True) vs
  | [] => by rw [ClassesInList]; trivial
  | v :: rest => by
    rw [ClassesInList]
    exact ⟨classesIn_true v, classesInList_true rest⟩
theorem classesInDict_true : ∀ es, ClassesInDict (fun _ => True) es
  | [] => by rw [ClassesInDict]; trivial
  | (key, value) :: rest => by
    rw [ClassesInDict]
    exact ⟨classesIn_true key, classesIn_true value, classesInDict_true rest⟩
end

theorem iValueToFB_pres {ops : IValueOps} {R : Serializer → Serializer → Prop}
    (F : Frame ops R) (v : IValue) : Pres R (iValueToFB ops v) :=
  iValueToFB_pres_of F.toValueFrame v (classesIn_true v)

theorem storeIValuesAndGetIndexes_pres {ops : IValueOps} {R : Serializer → Serializer → Prop}
    (F : Frame ops R) (vs : List IValue) : Pres R (storeIValuesAndGetIndexes ops vs) :=
  storeIValuesAndGetIndexes_pres_of F.toValueFrame vs (classesInList_true vs)

theorem storeIValueAndGetIndex_pres {ops : IValueOps} {R : Serializer → Serializer → Prop}
    (F : Frame ops R) (v : IValue) : Pres R (storeIValueAndGetIndex ops v) :=
  storeIValueAndGetIndexWith_pres F.toValueFrame v (iValueToFB_pres F v)
    (fun s a s1 h => iValueToFB_not_function ops v s s1 a h)

theorem CreateFBSchemaArgs_pres {ops : IValueOps} {R : Serializer → Serializer → Prop}
    (F : Frame ops R) : ∀ args, Pres R (CreateFBSchemaArgs ops args)
  | [] => by rw [CreateFBSchemaArgs]; exact Pres.pure F.refl _
  | arg :: rest => by
    rw [CreateFBSchemaArgs]
    exact Pres.bind F.trans (storeIValueAndGetIndex_pres F _)
      (fun _ => Pres.bind F.trans (CreateFBSchemaArgs_pres F rest)
        (fun _ => Pres.pure F.refl _))

theorem CreateFBSchema_pres {ops : IValueOps} {R : Serializer → Serializer → Prop}
    (F : Frame ops R) (args returns : List Argument) :
    Pres R (CreateFBSchema ops args returns) := by
  unfold CreateFBSchema
  exact Pres.bind F.trans (CreateFBSchemaArgs_pres F args)
    (fun _ => Pres.bind F.trans (CreateFBSchemaArgs_pres F returns)
      (fun _ => Pres.pure F.refl _))

theorem storeSchemaClass_pres {ops : IValueOps} {R : Serializer → Serializer → Prop}
    (F : Frame ops R) (schema : FunctionSchema) : Pres R (storeSchemaClass schema) := by
  unfold storeSchemaClass
  split
  · exact Pres.throw F.refl _
  · split
    · exact Pres.throw F.refl _
    · exact F.storeClass _ trivial

theorem schemaToFB_pres {ops : IValueOps} {R : Serializer → Serializer → Prop}
    (F : Frame ops R) : ∀ schema, Pres R (schemaToFB ops schema)
  | none => by rw [schemaToFB]; exact Pres.pure F.refl _
  | some schema => by
    rw [schemaToFB]
    split
    · exact Pres.throw F.refl _
    · split
      · exact Pres.throw F.refl _
      · split
        · exact Pres.throw F.refl _
        · exact Pres.bind F.trans (CreateFBSchema_pres F _ _)
            (fun _ => Pres.bind F.trans (storeSchemaClass_pres F schema)
              (fun _ => Pres.pure F.refl _))

theorem functionToFB_pres {ops : IValueOps} {R : Serializer → Serializer → Prop}
    (F : Frame ops R) (qn : String) (func : Function) : Pres R (functionToFB ops qn func) := by
  unfold functionToFB
  exact Pres.bind F.trans (Pres.of_state_eq F.refl (fun _ => rfl))
    (fun _ => Pres.bind F.trans (storeIValuesAndGetIndexes_pres F _)
      (fun _ => Pres.bind F.trans (Pres.of_state_eq F.refl (fun _ => rfl))
        (fun _ => Pres.bind F.trans (schemaToFB_pres F _) (fun _ => Pres.pure F.refl _))))

theorem storeFunctionAndGetIndex_pres {ops : IValueOps} {R : Serializer → Serializer → Prop}
    (F : Frame ops R) (qn : String) (func : Function) :
    Pres R (storeFunctionAndGetIndex ops qn func) := by
  unfold storeFunctionAndGetIndex
  refine Pres.bind F.trans (Pres.of_state_eq F.refl (fun _ => rfl)) ?_
  intro iter
  cases iter with
  | some second => exact Pres.pure F.refl _
  | none =>
    exact Pres.bind F.trans (functionToFB_pres F qn func) (fun offset => F.insertFunction qn offset)

theorem storeMethods_pres {ops : IValueOps} {R : Serializer → Serializer → Prop}
    (F : Frame ops R) : ∀ methods, Pres R (storeMethods ops methods)
  | [] => by rw [storeMethods]; exact Pres.pure F.refl _
  | method :: rest => by
    rw [storeMethods]
    exact Pres.bind F.trans (storeFunctionAndGetIndex_pres F _ _)
      (fun _ => Pres.bind F.trans (storeMethods_pres F rest) (fun _ => Pres.pure F.refl _))

theorem step_pres {ops : IValueOps} {R : Serializer → Serializer → Prop} (F : Frame ops R)
    {s s' : Serializer} (h : Step ops s s') : R s s' := by
  cases h with
  | storeIValue v => exact storeIValueAndGetIndex_pres F v s
  | storeFunction qn f => exact storeFunctionAndGetIndex_pres F qn f s
  | storeClassType c => exact F.storeClass c trivial s
  | tensor t => exact tensorToFB_pres F.toTensorFrame t s

theorem steps_pres {ops : IValueOps} {R : Serializer → Serializer → Prop} (F : Frame ops R)
    {s s' : Serializer} (h : Steps ops s s') : R s s' := by
  induction h with
  | refl => exact F.refl _
  | tail _ hstep ih => exact F.trans _ _ _ ih (step_pres F hstep)

theorem steps_trans {ops : IValueOps} {a b c : Serializer} (h1 : Steps ops a b)
    (h2 : Steps ops b c) : Steps ops a c := by
  induction h2 with
  | refl => exact h1
  | tail _ hstep ih => exact Steps.tail ih hstep

/-! ### The writing steps, field by field -/

theorem mapFind_mapAssign {κ : Type} [DecidableEq κ] (m : List (κ × Nat)) (k a : κ) (v : Nat) :
    mapFind (mapAssign m k v) a = if a = k then some v else mapFind m a := by
  induction m with
  | nil =>
    simp only [mapAssign, mapFind]
    by_cases h : k = a
    · simp [h]
    · have h2 : ¬ a = k := fun e => h e.symm
      simp [h, h2]
  | cons p rest ih =>
    obtain ⟨k1, v1⟩ := p
    simp only [mapAssign]
    by_cases h1 : k1 = k
    · subst h1
      simp only [if_true, mapFind]
      by_cases h2 : k1 = a
      · simp [h2]
      · have h3 : ¬ a = k1 := fun e => h2 e.symm
        simp [h2, h3]
    · simp only [h1, if_false, mapFind]
      by_cases h2 : k1 = a
      · subst h2
        simp [h1]
      · simp only [h2, if_false]
        exact ih

theorem storageIndex_cases (t : Tensor) (s : Serializer) :
    (∃ i, mapFind s.memoized_storage_map_ t.storage.impl = some i ∧
      storageIndex t s = (.ok i, s)) ∨
    (mapFind s.memoized_storage_map_ t.storage.impl = none ∧
      storageIndex t s = (.ok s.tensor_data_.length,
        { s with
          memoized_storage_map_ :=
            mapAssign s.memoized_storage_map_ t.storage.impl s.tensor_data_.length
          tensor_data_ := s.tensor_data_ ++ [t] })) := by
  unfold storageIndex
  cases h : mapFind s.memoized_storage_map_ t.storage.impl with
  | some i => exact Or.inl ⟨i, rfl, rfl⟩
  | none => exact Or.inr ⟨rfl, rfl⟩

theorem storeClassTypeAndGetIndex_cases (c : ClassType) (s : Serializer) :
    (∃ r, mapFind s.qn_to_serialized_values_ c.name = some r ∧
      storeClassTypeAndGetIndex c s = (.ok r, s)) ∨
    (mapFind s.qn_to_serialized_values_ c.name = none ∧
      storeClassTypeAndGetIndex c s = (.ok s.obj_types_offset_.length,
        { s with
          obj_types_offset_ := s.obj_types_offset_ ++ [classTypeRecord s.mcu_ c]
          qn_to_serialized_values_ :=
            mapAssign s.qn_to_serialized_values_ c.name s.obj_types_offset_.length })) := by
  unfold storeClassTypeAndGetIndex
  cases h : mapFind s.qn_to_serialized_values_ c.name with
  | some r =>
    left
    refine ⟨r, rfl, ?_⟩
    rw [bind_apply, findQn_apply, h]
    rfl
  | none =>
    right
    refine ⟨rfl, ?_⟩
    rw [bind_apply, findQn_apply, h]
    rfl

theorem insertRemember_cases (ops : IValueOps) (v : IValue) (offset : FBIValue)
    (s : Serializer) :
    ∃ c, ((cacheAssign ops s.cached_ivalues_ v s.ivalue_offsets_.length = none ∧
          c = s.cached_ivalues_) ∨
        cacheAssign ops s.cached_ivalues_ v s.ivalue_offsets_.length = some c) ∧
      (do
        let index ← insertIValue offset
        rememberIndex ops v index
        pure index : M Nat) s =
      (.ok s.ivalue_offsets_.length,
        { s with ivalue_offsets_ := s.ivalue_offsets_ ++ [offset], cached_ivalues_ := c }) := by
  simp only [bind_apply, insertIValue, rememberIndex, pure_apply]
  cases h : cacheAssign ops s.cached_ivalues_ v s.ivalue_offsets_.length with
  | some c => exact ⟨c, Or.inr rfl, rfl⟩
  | none => exact ⟨s.cached_ivalues_, Or.inl ⟨rfl, rfl⟩, rfl⟩

theorem insertFunction_apply (qn : String) (offset : FBFunction) (s : Serializer) :
    (do
      let index ← insertIValue (.Function offset)
      assignQn qn index
      pure index : M Nat) s =
    (.ok s.ivalue_offsets_.length,
      { s with
        ivalue_offsets_ := s.ivalue_offsets_ ++ [.Function offset]
        qn_to_serialized_values_ :=
          mapAssign s.qn_to_serialized_values_ qn s.ivalue_offsets_.length }) := rfl

theorem cacheAssignScan_mem (ops : IValueOps) (h : Nat) (k : IValue) (index : Nat) :
    ∀ (c c' : List (IValue × Nat)), cacheAssignScan ops h k index c = some c' →
      ∀ p ∈ c', p.2 = index ∨ ∃ q ∈ c, q.2 = p.2
  | [], c', hc, p, hp => by
    simp only [cacheAssignScan, Option.some.injEq] at hc
    subst hc
    simp only [List.mem_singleton] at hp
    subst hp
    exact Or.inl rfl
  | (k1, i) :: rest, c', hc, p, hp => by
    have ih := cacheAssignScan_mem ops h k index rest
    simp only [cacheAssignScan] at hc
    have tailCase : ∀ c', (cacheAssignScan ops h k index rest).map (fun c => (k1, i) :: c)
        = some c' → ∀ p ∈ c', p.2 = index ∨ ∃ q ∈ (k1, i) :: rest, q.2 = p.2 := by
      intro c' hc p hp
      cases hr : cacheAssignScan ops h k index rest with
      | none => rw [hr] at hc; simp at hc
      | some c2 =>
        rw [hr] at hc
        simp only [Option.map_some', Option.some.injEq] at hc
        subst hc
        rcases List.mem_cons.mp hp with hp | hp
        · subst hp
          exact Or.inr ⟨(k1, i), List.mem_cons_self _ _, rfl⟩
        · rcases ih c2 hr p hp with h1 | ⟨q, hq, h2⟩
          · exact Or.inl h1
          · exact Or.inr ⟨q, List.mem_cons_of_mem _ hq, h2⟩
    split at hc
    · split at hc
      · simp at hc
      · simp only [Option.some.injEq] at hc
        subst hc
        rcases List.mem_cons.mp hp with hp | hp
        · subst hp
          exact Or.inl rfl
        · exact Or.inr ⟨p, List.mem_cons_of_mem _ hp, rfl⟩
      · exact tailCase c' hc p hp
    · exact tailCase c' hc p hp

theorem cacheAssign_mem (ops : IValueOps) (k : IValue) (index : Nat)
    (c c' : List (IValue × Nat)) (hc : cacheAssign ops c k index = some c') :
    ∀ p ∈ c', p.2 = index ∨ ∃ q ∈ c, q.2 = p.2 := by
  unfold cacheAssign at hc
  split at hc
  · simp at hc
  · exact cacheAssignScan_mem ops _ k index c c' hc

/-! ### Three frames: growth, the sentinel, the storage table -/

theorem grows_refl (s : Serializer) : Grows s s :=
  ⟨List.prefix_refl _, List.prefix_refl _, List.prefix_refl _, rfl⟩

theorem grows_trans (a b c : Serializer) (h1 : Grows a b) (h2 : Grows b c) : Grows a c :=
  ⟨h1.ivalues.trans h2.ivalues, h1.types.trans h2.types, h1.tensors.trans h2.tensors,
    h2.mcu.trans h1.mcu⟩

theorem growsFrame (ops : IValueOps) : Frame ops Grows where
  refl := grows_refl
  trans := grows_trans
  storageIndex := by
    intro t s
    rcases storageIndex_cases t s with ⟨i, _, h⟩ | ⟨_, h⟩
    · rw [h]; exact grows_refl s
    · rw [h]
      exact ⟨List.prefix_refl _, List.prefix_refl _, List.prefix_append _ _, rfl⟩
  storeClass := by
    intro c _ s
    rcases storeClassTypeAndGetIndex_cases c s with ⟨i, _, h⟩ | ⟨_, h⟩
    · rw [h]; exact grows_refl s
    · rw [h]
      exact ⟨List.prefix_refl _, List.prefix_append _ _, List.prefix_refl _, rfl⟩
  insertRemember := by
    intro v offset _ s
    obtain ⟨c, _, h⟩ := insertRemember_cases ops v offset s
    rw [h]
    exact ⟨List.prefix_append _ _, List.prefix_refl _, List.prefix_refl _, rfl⟩
  insertFunction := by
    intro qn offset s
    rw [insertFunction_apply]
    exact ⟨List.prefix_append _ _, List.prefix_refl _, List.prefix_refl _, rfl⟩

theorem head?_append_of_head? {α : Type} (l l2 : List α) (a : α) (h : l.head? = some a) :
    (l ++ l2).head? = some a := by
  cases l with
  | nil => simp at h
  | cons x xs => simpa using h

theorem length_pos_of_head? {α : Type} (l : List α) (a : α) (h : l.head? = some a) :
    1 ≤ l.length := by
  cases l with
  | nil => simp at h
  | cons x xs => simp

theorem sentinelFrame (ops : IValueOps) :
    Frame ops (fun s s' => SentinelInv s → SentinelInv s') where
  refl := fun _ h => h
  trans := fun _ _ _ h1 h2 h => h2 (h1 h)
  storageIndex := by
    intro t s hs
    rcases storageIndex_cases t s with ⟨i, _, h⟩ | ⟨_, h⟩
    · rw [h]; exact hs
    · rw [h]; exact hs
  storeClass := by
    intro c _ s hs
    rcases storeClassTypeAndGetIndex_cases c s with ⟨i, _, h⟩ | ⟨_, h⟩
    · rw [h]; exact hs
    · rw [h]; exact hs
  insertRemember := by
    intro v offset _ s hs
    obtain ⟨c, hc, h⟩ := insertRemember_cases ops v offset s
    rw [h]
    refine ⟨head?_append_of_head? _ _ _ hs.1, ?_⟩
    intro p hp
    rcases hc with ⟨_, hc⟩ | hc
    · subst hc; exact hs.2 p hp
    · rcases cacheAssign_mem ops v _ _ c hc p hp with h1 | ⟨q, hq, h2⟩
      · have := length_pos_of_head? _ _ hs.1
        simp only at hp
        omega
      · have := hs.2 q hq
        omega
  insertFunction := by
    intro qn offset s hs
    rw [insertFunction_apply]
    exact ⟨head?_append_of_head? _ _ _ hs.1, hs.2⟩

theorem storageIndex_storageInv (t : Tensor) (s : Serializer) (hs : StorageInv s) :
    StorageInv (storageIndex t s).2 := by
  rcases storageIndex_cases t s with ⟨i, _, h⟩ | ⟨hnone, h⟩
  · rw [h]; exact hs
  · rw [h]
    constructor
    · intro a i hfind
      simp only [mapFind_mapAssign] at hfind
      split at hfind
      · rename_i heq
        simp only [Option.some.injEq] at hfind
        subst hfind
        exact ⟨t, by simp, heq.symm⟩
      · obtain ⟨t', ht', himpl⟩ := hs.1 a i hfind
        refine ⟨t', ?_, himpl⟩
        have hlt : i < s.tensor_data_.length := by
          by_contra hge
          rw [List.getElem?_eq_none (by omega)] at ht'
          cases ht'
        simp only
        rw [List.getElem?_append_left hlt]
        exact ht'
    · intro i t' ht'
      simp only at ht'
      simp only [mapFind_mapAssign]
      by_cases hlt : i < s.tensor_data_.length
      · rw [List.getElem?_append_left hlt] at ht'
        have hf := hs.2 i t' ht'
        have hne : ¬ t'.storage.impl = t.storage.impl := by
          intro e
          rw [e, hnone] at hf
          cases hf
        simp only [hne, if_false]
        exact hf
      · have hle : s.tensor_data_.length ≤ i := by omega
        rw [List.getElem?_append_right hle] at ht'
        have hi : i - s.tensor_data_.length = 0 := by
          by_contra hne
          rw [List.getElem?_eq_none (by simp; omega)] at ht'
          cases ht'
        rw [hi] at ht'
        simp only [List.getElem?_cons_zero, Option.some.injEq] at ht'
        subst ht'
        have : i = s.tensor_data_.length := by omega
        simp [this]

theorem storageIndex_memoKept (t : Tensor) (s : Serializer) : MemoKept s (storageIndex t s).2 := by
  rcases storageIndex_cases t s with ⟨i, _, h⟩ | ⟨hnone, h⟩
  · rw [h]; exact fun _ _ h => h
  · rw [h]
    intro a i hfind
    simp only [mapFind_mapAssign]
    have hne : ¬ a = t.storage.impl := by
      intro e
      rw [e, hnone] at hfind
      cases hfind
    simp only [hne, if_false]
    exact hfind

theorem storageTensorFrame :
    TensorFrame (fun s s' => MemoKept s s' ∧ (StorageInv s → StorageInv s')) where
  refl := fun _ => ⟨fun _ _ h => h, fun h => h⟩
  trans := fun _ _ _ h1 h2 => ⟨fun a i h => h2.1 a i (h1.1 a i h), fun h => h2.2 (h1.2 h)⟩
  storageIndex := fun t s => ⟨storageIndex_memoKept t s, storageIndex_storageInv t s⟩

theorem storageFrame (ops : IValueOps) :
    Frame ops (fun s s' => MemoKept s s' ∧ (StorageInv s → StorageInv s')) where
  toTensorFrame := storageTensorFrame
  storeClass := by
    intro c _ s
    rcases storeClassTypeAndGetIndex_cases c s with ⟨i, _, h⟩ | ⟨_, h⟩
    · rw [h]; exact ⟨fun _ _ h => h, fun h => h⟩
    · rw [h]; exact ⟨fun _ _ h => h, fun h => h⟩
  insertRemember := by
    intro v offset _ s
    obtain ⟨c, _, h⟩ := insertRemember_cases ops v offset s
    rw [h]
    exact ⟨fun _ _ h => h, fun h => h⟩
  insertFunction := by
    intro qn offset s
    rw [insertFunction_apply]
    exact ⟨fun _ _ h => h, fun h => h⟩

theorem start_sentinelInv (mcu : CompilationUnit) : SentinelInv (Serializer.start mcu) :=
  ⟨rfl, fun _ hp => (by cases hp)⟩

theorem start_storageInv (mcu : CompilationUnit) : StorageInv (Serializer.start mcu) :=
  ⟨fun _ _ h => (by cases h),
    fun i t h => (by simp [Serializer.start, insertIValue, Serializer.fresh] at h)⟩

theorem Session.sentinelInv {ops : IValueOps} {s : Serializer} (h : Session ops s) :
    SentinelInv s := by
  obtain ⟨mcu, hsteps⟩ := h
  exact steps_pres (sentinelFrame ops) hsteps (start_sentinelInv mcu)

theorem Session.storageInv {ops : IValueOps} {s : Serializer} (h : Session ops s) :
    StorageInv s := by
  obtain ⟨mcu, hsteps⟩ := h
  exact (steps_pres (storageFrame ops) hsteps).2 (start_storageInv mcu)

/-! ### The lookup and the registration of a value -/

theorem storeIValueAndGetIndexWith_none (ops : IValueOps) (encode : M FBIValue)
    (s : Serializer) : storeIValueAndGetIndexWith ops encode .None s = (.ok 0, s) := rfl

theorem storeIValueAndGetIndexWith_apply (ops : IValueOps) (encode : M FBIValue) (v : IValue)
    (s : Serializer) (hv : isNone v = false) :
    storeIValueAndGetIndexWith ops encode v s =
      match cacheFind ops s.cached_ivalues_ v with
      | some (some index) => (.ok index, s)
      | _ => (encode >>= fun offset => do
          let index ← insertIValue offset
          rememberIndex ops v index
          pure index) s := by
  unfold storeIValueAndGetIndexWith
  simp only [hv, Bool.false_eq_true, if_false]
  rw [bind_apply]
  unfold cachedIndex
  cases h : cacheFind ops s.cached_ivalues_ v with
  | none => rfl
  | some found =>
    cases found with
    | none => rfl
    | some index => rfl

theorem cacheScan_mem (ops : IValueOps) (h : Nat) (k : IValue) (i : Nat) :
    ∀ c : List (IValue × Nat), cacheScan ops h k c = some (some i) → ∃ p ∈ c, p.2 = i
  | [], hc => by simp [cacheScan] at hc
  | (k1, i1) :: rest, hc => by
    have ih := cacheScan_mem ops h k i rest
    simp only [cacheScan] at hc
    split at hc
    · split at hc
      · cases hc
      · simp only [Option.some.injEq] at hc
        exact ⟨(k1, i1), List.mem_cons_self _ _, hc⟩
      · obtain ⟨p, hp, e⟩ := ih hc
        exact ⟨p, List.mem_cons_of_mem _ hp, e⟩
    · obtain ⟨p, hp, e⟩ := ih hc
      exact ⟨p, List.mem_cons_of_mem _ hp, e⟩

theorem cacheFind_mem (ops : IValueOps) (k : IValue) (i : Nat) (c : List (IValue × Nat))
    (hc : cacheFind ops c k = some (some i)) : ∃ p ∈ c, p.2 = i := by
  unfold cacheFind at hc
  split at hc
  · cases hc
  · exact cacheScan_mem ops _ k i c hc

/-- After a registration that does not throw, the lookup finds the index. -/
theorem cacheScan_cacheAssignScan (ops : IValueOps) (h : Nat) (k : IValue) (index : Nat)
    (hh : ops.hash k = some h) (hrefl : ops.equals k k = some true) :
    ∀ c c' : List (IValue × Nat), cacheAssignScan ops h k index c = some c' →
      cacheScan ops h k c' = some (some index)
  | [], c', hc => by
    simp only [cacheAssignScan, Option.some.injEq] at hc
    subst hc
    simp [cacheScan, hh, hrefl]
  | (k1, i1) :: rest, c', hc => by
    have ih := cacheScan_cacheAssignScan ops h k index hh hrefl rest
    simp only [cacheAssignScan] at hc
    by_cases h1 : ops.hash k1 = some h
    · simp only [h1, if_true] at hc
      cases he : ops.equals k k1 with
      | none => rw [he] at hc; cases hc
      | some b =>
        rw [he] at hc
        cases b with
        | true =>
          simp only [Option.some.injEq] at hc
          subst hc
          simp [cacheScan, h1, he]
        | false =>
          simp only at hc
          cases hr : cacheAssignScan ops h k index rest with
          | none => rw [hr] at hc; cases hc
          | some c2 =>
            rw [hr] at hc
            simp only [Option.map_some', Option.some.injEq] at hc
            subst hc
            simp only [cacheScan, h1, if_true, he]
            exact ih c2 hr
    · simp only [h1, if_false] at hc
      cases hr : cacheAssignScan ops h k index rest with
      | none => rw [hr] at hc; cases hc
      | some c2 =>
        rw [hr] at hc
        simp only [Option.map_some', Option.some.injEq] at hc
        subst hc
        simp only [cacheScan, h1, if_false]
        exact ih c2 hr

/-- The registration of a hashable value whose comparisons return does not
throw. -/
theorem cacheAssignScan_isSome (ops : IValueOps) (h : Nat) (k : IValue) (index : Nat)
    (heq : ∀ k1, ops.equals k k1 ≠ none) :
    ∀ c : List (IValue × Nat), ∃ c', cacheAssignScan ops h k index c = some c'
  | [] => ⟨_, rfl⟩
  | (k1, i1) :: rest => by
    obtain ⟨c2, hr⟩ := cacheAssignScan_isSome ops h k index heq rest
    simp only [cacheAssignScan]
    cases he : ops.equals k k1 with
    | none => exact absurd he (heq k1)
    | some b =>
      cases b with
      | true =>
        by_cases h1 : ops.hash k1 = some h
        · simp [h1]
        · simp [h1, hr]
      | false =>
        by_cases h1 : ops.hash k1 = some h
        · simp [h1, hr]
        · simp [h1, hr]

/-! ### C1: the sentinel -/

/-- In a state with the sentinel invariant `storeIValueAndGetIndex` returns 0
exactly for the none value. -/
theorem storeIValueAndGetIndex_eq_zero_iff (ops : IValueOps) (s : Serializer)
    (hinv : SentinelInv s) (v : IValue) :
    (storeIValueAndGetIndex ops v s).1 = .ok 0 ↔ v = .None := by
  constructor
  · intro h0
    by_contra hv
    have hnone : isNone v = false := by
      cases v <;> first | rfl | exact absurd rfl hv
    unfold storeIValueAndGetIndex at h0
    rw [storeIValueAndGetIndexWith_apply ops _ v s hnone] at h0
    have hmiss : ((iValueToFB ops v >>= fun offset => do
        let index ← insertIValue offset
        rememberIndex ops v index
        pure index) s).1 ≠ .ok 0 := by
      rw [bind_apply]
      have hg := iValueToFB_pres (growsFrame ops) v s
      rcases he : iValueToFB ops v s with ⟨r, s1⟩
      rw [he] at hg
      cases r with
      | error e => simp
      | ok offset =>
        obtain ⟨c, _, h⟩ := insertRemember_cases ops v offset s1
        simp only
        rw [h]
        have h1 := length_pos_of_head? _ _ hinv.1
        have h2 : s.ivalue_offsets_.length ≤ s1.ivalue_offsets_.length :=
          hg.ivalues.length_le
        simp only [ne_eq, Except.ok.injEq]
        omega
    cases hf : cacheFind ops s.cached_ivalues_ v with
    | none => rw [hf] at h0; exact hmiss h0
    | some found =>
      cases found with
      | none => rw [hf] at h0; exact hmiss h0
      | some index =>
        rw [hf] at h0
        simp only [Except.ok.injEq] at h0
        obtain ⟨p, hp, e⟩ := cacheFind_mem ops v index _ hf
        have := hinv.2 p hp
        omega
  · intro hv
    subst hv
    rfl

/-- C1.  In every state of a session started by `serializeModule`, whatever
encoding operations have run, the record at position 0 of the value sequence
is the none record, and `storeIValueAndGetIndex` returns 0 exactly for the
none value: a value that is not none, found in the cache or not, gets an
index of at least 1. -/
theorem sentinel_invariant (ops : IValueOps) (s : Serializer) (hs : Session ops s) :
    s.ivalue_offsets_[0]? = some .NONE ∧
    (∀ v, (storeIValueAndGetIndex ops v s).1 = .ok 0 ↔ v = .None) ∧
    ∀ v i, v ≠ .None → (storeIValueAndGetIndex ops v s).1 = .ok i → 1 ≤ i := by
  have hinv := hs.sentinelInv
  refine ⟨?_, storeIValueAndGetIndex_eq_zero_iff ops s hinv, ?_⟩
  · have := hinv.1
    rw [List.head?_eq_getElem?] at this
    exact this
  · intro v i hv hi
    by_contra hlt
    have h0 : i = 0 := by omega
    subst h0
    exact hv ((storeIValueAndGetIndex_eq_zero_iff ops s hinv v).mp hi)

/-- C1, witness: the state after encoding the int `5` in a fresh session. -/
theorem sentinel_invariant_witness :
    Session sampleOps sampleState ∧
    (sampleState.ivalue_offsets_[0]? = some .NONE ∧
      (∀ v, (storeIValueAndGetIndex sampleOps v sampleState).1 = .ok 0 ↔ v = .None) ∧
      ∀ v i, v ≠ .None → (storeIValueAndGetIndex sampleOps v sampleState).1 = .ok i → 1 ≤ i) :=
  ⟨⟨⟨[]⟩, Steps.tail (Steps.refl _) (Step.storeIValue _ _)⟩,
    sentinel_invariant sampleOps sampleState
      ⟨⟨[]⟩, Steps.tail (Steps.refl _) (Step.storeIValue _ _)⟩⟩

/-! ### The entries of the cache stay in place -/

theorem cacheAssignScan_append_of_throw (ops : IValueOps) (h : Nat) (k : IValue) (index : Nat)
    (e : List (IValue × Nat)) :
    ∀ c : List (IValue × Nat), cacheScan ops h k c = none →
      cacheAssignScan ops h k index (c ++ e) = none
  | [], hc => by simp [cacheScan] at hc
  | (k1, i) :: rest, hc => by
    have ih := cacheAssignScan_append_of_throw ops h k index e rest
    simp only [cacheScan] at hc
    rw [List.cons_append, cacheAssignScan]
    by_cases hh : ops.hash k1 = some h
    · rw [if_pos hh] at hc ⊢
      cases he : ops.equals k k1 with
      | none => rfl
      | some b =>
        rw [he] at hc
        cases b with
        | true => cases hc
        | false =>
          dsimp only at hc ⊢
          rw [ih hc]
          rfl
    · rw [if_neg hh] at hc ⊢
      rw [ih hc]
      rfl

theorem cacheAssignScan_append_of_miss (ops : IValueOps) (h : Nat) (k : IValue) (index : Nat)
    (e : List (IValue × Nat)) :
    ∀ c : List (IValue × Nat), cacheScan ops h k c = some none →
      cacheAssignScan ops h k index (c ++ e)
        = (cacheAssignScan ops h k index e).map (fun c' => c ++ c')
  | [], _ => by simp
  | (k1, i) :: rest, hc => by
    have ih := cacheAssignScan_append_of_miss ops h k index e rest
    simp only [cacheScan] at hc
    rw [List.cons_append, cacheAssignScan]
    by_cases hh : ops.hash k1 = some h
    · rw [if_pos hh] at hc ⊢
      cases he : ops.equals k k1 with
      | none =>
        rw [he] at hc
        cases hc
      | some b =>
        rw [he] at hc
        cases b with
        | true => cases hc
        | false =>
          dsimp only at hc ⊢
          rw [ih hc, Option.map_map]
          rfl
    · rw [if_neg hh] at hc ⊢
      rw [ih hc, Option.map_map]
      rfl

theorem cacheScan_append_of_hit (ops : IValueOps) (h : Nat) (k : IValue) (j : Nat)
    (e : List (IValue × Nat)) :
    ∀ c : List (IValue × Nat), cacheScan ops h k c = some (some j) →
      cacheScan ops h k (c ++ e) = some (some j)
  | [], hc => by simp [cacheScan] at hc
  | (k1, i) :: rest, hc => by
    have ih := cacheScan_append_of_hit ops h k j e rest
    simp only [cacheScan] at hc
    rw [List.cons_append, cacheScan]
    by_cases hh : ops.hash k1 = some h
    · rw [if_pos hh] at hc ⊢
      cases he : ops.equals k k1 with
      | none =>
        rw [he] at hc
        cases hc
      | some b =>
        rw [he] at hc
        cases b with
        | true => exact hc
        | false => exact ih hc
    · rw [if_neg hh] at hc ⊢
      exact ih hc

/-- A value found in the cache is found, under the same index, in every
extension of the cache. -/
theorem cacheFind_of_cacheExt {ops : IValueOps} {s s' : Serializer} (hext : CacheExt s s')
    {v : IValue} {j : Nat} (hf : cacheFind ops s.cached_ivalues_ v = some (some j)) :
    cacheFind ops s'.cached_ivalues_ v = some (some j) := by
  obtain ⟨e, he⟩ := hext
  unfold cacheFind at hf ⊢
  cases hh : ops.hash v with
  | none =>
    rw [hh] at hf
    cases hf
  | some h =>
    rw [hh] at hf
    dsimp only at hf ⊢
    rw [← he]
    exact cacheScan_append_of_hit ops h v j e _ hf

theorem cacheExt_refl (s : Serializer) : CacheExt s s := List.prefix_refl _

theorem cacheExt_trans (a b c : Serializer) (h1 : CacheExt a b) (h2 : CacheExt b c) :
    CacheExt a c := List.IsPrefix.trans h1 h2

theorem cacheExtTensorFrame : TensorFrame CacheExt where
  refl := cacheExt_refl
  trans := cacheExt_trans
  storageIndex := by
    intro t s
    rcases storageIndex_cases t s with ⟨i, _, h⟩ | ⟨_, h⟩
    · rw [h]; exact cacheExt_refl s
    · rw [h]; exact List.prefix_refl _

theorem storeClassTypeAndGetIndex_cacheExt (c : ClassType) :
    Pres CacheExt (storeClassTypeAndGetIndex c) := by
  intro s
  rcases storeClassTypeAndGetIndex_cases c s with ⟨i, _, h⟩ | ⟨_, h⟩
  · rw [h]; exact cacheExt_refl s
  · rw [h]; exact List.prefix_refl _

/-- The registration of a value after a miss leaves the entries that were in
the cache at the lookup where they were: the scan of the registration makes
the comparisons of the lookup again, so it throws where the lookup threw, and
passes the entries the lookup passed. -/
theorem storeIValueAndGetIndexWith_cacheExt {ops : IValueOps} {encode : M FBIValue}
    (v : IValue) (henc : Pres CacheExt encode) :
    Pres CacheExt (storeIValueAndGetIndexWith ops encode v) := by
  intro s
  cases hn : isNone v with
  | true =>
    unfold storeIValueAndGetIndexWith
    rw [if_pos hn]
    exact cacheExt_refl s
  | false =>
    rw [storeIValueAndGetIndexWith_apply ops encode v s hn]
    have hrun : cacheFind ops s.cached_ivalues_ v = none ∨
        cacheFind ops s.cached_ivalues_ v = some none →
        CacheExt s ((encode >>= fun offset => (do
          let index ← insertIValue offset
          rememberIndex ops v index
          pure index : M Nat)) s).2 := by
      intro hmiss
      rw [bind_apply]
      have hext := henc s
      rcases hencs : encode s with ⟨r, s1⟩
      rw [hencs] at hext
      cases r with
      | error e => exact hext
      | ok offset =>
        dsimp only at hext ⊢
        obtain ⟨c, hc, happ⟩ := insertRemember_cases ops v offset s1
        rw [happ]
        show s.cached_ivalues_ <+: c
        rcases hc with ⟨_, hc⟩ | hc
        · rw [hc]
          exact hext
        · obtain ⟨e, he⟩ := hext
          unfold cacheAssign at hc
          unfold cacheFind at hmiss
          cases hh : ops.hash v with
          | none =>
            rw [hh] at hc
            cases hc
          | some h =>
            rw [hh] at hc hmiss
            dsimp only at hc hmiss
            rw [← he] at hc
            rcases hmiss with hthrow | hnone
            · rw [cacheAssignScan_append_of_throw ops h v _ e _ hthrow] at hc
              cases hc
            · rw [cacheAssignScan_append_of_miss ops h v _ e _ hnone] at hc
              cases hscan : cacheAssignScan ops h v s1.ivalue_offsets_.length e with
              | none =>
                rw [hscan] at hc
                cases hc
              | some c' =>
                rw [hscan] at hc
                simp only [Option.map_some', Option.some.injEq] at hc
                exact ⟨c', hc⟩
    cases hf : cacheFind ops s.cached_ivalues_ v with
    | none => exact hrun (Or.inl hf)
    | some found =>
      cases found with
      | none => exact hrun (Or.inr hf)
      | some index => exact cacheExt_refl s

mutual
theorem iValueToFB_cacheExt (ops : IValueOps) : ∀ v, Pres CacheExt (iValueToFB ops v)
  | .Tensor t => by
    rw [iValueToFB]
    exact Pres.bind cacheExt_trans (tensorToFB_pres cacheExtTensorFrame t)
      (fun _ => Pres.pure cacheExt_refl _)
  | .Tuple elements => by
    rw [iValueToFB]
    exact Pres.bind cacheExt_trans (storeIValuesAndGetIndexes_cacheExt ops elements)
      (fun _ => Pres.pure cacheExt_refl _)
  | .Double _ => by rw [iValueToFB]; exact Pres.pure cacheExt_refl _
  | .ComplexDouble _ _ => by rw [iValueToFB]; exact Pres.pure cacheExt_refl _
  | .Int _ => by rw [iValueToFB]; exact Pres.pure cacheExt_refl _
  | .Bool _ => by rw [iValueToFB]; exact Pres.pure cacheExt_refl _
  | .String _ => by rw [iValueToFB]; exact Pres.pure cacheExt_refl _
  | .GenericDict entries _ => by
    rw [iValueToFB]
    exact Pres.bind cacheExt_trans (storeDictEntries_cacheExt ops entries)
      (fun _ => Pres.pure cacheExt_refl _)
  | .None => by rw [iValueToFB]; exact Pres.pure cacheExt_refl _
  | .IntList _ => by rw [iValueToFB]; exact Pres.pure cacheExt_refl _
  | .DoubleList _ => by rw [iValueToFB]; exact Pres.pure cacheExt_refl _
  | .BoolList _ => by rw [iValueToFB]; exact Pres.pure cacheExt_refl _
  | .List elements _ => by
    rw [iValueToFB]
    exact Pres.bind cacheExt_trans (storeIValuesAndGetIndexes_cacheExt ops elements)
      (fun _ => Pres.pure cacheExt_refl _)
  | .Object type slots getstate => by
    rw [iValueToFB]
    refine Pres.bind cacheExt_trans ?_ (fun _ => Pres.pure cacheExt_refl _)
    unfold objectToFBWith
    split
    · exact Pres.bind cacheExt_trans
        (storeIValueAndGetIndexWith_cacheExt getstate (iValueToFB_cacheExt ops getstate))
        (fun _ => Pres.bind cacheExt_trans (Pres.of_state_eq cacheExt_refl (fun _ => rfl))
          (fun _ => Pres.bind cacheExt_trans (storeClassTypeAndGetIndex_cacheExt type)
            (fun _ => Pres.pure cacheExt_refl _)))
    · exact Pres.bind cacheExt_trans (storeSlots_cacheExt ops type.numAttributes slots)
        (fun _ => Pres.bind cacheExt_trans (storeClassTypeAndGetIndex_cacheExt type)
          (fun _ => Pres.pure cacheExt_refl _))
  | .Device _ => by rw [iValueToFB]; exact Pres.pure cacheExt_refl _
  | .Enum _ value => by
    rw [iValueToFB]
    exact Pres.bind cacheExt_trans
      (storeIValueAndGetIndexWith_cacheExt value (iValueToFB_cacheExt ops value))
      (fun _ => Pres.pure cacheExt_refl _)
  | .Other _ => by rw [iValueToFB]; exact Pres.throw cacheExt_refl _
theorem storeIValuesAndGetIndexes_cacheExt (ops : IValueOps) :
    ∀ vs, Pres CacheExt (storeIValuesAndGetIndexes ops vs)
  | [] => by rw [storeIValuesAndGetIndexes]; exact Pres.pure cacheExt_refl _
  | v :: rest => by
    rw [storeIValuesAndGetIndexes]
    exact Pres.bind cacheExt_trans
      (storeIValueAndGetIndexWith_cacheExt v (iValueToFB_cacheExt ops v))
      (fun _ => Pres.bind cacheExt_trans (storeIValuesAndGetIndexes_cacheExt ops rest)
        (fun _ => Pres.pure cacheExt_refl _))
theorem storeDictEntries_cacheExt (ops : IValueOps) :
    ∀ es, Pres CacheExt (storeDictEntries ops es)
  | [] => by rw [storeDictEntries]; exact Pres.pure cacheExt_refl _
  | (key, value) :: rest => by
    rw [storeDictEntries]
    exact Pres.bind cacheExt_trans
      (storeIValueAndGetIndexWith_cacheExt key (iValueToFB_cacheExt ops key))
      (fun _ => Pres.bind cacheExt_trans
        (storeIValueAndGetIndexWith_cacheExt value (iValueToFB_cacheExt ops value))
        (fun _ => Pres.bind cacheExt_trans (storeDictEntries_cacheExt ops rest)
          (fun _ => Pres.pure cacheExt_refl _)))
theorem storeSlots_cacheExt (ops : IValueOps) :
    ∀ n slots, Pres CacheExt (storeSlots ops n slots)
  | 0, _ => by rw [storeSlots]; exact Pres.pure cacheExt_refl _
  | _ + 1, [] => by rw [storeSlots]; exact Pres.throw cacheExt_refl _
  | n + 1, v :: rest => by
    rw [storeSlots]
    exact Pres.bind cacheExt_trans
      (storeIValueAndGetIndexWith_cacheExt v (iValueToFB_cacheExt ops v))
      (fun _ => Pres.bind cacheExt_trans (storeSlots_cacheExt ops n rest)
        (fun _ => Pres.pure cacheExt_refl _))
end

theorem storeIValueAndGetIndex_cacheExt (ops : IValueOps) (v : IValue) :
    Pres CacheExt (storeIValueAndGetIndex ops v) :=
  storeIValueAndGetIndexWith_cacheExt v (iValueToFB_cacheExt ops v)

theorem CreateFBSchemaArgs_cacheExt (ops : IValueOps) :
    ∀ args, Pres CacheExt (CreateFBSchemaArgs ops args)
  | [] => by rw [CreateFBSchemaArgs]; exact Pres.pure cacheExt_refl _
  | arg :: rest => by
    rw [CreateFBSchemaArgs]
    exact Pres.bind cacheExt_trans (storeIValueAndGetIndex_cacheExt ops _)
      (fun _ => Pres.bind cacheExt_trans (CreateFBSchemaArgs_cacheExt ops rest)
        (fun _ => Pres.pure cacheExt_refl _))

theorem schemaToFB_cacheExt (ops : IValueOps) :
    ∀ schema, Pres CacheExt (schemaToFB ops schema)
  | none => by rw [schemaToFB]; exact Pres.pure cacheExt_refl _
  | some schema => by
    rw [schemaToFB]
    split
    · exact Pres.throw cacheExt_refl _
    · split
      · exact Pres.throw cacheExt_refl _
      · split
        · exact Pres.throw cacheExt_refl _
        · refine Pres.bind cacheExt_trans ?_ (fun _ => Pres.bind cacheExt_trans ?_
            (fun _ => Pres.pure cacheExt_refl _))
          · unfold CreateFBSchema
            exact Pres.bind cacheExt_trans (CreateFBSchemaArgs_cacheExt ops _)
              (fun _ => Pres.bind cacheExt_trans (CreateFBSchemaArgs_cacheExt ops _)
                (fun _ => Pres.pure cacheExt_refl _))
          · unfold storeSchemaClass
            split
            · exact Pres.throw cacheExt_refl _
            · split
              · exact Pres.throw cacheExt_refl _
              · exact storeClassTypeAndGetIndex_cacheExt _

theorem storeFunctionAndGetIndex_cacheExt (ops : IValueOps) (qn : String) (func : Function) :
    Pres CacheExt (storeFunctionAndGetIndex ops qn func) := by
  unfold storeFunctionAndGetIndex
  refine Pres.bind cacheExt_trans (Pres.of_state_eq cacheExt_refl (fun _ => rfl)) ?_
  intro iter
  cases iter with
  | some second => exact Pres.pure cacheExt_refl _
  | none =>
    refine Pres.bind cacheExt_trans ?_ (fun offset s => ?_)
    · unfold functionToFB
      exact Pres.bind cacheExt_trans (Pres.of_state_eq cacheExt_refl (fun _ => rfl))
        (fun _ => Pres.bind cacheExt_trans (storeIValuesAndGetIndexes_cacheExt ops _)
          (fun _ => Pres.bind cacheExt_trans (Pres.of_state_eq cacheExt_refl (fun _ => rfl))
            (fun _ => Pres.bind cacheExt_trans (schemaToFB_cacheExt ops _)
              (fun _ => Pres.pure cacheExt_refl _))))
    · rw [insertFunction_apply]
      exact List.prefix_refl _

theorem steps_cacheExt {ops : IValueOps} {s s' : Serializer} (h : Steps ops s s') :
    CacheExt s s' := by
  induction h with
  | refl => exact cacheExt_refl _
  | tail _ hstep ih =>
    refine cacheExt_trans _ _ _ ih ?_
    cases hstep with
    | storeIValue v => exact storeIValueAndGetIndex_cacheExt ops v _
    | storeFunction qn f => exact storeFunctionAndGetIndex_cacheExt ops qn f _
    | storeClassType c => exact storeClassTypeAndGetIndex_cacheExt c _
    | tensor t => exact tensorToFB_pres cacheExtTensorFrame t _

/-! ### C3: a second encoding of a value is a cache hit -/

/-- C3, as amended.  For every state and every value that is not none, is
hashable, whose comparison with any key returns, and that compares equal to
itself: when `storeIValueAndGetIndex` has returned an index for the value,
every later call in the session, after any further encoding operations,
returns the same index and leaves the whole state as it is. -/
theorem dedup_idempotent (ops : IValueOps) (s s1 : Serializer) (v : IValue) (i : Nat)
    (hv : v ≠ .None) (hh : ops.hash v ≠ none) (hcmp : ∀ k, ops.equals v k ≠ none)
    (hrefl : ops.equals v v = some true)
    (h1 : storeIValueAndGetIndex ops v s = (.ok i, s1)) :
    ∀ s2, Steps ops s1 s2 → storeIValueAndGetIndex ops v s2 = (.ok i, s2) := by
  have hnone : isNone v = false := by
    cases v <;> first | rfl | exact absurd rfl hv
  have hit : ∀ s2 : Serializer, cacheFind ops s2.cached_ivalues_ v = some (some i) →
      storeIValueAndGetIndex ops v s2 = (.ok i, s2) := by
    intro s2 hf
    unfold storeIValueAndGetIndex
    rw [storeIValueAndGetIndexWith_apply ops _ v s2 hnone, hf]
  have miss : ((iValueToFB ops v >>= fun offset => do
      let index ← insertIValue offset
      rememberIndex ops v index
      pure index) s) = (.ok i, s1) → cacheFind ops s1.cached_ivalues_ v = some (some i) := by
    intro hm
    obtain ⟨offset, s', _, htail⟩ := bind_eq_ok hm
    obtain ⟨c, hc, happ⟩ := insertRemember_cases ops v offset s'
    rw [happ] at htail
    simp only [Prod.mk.injEq, Except.ok.injEq] at htail
    obtain ⟨hi, hs1⟩ := htail
    subst hs1
    cases hhash : ops.hash v with
    | none => exact absurd hhash hh
    | some h =>
      have hsome := cacheAssignScan_isSome ops h v s'.ivalue_offsets_.length hcmp
        s'.cached_ivalues_
      obtain ⟨c', hc'⟩ := hsome
      have hassign : cacheAssign ops s'.cached_ivalues_ v s'.ivalue_offsets_.length = some c' := by
        unfold cacheAssign
        rw [hhash]
        exact hc'
      rcases hc with ⟨hn, _⟩ | hc
      · rw [hassign] at hn; cases hn
      · rw [hassign] at hc
        simp only [Option.some.injEq] at hc
        subst hc
        simp only
        unfold cacheFind
        rw [hhash]
        simp only
        rw [← hi]
        exact cacheScan_cacheAssignScan ops h v _ hhash hrefl _ _ hc'
  have hfound : cacheFind ops s1.cached_ivalues_ v = some (some i) := by
    have h1' := h1
    unfold storeIValueAndGetIndex at h1'
    rw [storeIValueAndGetIndexWith_apply ops _ v s hnone] at h1'
    cases hf : cacheFind ops s.cached_ivalues_ v with
    | none =>
      rw [hf] at h1'
      exact miss h1'
    | some found =>
      cases found with
      | none =>
        rw [hf] at h1'
        exact miss h1'
      | some index =>
        rw [hf] at h1'
        simp only [Prod.mk.injEq, Except.ok.injEq] at h1'
        obtain ⟨hi, hs⟩ := h1'
        rw [← hs, ← hi]
        exact hf
  intro s2 hsteps
  exact hit s2 (cacheFind_of_cacheExt (steps_cacheExt hsteps) hfound)

/-- C3, witness: the int `5` in a fresh session, encoded again at once and
encoded again after the string `"m"` has been encoded. -/
theorem dedup_idempotent_witness :
    storeIValueAndGetIndex sampleOps (.Int 5) (Serializer.start ⟨[]⟩) = (.ok 1, sampleState) ∧
    storeIValueAndGetIndex sampleOps (.Int 5) sampleState = (.ok 1, sampleState) ∧
    (storeIValueAndGetIndex sampleOps (.String "m") sampleState).1 = .ok 2 ∧
    storeIValueAndGetIndex sampleOps (.Int 5)
      (storeIValueAndGetIndex sampleOps (.String "m") sampleState).2
      = (.ok 1, (storeIValueAndGetIndex sampleOps (.String "m") sampleState).2) :=
  ⟨rfl,
    dedup_idempotent sampleOps (Serializer.start ⟨[]⟩) sampleState (.Int 5) 1
      (by intro h; cases h) (by simp [sampleOps])
      (by intro k; cases k <;> simp [sampleOps]) (by simp [sampleOps]) rfl _ (Steps.refl _),
    rfl,
    dedup_idempotent sampleOps (Serializer.start ⟨[]⟩) sampleState (.Int 5) 1
      (by intro h; cases h) (by simp [sampleOps])
      (by intro k; cases k <;> simp [sampleOps]) (by simp [sampleOps]) rfl _
      (Steps.tail (Steps.refl _) (Step.storeIValue (.String "m") _))⟩

/-- C3, counterexample to the claim as stated.  A NaN double is not none, is
hashable, and its comparison with any key returns (with `false`, also against
itself); the first encoding in a fresh session returns index 1 and the second
encoding appends another record and returns index 2. -/
theorem dedup_nan_counterexample :
    sampleOps.hash (.Double sampleNaN) ≠ none ∧
    (∀ k, sampleOps.equals (.Double sampleNaN) k ≠ none) ∧
    (storeIValueAndGetIndex sampleOps (.Double sampleNaN) (Serializer.start ⟨[]⟩)).1 = .ok 1 ∧
    (storeIValueAndGetIndex sampleOps (.Double sampleNaN)
      (storeIValueAndGetIndex sampleOps (.Double sampleNaN) (Serializer.start ⟨[]⟩)).2).1
      = .ok 2 ∧
    (storeIValueAndGetIndex sampleOps (.Double sampleNaN)
      (storeIValueAndGetIndex sampleOps (.Double sampleNaN)
        (Serializer.start ⟨[]⟩)).2).2.ivalue_offsets_
      = [.NONE, .Double sampleNaN, .Double sampleNaN] :=
  ⟨by simp [sampleOps], by intro k; cases k <;> simp [sampleOps], rfl, rfl, rfl⟩

/-! ### C4: one storage slot per backing storage -/

theorem tensorToFB_ok_inv {t : Tensor} {s s' : Serializer} {m : TensorMetadata}
    (h : tensorToFB t s = (.ok m, s')) :
    ∃ q sa, qschemaToFB t.quantizer s = (.ok q, sa) ∧
      storageIndex t sa = (.ok m.storage_location_index, s') := by
  cases t with
  | mk storage scalar_type storage_offset sizes strides requires_grad element_size quant =>
    rw [tensorToFB] at h
    obtain ⟨q, sa, hq, h2⟩ := bind_eq_ok h
    obtain ⟨idx, sb, hidx, h3⟩ := bind_eq_ok h2
    rw [pure_apply] at h3
    simp only [Prod.mk.injEq, Except.ok.injEq] at h3
    obtain ⟨hm, hsb⟩ := h3
    subst hm hsb
    exact ⟨q, sa, hq, hidx⟩

/-- After a successful `tensorToFB` the storage of the tensor is registered
under the slot written into the record. -/
theorem tensorToFB_registered {t : Tensor} {s s' : Serializer} {m : TensorMetadata}
    (h : tensorToFB t s = (.ok m, s')) :
    mapFind s'.memoized_storage_map_ t.storage.impl = some m.storage_location_index := by
  obtain ⟨q, sa, _, hidx⟩ := tensorToFB_ok_inv h
  rcases storageIndex_cases t sa with ⟨i, hf, happ⟩ | ⟨_, happ⟩
  · rw [happ] at hidx
    simp only [Prod.mk.injEq, Except.ok.injEq] at hidx
    obtain ⟨hi, hs⟩ := hidx
    subst hs
    rw [← hi]
    exact hf
  · rw [happ] at hidx
    simp only [Prod.mk.injEq, Except.ok.injEq] at hidx
    obtain ⟨hi, hs⟩ := hidx
    subst hs
    simp [mapFind_mapAssign, hi]

/-- On a registered storage `tensorToFB` returns the registered slot, and
what it adds to the state is added by the quantization side-record. -/
theorem tensorToFB_hit {t : Tensor} {s s' : Serializer} {m : TensorMetadata} {a i : Nat}
    (ha : t.storage.impl = a) (hreg : mapFind s.memoized_storage_map_ a = some i)
    (h : tensorToFB t s = (.ok m, s')) :
    m.storage_location_index = i ∧ s' = (qschemaToFB t.quantizer s).2 := by
  obtain ⟨q, sa, hq, hidx⟩ := tensorToFB_ok_inv h
  have hkept : MemoKept s sa := by
    have := (qschemaToFB_pres storageTensorFrame t.quantizer s).1
    rw [hq] at this
    exact this
  have hreg' := hkept a i hreg
  rcases storageIndex_cases t sa with ⟨j, hf, happ⟩ | ⟨hnone, _⟩
  · rw [happ] at hidx
    simp only [Prod.mk.injEq, Except.ok.injEq] at hidx
    obtain ⟨hi, hs⟩ := hidx
    rw [ha, hreg'] at hf
    simp only [Option.some.injEq] at hf
    refine ⟨by omega, ?_⟩
    rw [hq, ← hs]
  · rw [ha, hreg'] at hnone
    cases hnone

/-- A successful encoding of the side-record of a tensor quantized per
channel is the encoding of its scales followed by that of its zero points. -/
theorem qschemaToFB_per_channel_ok_inv {float_qparams : Bool} {q_scales q_zero_points : Tensor}
    {q_axis : Int} {s s' : Serializer} {q : Option QuantizedSchema}
    (h : qschemaToFB (.per_channel float_qparams q_scales q_zero_points q_axis) s = (.ok q, s')) :
    ∃ scales sa zero_points, tensorToFB q_scales s = (.ok scales, sa) ∧
      tensorToFB q_zero_points sa = (.ok zero_points, s') := by
  rw [qschemaToFB] at h
  obtain ⟨scales, sa, hA, hB⟩ := bind_eq_ok h
  obtain ⟨zero_points, sb, hC, hD⟩ := bind_eq_ok hB
  rw [pure_apply] at hD
  simp only [Prod.mk.injEq, Except.ok.injEq] at hD
  rw [hD.2] at hC
  exact ⟨scales, sa, zero_points, hA, hC⟩

/-- C4, as amended.  When a tensor has been encoded by `tensorToFB` in a
session and, after any further encoding operations, a second tensor on the
same backing storage is encoded, both records carry the same storage slot, the
storage list holds exactly one tensor with that storage identity, and the
second encoding leaves the whole state unchanged unless the second tensor is
quantized per channel; the state it leaves is then the state the nested
encodings of its scales and of its zero points leave, so the entries it adds
are theirs. -/
theorem storage_dedup (ops : IValueOps) (s s1 s1' s2 : Serializer) (t1 t2 : Tensor)
    (m1 m2 : TensorMetadata) (hs : Session ops s)
    (hsame : t2.storage.impl = t1.storage.impl)
    (h1 : tensorToFB t1 s = (.ok m1, s1)) (hmid : Steps ops s1 s1')
    (h2 : tensorToFB t2 s1' = (.ok m2, s2)) :
    m2.storage_location_index = m1.storage_location_index ∧
    (∃! i : Nat, ∃ t : Tensor, s2.tensor_data_[i]? = some t ∧ t.storage.impl = t1.storage.impl) ∧
    (isPerChannel t2 = false → s2 = s1') ∧
    (∀ float_qparams q_scales q_zero_points q_axis,
      t2.quantizer = .per_channel float_qparams q_scales q_zero_points q_axis →
      ∃ scales sa zero_points, tensorToFB q_scales s1' = (.ok scales, sa) ∧
        tensorToFB q_zero_points sa = (.ok zero_points, s2)) := by
  have hreg1 := tensorToFB_registered h1
  have hreg1' := (steps_pres (storageFrame ops) hmid).1 _ _ hreg1
  obtain ⟨hidx, hstate⟩ := tensorToFB_hit hsame hreg1' h2
  have hreg2 := tensorToFB_registered h2
  rw [hsame] at hreg2
  have hsess : Session ops s2 := by
    obtain ⟨mcu, h0⟩ := hs
    have hs1 : Steps ops (Serializer.start mcu) s1 := by
      have := Steps.tail h0 (Step.tensor t1 s)
      rw [h1] at this
      exact this
    have hs1' : Steps ops (Serializer.start mcu) s1' := steps_trans hs1 hmid
    have := Steps.tail hs1' (Step.tensor t2 s1')
    rw [h2] at this
    exact ⟨mcu, this⟩
  have hinv := hsess.storageInv
  refine ⟨hidx, ?_, ?_, ?_⟩
  · obtain ⟨t, ht, himpl⟩ := hinv.1 _ _ hreg2
    refine ⟨m2.storage_location_index, ⟨t, ht, himpl⟩, ?_⟩
    rintro j ⟨t', ht', himpl'⟩
    have := hinv.2 j t' ht'
    rw [himpl', hreg2] at this
    simp only [Option.some.injEq] at this
    exact this.symm
  · intro hpc
    rw [hstate]
    cases t2 with
    | mk storage scalar_type storage_offset sizes strides requires_grad element_size quant =>
      cases quant with
      | not_quantized => rfl
      | per_tensor_affine _ _ => rfl
      | per_channel _ _ _ _ => simp [isPerChannel, Tensor.quantizer] at hpc
      | symmetric _ => rfl
  · intro float_qparams q_scales q_zero_points q_axis hq
    obtain ⟨q, sa, hqs, _⟩ := tensorToFB_ok_inv h2
    rw [hqs] at hstate
    rw [hq] at hqs
    rw [hstate]
    exact qschemaToFB_per_channel_ok_inv hqs

/-- C4, witness: `sampleTensor` and then its quantized view `sampleQTensor` in
a fresh session; the state the second encoding leaves is the one the
encodings of `sampleScales` and then `sampleZeroPoints` leave. -/
theorem storage_dedup_witness :
    sampleQTensor.storage.impl = sampleTensor.storage.impl ∧
    ((tensorToFB sampleQTensor (tensorToFB sampleTensor (Serializer.start ⟨[]⟩)).2).1.toOption.map
        TensorMetadata.storage_location_index
      = (tensorToFB sampleTensor (Serializer.start ⟨[]⟩)).1.toOption.map
        TensorMetadata.storage_location_index) ∧
    (∃! i : Nat, ∃ t : Tensor, (tensorToFB sampleQTensor
        (tensorToFB sampleTensor (Serializer.start ⟨[]⟩)).2).2.tensor_data_[i]? = some t ∧
      t.storage.impl = sampleTensor.storage.impl) ∧
    (∃ scales sa zero_points,
      tensorToFB sampleScales (tensorToFB sampleTensor (Serializer.start ⟨[]⟩)).2
        = (.ok scales, sa) ∧
      tensorToFB sampleZeroPoints sa = (.ok zero_points, (tensorToFB sampleQTensor
        (tensorToFB sampleTensor (Serializer.start ⟨[]⟩)).2).2)) := by
  have h := storage_dedup sampleOps (Serializer.start ⟨[]⟩)
    (tensorToFB sampleTensor (Serializer.start ⟨[]⟩)).2
    (tensorToFB sampleTensor (Serializer.start ⟨[]⟩)).2
    (tensorToFB sampleQTensor (tensorToFB sampleTensor (Serializer.start ⟨[]⟩)).2).2
    sampleTensor sampleQTensor _ _ ⟨⟨[]⟩, Steps.refl _⟩ rfl rfl (Steps.refl _) rfl
  exact ⟨rfl, by rfl, h.2.1, h.2.2.2 false sampleScales sampleZeroPoints 0 rfl⟩

/-- C4, counterexample to the claim as stated.  `sampleQTensor` shares the
storage of `sampleTensor`; encoded after it, it gets the same slot 0, and the
second encoding adds two entries to the storage list, for the storages of its
scales and zero points. -/
theorem storage_dedup_counterexample :
    sampleQTensor.storage.impl = sampleTensor.storage.impl ∧
    (tensorToFB sampleTensor (Serializer.start ⟨[]⟩)).1.toOption.map
      TensorMetadata.storage_location_index = some 0 ∧
    (tensorToFB sampleQTensor (tensorToFB sampleTensor (Serializer.start ⟨[]⟩)).2).1.toOption.map
      TensorMetadata.storage_location_index = some 0 ∧
    (tensorToFB sampleTensor (Serializer.start ⟨[]⟩)).2.tensor_data_.length = 1 ∧
    (tensorToFB sampleQTensor
      (tensorToFB sampleTensor (Serializer.start ⟨[]⟩)).2).2.tensor_data_.length = 3 :=
  ⟨rfl, rfl, rfl, rfl, rfl⟩

/-! ### C2: references point backwards -/

theorem sameValuesTensorFrame : TensorFrame SameValues where
  refl := fun _ => ⟨rfl, rfl, rfl, rfl, rfl⟩
  trans := fun _ _ _ h1 h2 =>
    ⟨h2.1.trans h1.1, h2.2.1.trans h1.2.1, h2.2.2.1.trans h1.2.2.1,
      h2.2.2.2.1.trans h1.2.2.2.1, h2.2.2.2.2.trans h1.2.2.2.2⟩
  storageIndex := by
    intro t s
    rcases storageIndex_cases t s with ⟨i, _, h⟩ | ⟨_, h⟩
    · rw [h]; exact ⟨rfl, rfl, rfl, rfl, rfl⟩
    · rw [h]; exact ⟨rfl, rfl, rfl, rfl, rfl⟩

theorem DagInv.of_sameValues {k : Nat} {s s' : Serializer} (h : SameValues s s')
    (hs : DagInv k s) : DagInv k s' := by
  obtain ⟨h1, h2, h3, h4, _⟩ := h
  exact ⟨by rw [h1]; exact hs.dag, by rw [h1, h2]; exact hs.cache,
    by rw [h1, h3]; exact hs.qn, by rw [h1, h4]; exact hs.types, by rw [h1]; exact hs.pos⟩

theorem DagInv.weaken {s : Serializer} (hs : DagInv 1 s) : DagInv 0 s :=
  ⟨hs.dag, hs.cache, hs.qn, by have := hs.types; omega, hs.pos⟩

theorem mapFind_mem {κ : Type} [DecidableEq κ] (m : List (κ × Nat)) (k : κ) (r : Nat)
    (h : mapFind m k = some r) : ∃ p ∈ m, p.2 = r := by
  induction m with
  | nil => simp [mapFind] at h
  | cons p rest ih =>
    obtain ⟨k1, v1⟩ := p
    simp only [mapFind] at h
    split at h
    · simp only [Option.some.injEq] at h
      exact ⟨(k1, v1), List.mem_cons_self _ _, h⟩
    · obtain ⟨q, hq, e⟩ := ih h
      exact ⟨q, List.mem_cons_of_mem _ hq, e⟩

theorem mapAssign_mem {κ : Type} [DecidableEq κ] (m : List (κ × Nat)) (k : κ) (v : Nat) :
    ∀ p ∈ mapAssign m k v, p.2 = v ∨ ∃ q ∈ m, q.2 = p.2 := by
  induction m with
  | nil =>
    intro p hp
    simp only [mapAssign, List.mem_singleton] at hp
    subst hp
    exact Or.inl rfl
  | cons p0 rest ih =>
    obtain ⟨k1, v1⟩ := p0
    intro p hp
    simp only [mapAssign] at hp
    split at hp
    · rcases List.mem_cons.mp hp with hp | hp
      · subst hp; exact Or.inl rfl
      · exact Or.inr ⟨p, List.mem_cons_of_mem _ hp, rfl⟩
    · rcases List.mem_cons.mp hp with hp | hp
      · subst hp; exact Or.inr ⟨(k1, v1), List.mem_cons_self _ _, rfl⟩
      · rcases ih p hp with h1 | ⟨q, hq, h2⟩
        · exact Or.inl h1
        · exact Or.inr ⟨q, List.mem_cons_of_mem _ hq, h2⟩

/-- Appending a record whose references are positions of the sequence keeps
the references pointing backwards. -/
theorem dag_append (l : List FBIValue) (rec : FBIValue)
    (hl : ∀ i r0, l[i]? = some r0 → ∀ r ∈ valueRefs r0, r < i)
    (hrec : ∀ r ∈ valueRefs rec, r < l.length) :
    ∀ i r0, (l ++ [rec])[i]? = some r0 → ∀ r ∈ valueRefs r0, r < i := by
  intro i r0 hi r hr
  by_cases hlt : i < l.length
  · rw [List.getElem?_append_left hlt] at hi
    exact hl i r0 hi r hr
  · have hle : l.length ≤ i := by omega
    rw [List.getElem?_append_right hle] at hi
    have h0 : i - l.length = 0 := by
      by_contra hne
      rw [List.getElem?_eq_none (by simp; omega)] at hi
      cases hi
    rw [h0] at hi
    simp only [List.getElem?_cons_zero, Option.some.injEq] at hi
    subst hi
    have := hrec r hr
    omega

theorem insertRemember_dag (ops : IValueOps) (v : IValue) (rec : FBIValue) (s s' : Serializer)
    (a : Nat) (hs : DagInv 0 s) (hrec : ∀ r ∈ valueRefs rec, r < s.ivalue_offsets_.length)
    (h : (do
      let index ← insertIValue rec
      rememberIndex ops v index
      pure index : M Nat) s = (.ok a, s')) : DagPost 1 [a] s s' := by
  obtain ⟨c, hc, happ⟩ := insertRemember_cases ops v rec s
  rw [happ] at h
  simp only [Prod.mk.injEq, Except.ok.injEq] at h
  obtain ⟨ha, hs'⟩ := h
  subst ha hs'
  refine ⟨⟨?_, ?_, ?_, ?_, ?_⟩, ?_, ?_⟩
  · exact dag_append _ _ hs.dag hrec
  · intro p hp
    simp only [List.length_append, List.length_singleton]
    rcases hc with ⟨_, hc⟩ | hc
    · subst hc
      have := hs.cache p hp
      omega
    · rcases cacheAssign_mem ops v _ _ c hc p hp with h1 | ⟨q, hq, h2⟩
      · omega
      · have := hs.cache q hq
        omega
  · intro p hp
    have := hs.qn p hp
    simp only [List.length_append, List.length_singleton]
    omega
  · have := hs.types
    simp only [List.length_append, List.length_singleton]
    omega
  · simp
  · intro r hr
    simp only [List.mem_singleton] at hr
    subst hr
    simp
  · simp

theorem storeIValueAndGetIndexWith_dag {ops : IValueOps} {encode : M FBIValue} (v : IValue)
    (henc : DagSpec 0 valueRefs encode) :
    DagSpec 1 (fun a => [a]) (storeIValueAndGetIndexWith ops encode v) := by
  intro s a s' hs h
  by_cases hv : isNone v = true
  · unfold storeIValueAndGetIndexWith at h
    simp only [hv, if_true, pure_apply, Prod.mk.injEq, Except.ok.injEq] at h
    obtain ⟨ha, hs'⟩ := h
    subst ha hs'
    refine ⟨hs, ?_, Nat.le_refl _⟩
    intro r hr
    simp only [List.mem_singleton] at hr
    subst hr
    exact hs.pos
  · have hnone : isNone v = false := by simpa using hv
    rw [storeIValueAndGetIndexWith_apply ops _ v s hnone] at h
    have miss : ((encode >>= fun offset => do
        let index ← insertIValue offset
        rememberIndex ops v index
        pure index) s) = (.ok a, s') → DagPost 1 [a] s s' := by
      intro hm
      obtain ⟨rec, s1, he, htail⟩ := bind_eq_ok hm
      have h1 := henc s rec s1 hs he
      have h2 := insertRemember_dag ops v rec s1 s' a h1.inv h1.refs htail
      exact ⟨h2.inv, h2.refs, Nat.le_trans h1.le h2.le⟩
    cases hf : cacheFind ops s.cached_ivalues_ v with
    | none => rw [hf] at h; exact miss h
    | some found =>
      cases found with
      | none => rw [hf] at h; exact miss h
      | some index =>
        rw [hf] at h
        simp only [Prod.mk.injEq, Except.ok.injEq] at h
        obtain ⟨ha, hs'⟩ := h
        subst ha hs'
        obtain ⟨p, hp, e⟩ := cacheFind_mem ops v index _ hf
        refine ⟨hs, ?_, Nat.le_refl _⟩
        intro r hr
        simp only [List.mem_singleton] at hr
        subst hr
        have := hs.cache p hp
        omega

theorem storeClassTypeAndGetIndex_dag (c : ClassType) (s s' : Serializer) (r : Nat)
    (hs : DagInv 1 s) (h : storeClassTypeAndGetIndex c s = (.ok r, s')) :
    DagInv 0 s' ∧ s'.ivalue_offsets_ = s.ivalue_offsets_ := by
  rcases storeClassTypeAndGetIndex_cases c s with ⟨i, _, happ⟩ | ⟨_, happ⟩
  · rw [happ] at h
    simp only [Prod.mk.injEq, Except.ok.injEq] at h
    obtain ⟨_, hs'⟩ := h
    subst hs'
    exact ⟨hs.weaken, rfl⟩
  · rw [happ] at h
    simp only [Prod.mk.injEq, Except.ok.injEq] at h
    obtain ⟨_, hs'⟩ := h
    subst hs'
    refine ⟨⟨hs.dag, hs.cache, ?_, ?_, hs.pos⟩, rfl⟩
    · intro p hp
      rcases mapAssign_mem _ _ _ p hp with h1 | ⟨q, hq, h2⟩
      · have := hs.types
        simp only
        omega
      · have := hs.qn q hq
        simp only
        omega
    · have := hs.types
      simp only [List.length_append, List.length_singleton]
      omega

theorem objectToFBWith_dag (type : ClassType) {storeState : M Nat} {storeSlots : M (List Nat)}
    (hstate : DagSpec 1 (fun a => [a]) storeState) (hslots : DagSpec 1 id storeSlots) :
    DagSpec 0 (fun o => valueRefs (.Object o)) (objectToFBWith type storeState storeSlots) := by
  intro s o s' hs h
  unfold objectToFBWith at h
  split at h
  · obtain ⟨state_index, s1, h1, h⟩ := bind_eq_ok h
    obtain ⟨func_index, s2, h2, h⟩ := bind_eq_ok h
    rw [findQn_apply] at h2
    simp only [Prod.mk.injEq, Except.ok.injEq] at h2
    obtain ⟨hfi, hs2⟩ := h2
    subst hs2
    dsimp only at h
    obtain ⟨type_index, s3, h3, h⟩ := bind_eq_ok h
    rw [pure_apply] at h
    simp only [Prod.mk.injEq, Except.ok.injEq] at h
    obtain ⟨ho, hs3⟩ := h
    subst hs3
    have p1 := hstate s state_index s1 hs h1
    obtain ⟨p3, hiv⟩ := storeClassTypeAndGetIndex_dag type s1 s3 type_index p1.inv h3
    refine ⟨p3, ?_, by rw [hiv]; exact p1.le⟩
    intro r hr
    rw [hiv]
    subst ho
    simp only [valueRefs, Option.getD_none, List.mem_cons, List.mem_nil_iff, or_false] at hr
    rcases hr with hr | hr
    · subst hr
      exact p1.refs _ (List.mem_singleton_self _)
    · subst hr
      cases func_index with
      | none => exact p1.inv.pos
      | some second =>
        obtain ⟨p, hp, e⟩ := mapFind_mem _ _ _ hfi
        have := p1.inv.qn p hp
        simp only
        omega
  · obtain ⟨tuple_index, s1, h1, h⟩ := bind_eq_ok h
    obtain ⟨type_index, s3, h3, h⟩ := bind_eq_ok h
    rw [pure_apply] at h
    simp only [Prod.mk.injEq, Except.ok.injEq] at h
    obtain ⟨ho, hs3⟩ := h
    subst hs3
    have p1 := hslots s tuple_index s1 hs h1
    obtain ⟨p3, hiv⟩ := storeClassTypeAndGetIndex_dag type s1 s3 type_index p1.inv h3
    refine ⟨p3, ?_, by rw [hiv]; exact p1.le⟩
    intro r hr
    rw [hiv]
    subst ho
    simp only [valueRefs, Option.getD_some, List.mem_cons] at hr
    rcases hr with hr | hr | hr
    · subst hr; exact p1.inv.pos
    · subst hr; exact p1.inv.pos
    · exact p1.refs r hr

/-- A step that returns the index of one value, followed by a loop that
returns the indices of the others. -/
theorem dag_cons {first : M Nat} {rest : M (List Nat)}
    (hfirst : DagSpec 1 (fun a => [a]) first) (hrest : DagSpec 1 id rest) :
    DagSpec 1 id (do
      let index ← first
      let indexes ← rest
      pure (index :: indexes)) := by
  intro s l s' hs h
  obtain ⟨index, s1, h1, h⟩ := bind_eq_ok h
  obtain ⟨indexes, s2, h2, h⟩ := bind_eq_ok h
  rw [pure_apply] at h
  simp only [Prod.mk.injEq, Except.ok.injEq] at h
  obtain ⟨hl, hs2⟩ := h
  subst hl hs2
  have p1 := hfirst s index s1 hs h1
  have p2 := hrest s1 indexes s2 p1.inv h2
  refine ⟨p2.inv, ?_, Nat.le_trans p1.le p2.le⟩
  intro r hr
  simp only [id, List.mem_cons] at hr
  rcases hr with hr | hr
  · subst hr
    have := p1.refs _ (List.mem_singleton_self _)
    have := p2.le
    omega
  · exact p2.refs r hr

theorem dag_pure_nil : DagSpec 1 id (pure [] : M (List Nat)) := by
  intro s l s' hs h
  rw [pure_apply] at h
  simp only [Prod.mk.injEq, Except.ok.injEq] at h
  obtain ⟨hl, hs'⟩ := h
  subst hl hs'
  exact ⟨hs, fun r hr => (by cases hr), Nat.le_refl _⟩

/-- A record without references. -/
theorem dag_pure_leaf (rec : FBIValue) (hrec : valueRefs rec = []) :
    DagSpec 0 valueRefs (pure rec : M FBIValue) := by
  intro s a s' hs h
  rw [pure_apply] at h
  simp only [Prod.mk.injEq, Except.ok.injEq] at h
  obtain ⟨ha, hs'⟩ := h
  subst ha hs'
  exact ⟨hs.weaken, fun r hr => (by rw [hrec] at hr; cases hr), Nat.le_refl _⟩

/-- A record built from the indices a loop returns. -/
theorem dag_wrap {α : Type} {k : Nat} {refs : α → List Nat} {m : M α} (wrap : α → FBIValue)
    (hm : DagSpec k refs m) (hwrap : ∀ a, valueRefs (wrap a) = refs a) :
    DagSpec 0 valueRefs (do
      let a ← m
      pure (wrap a)) := by
  intro s rec s' hs h
  obtain ⟨a, s1, h1, h⟩ := bind_eq_ok h
  rw [pure_apply] at h
  simp only [Prod.mk.injEq, Except.ok.injEq] at h
  obtain ⟨hr, hs1⟩ := h
  subst hr hs1
  have p1 := hm s a s1 hs h1
  refine ⟨⟨p1.inv.dag, p1.inv.cache, p1.inv.qn, ?_, p1.inv.pos⟩, ?_, p1.le⟩
  · have := p1.inv.types
    omega
  · rw [hwrap]
    exact p1.refs

theorem tensorToFB_dag (t : Tensor) : DagSpec 1 (fun _ => []) (tensorToFB t) := by
  intro s a s' hs h
  have hsame := tensorToFB_pres sameValuesTensorFrame t s
  rw [h] at hsame
  exact ⟨DagInv.of_sameValues hsame hs, fun r hr => (by cases hr), by
    have := hsame.1
    simp only at this
    rw [this]⟩

mutual
theorem iValueToFB_dag (ops : IValueOps) : ∀ v, DagSpec 0 valueRefs (iValueToFB ops v)
  | .Tensor t => by
    rw [iValueToFB]
    exact dag_wrap FBIValue.TensorMetadata (tensorToFB_dag t) (fun _ => rfl)
  | .Tuple elements => by
    rw [iValueToFB]
    exact dag_wrap FBIValue.Tuple (storeIValuesAndGetIndexes_dag ops elements) (fun _ => rfl)
  | .Double _ => by rw [iValueToFB]; exact dag_pure_leaf _ rfl
  | .ComplexDouble _ _ => by rw [iValueToFB]; exact dag_pure_leaf _ rfl
  | .Int _ => by rw [iValueToFB]; exact dag_pure_leaf _ rfl
  | .Bool _ => by rw [iValueToFB]; exact dag_pure_leaf _ rfl
  | .String _ => by rw [iValueToFB]; exact dag_pure_leaf _ rfl
  | .GenericDict entries type_str => by
    rw [iValueToFB]
    exact dag_wrap (fun kv : List Nat × List Nat => FBIValue.Dict kv.1 kv.2 type_str)
      (storeDictEntries_dag ops entries) (fun _ => rfl)
  | .None => by rw [iValueToFB]; exact dag_pure_leaf _ rfl
  | .IntList _ => by rw [iValueToFB]; exact dag_pure_leaf _ rfl
  | .DoubleList _ => by rw [iValueToFB]; exact dag_pure_leaf _ rfl
  | .BoolList _ => by rw [iValueToFB]; exact dag_pure_leaf _ rfl
  | .List elements type_str => by
    rw [iValueToFB]
    exact dag_wrap (fun items => FBIValue.List items type_str)
      (storeIValuesAndGetIndexes_dag ops elements) (fun _ => rfl)
  | .Object type slots getstate => by
    rw [iValueToFB]
    exact dag_wrap FBIValue.Object
      (objectToFBWith_dag type
        (storeIValueAndGetIndexWith_dag getstate (iValueToFB_dag ops getstate))
        (storeSlots_dag ops type.numAttributes slots))
      (fun _ => rfl)
  | .Device _ => by rw [iValueToFB]; exact dag_pure_leaf _ rfl
  | .Enum qualifiedClassName value => by
    rw [iValueToFB]
    exact dag_wrap (FBIValue.EnumValue qualifiedClassName)
      (storeIValueAndGetIndexWith_dag value (iValueToFB_dag ops value)) (fun _ => rfl)
  | .Other _ => by
    rw [iValueToFB]
    intro s a s' _ h
    rw [throw_apply] at h
    cases h
theorem storeIValuesAndGetIndexes_dag (ops : IValueOps) :
    ∀ vs, DagSpec 1 id (storeIValuesAndGetIndexes ops vs)
  | [] => by rw [storeIValuesAndGetIndexes]; exact dag_pure_nil
  | v :: rest => by
    rw [storeIValuesAndGetIndexes]
    exact dag_cons (storeIValueAndGetIndexWith_dag v (iValueToFB_dag ops v))
      (storeIValuesAndGetIndexes_dag ops rest)
theorem storeDictEntries_dag (ops : IValueOps) :
    ∀ es, DagSpec 1 (fun kv => kv.1 ++ kv.2) (storeDictEntries ops es)
  | [] => by
    rw [storeDictEntries]
    intro s a s' hs h
    rw [pure_apply] at h
    simp only [Prod.mk.injEq, Except.ok.injEq] at h
    obtain ⟨ha, hs'⟩ := h
    subst ha hs'
    exact ⟨hs, fun r hr => (by cases hr), Nat.le_refl _⟩
  | (key, value) :: rest => by
    rw [storeDictEntries]
    intro s a s' hs h
    obtain ⟨key_index, s1, h1, h⟩ := bind_eq_ok h
    obtain ⟨value_index, s2, h2, h⟩ := bind_eq_ok h
    obtain ⟨kv, s3, h3, h⟩ := bind_eq_ok h
    rw [pure_apply] at h
    simp only [Prod.mk.injEq, Except.ok.injEq] at h
    obtain ⟨ha, hs3⟩ := h
    subst ha hs3
    have p1 := storeIValueAndGetIndexWith_dag key (iValueToFB_dag ops key) s key_index s1 hs h1
    have p2 := storeIValueAndGetIndexWith_dag value (iValueToFB_dag ops value) s1 value_index
      s2 p1.inv h2
    have p3 := storeDictEntries_dag ops rest s2 kv s3 p2.inv h3
    refine ⟨p3.inv, ?_, Nat.le_trans p1.le (Nat.le_trans p2.le p3.le)⟩
    intro r hr
    have q1 := p1.refs _ (List.mem_singleton_self _)
    have q2 := p2.refs _ (List.mem_singleton_self _)
    have l2 := p2.le
    have l3 := p3.le
    simp only [List.mem_append, List.mem_cons] at hr
    rcases hr with (hr | hr) | (hr | hr)
    · subst hr; omega
    · exact p3.refs r (List.mem_append_left _ hr)
    · subst hr; omega
    · exact p3.refs r (List.mem_append_right _ hr)
theorem storeSlots_dag (ops : IValueOps) : ∀ n vs, DagSpec 1 id (storeSlots ops n vs)
  | 0, _ => by rw [storeSlots]; exact dag_pure_nil
  | _ + 1, [] => by
    rw [storeSlots]
    intro s a s' _ h
    rw [throw_apply] at h
    cases h
  | n + 1, v :: rest => by
    rw [storeSlots]
    exact dag_cons (storeIValueAndGetIndexWith_dag v (iValueToFB_dag ops v))
      (storeSlots_dag ops n rest)
end

theorem storeIValueAndGetIndex_dag (ops : IValueOps) (v : IValue) :
    DagSpec 1 (fun a => [a]) (storeIValueAndGetIndex ops v) :=
  storeIValueAndGetIndexWith_dag v (iValueToFB_dag ops v)

theorem CreateFBSchemaArgs_dag (ops : IValueOps) :
    ∀ args, DagSpec 1 (fun l => l.map Arg.default_value) (CreateFBSchemaArgs ops args)
  | [] => by
    rw [CreateFBSchemaArgs]
    intro s a s' hs h
    rw [pure_apply] at h
    simp only [Prod.mk.injEq, Except.ok.injEq] at h
    obtain ⟨ha, hs'⟩ := h
    subst ha hs'
    exact ⟨hs, fun r hr => (by cases hr), Nat.le_refl _⟩
  | arg :: rest => by
    rw [CreateFBSchemaArgs]
    intro s a s' hs h
    obtain ⟨index, s1, h1, h⟩ := bind_eq_ok h
    obtain ⟨arg_vec, s2, h2, h⟩ := bind_eq_ok h
    rw [pure_apply] at h
    simp only [Prod.mk.injEq, Except.ok.injEq] at h
    obtain ⟨ha, hs2⟩ := h
    subst ha hs2
    have p1 := storeIValueAndGetIndex_dag ops _ s index s1 hs h1
    have p2 := CreateFBSchemaArgs_dag ops rest s1 arg_vec s2 p1.inv h2
    refine ⟨p2.inv, ?_, Nat.le_trans p1.le p2.le⟩
    intro r hr
    simp only [List.map_cons, List.mem_cons] at hr
    rcases hr with hr | hr
    · subst hr
      have := p1.refs _ (List.mem_singleton_self _)
      have := p2.le
      omega
    · exact p2.refs r hr

theorem CreateFBSchema_dag (ops : IValueOps) (args returns : List Argument) :
    DagSpec 1 (fun sc => schemaRefs (some sc)) (CreateFBSchema ops args returns) := by
  unfold CreateFBSchema
  intro s a s' hs h
  obtain ⟨arg_vec, s1, h1, h⟩ := bind_eq_ok h
  obtain ⟨return_vec, s2, h2, h⟩ := bind_eq_ok h
  rw [pure_apply] at h
  simp only [Prod.mk.injEq, Except.ok.injEq] at h
  obtain ⟨ha, hs2⟩ := h
  subst ha hs2
  have p1 := CreateFBSchemaArgs_dag ops args s arg_vec s1 hs h1
  have p2 := CreateFBSchemaArgs_dag ops returns s1 return_vec s2 p1.inv h2
  refine ⟨p2.inv, ?_, Nat.le_trans p1.le p2.le⟩
  intro r hr
  simp only [schemaRefs, List.mem_append] at hr
  rcases hr with hr | hr
  · have := p1.refs r hr
    have := p2.le
    omega
  · exact p2.refs r hr

/-- The class of a schema is stored only when the schema has a first argument
of class type. -/
theorem storeSchemaClass_ok_inv {schema : FunctionSchema} {s s' : Serializer} {r : Nat}
    (h : storeSchemaClass schema s = (.ok r, s')) :
    ∃ arg0 rest classtype, schema.arguments = arg0 :: rest ∧
      arg0.type.castClassType = some classtype ∧
      storeClassTypeAndGetIndex classtype s = (.ok r, s') := by
  unfold storeSchemaClass at h
  cases hargs : schema.arguments with
  | nil =>
    rw [hargs] at h
    cases h
  | cons arg0 rest =>
    rw [hargs] at h
    cases hcast : arg0.type.castClassType with
    | none =>
      simp only [hcast] at h
      cases h
    | some classtype =>
      simp only [hcast] at h
      exact ⟨arg0, rest, classtype, rfl, hcast, h⟩

theorem storeSchemaClass_dag (schema : FunctionSchema) (s s' : Serializer) (r : Nat)
    (hs : DagInv 1 s) (h : storeSchemaClass schema s = (.ok r, s')) :
    DagInv 0 s' ∧ s'.ivalue_offsets_ = s.ivalue_offsets_ := by
  obtain ⟨arg0, rest, classtype, _, _, hc⟩ := storeSchemaClass_ok_inv h
  exact storeClassTypeAndGetIndex_dag _ s s' r hs hc

/-- A schema is accepted only without overload name, variable arguments and
variable returns; `schemaToFB` then encodes it and stores the class. -/
theorem schemaToFB_some_apply (ops : IValueOps) (schema : FunctionSchema) (s : Serializer) :
    schemaToFB ops (some schema) s =
      if schema.overload_name ≠ "" then (.error .overloads, s)
      else if schema.is_vararg then (.error .vararg, s)
      else if schema.is_varret then (.error .varret, s)
      else (do
        let schema_offset ← CreateFBSchema ops schema.arguments schema.returns
        let class_index ← storeSchemaClass schema
        pure (some schema_offset, class_index) : M (Option Schema × Nat)) s := by
  rw [schemaToFB]
  by_cases h1 : schema.overload_name ≠ ""
  · rw [if_pos h1, if_pos h1]; rfl
  · rw [if_neg h1, if_neg h1]
    by_cases h2 : schema.is_vararg = true
    · rw [if_pos h2, if_pos h2]; rfl
    · rw [if_neg h2, if_neg h2]
      by_cases h3 : schema.is_varret = true
      · rw [if_pos h3, if_pos h3]; rfl
      · rw [if_neg h3, if_neg h3]

theorem schemaToFB_dag (ops : IValueOps) :
    ∀ schema, DagSpec 0 (fun sc => schemaRefs sc.1) (schemaToFB ops schema)
  | none => by
    rw [schemaToFB]
    intro s a s' hs h
    rw [pure_apply] at h
    simp only [Prod.mk.injEq, Except.ok.injEq] at h
    obtain ⟨ha, hs'⟩ := h
    subst ha hs'
    exact ⟨hs.weaken, fun r hr => (by cases hr), Nat.le_refl _⟩
  | some schema => by
    intro s a s' hs h
    rw [schemaToFB_some_apply] at h
    split at h
    · cases h
    · split at h
      · cases h
      · split at h
        · cases h
        · obtain ⟨schema_offset, s1, h1, hB⟩ := bind_eq_ok h
          obtain ⟨class_index, s2, h2, hC⟩ := bind_eq_ok hB
          rw [pure_apply] at hC
          simp only [Prod.mk.injEq, Except.ok.injEq] at hC
          obtain ⟨ha, hs2⟩ := hC
          subst ha hs2
          have p1 := CreateFBSchema_dag ops _ _ s schema_offset s1 hs h1
          obtain ⟨p2, hiv⟩ := storeSchemaClass_dag schema s1 s2 class_index p1.inv h2
          refine ⟨p2, ?_, by rw [hiv]; exact p1.le⟩
          intro r hr
          rw [hiv]
          exact p1.refs r hr

theorem liftExcept_ok {α : Type} {r : Except Err α} {s s' : Serializer} {a : α}
    (h : liftExcept r s = (.ok a, s')) : r = .ok a ∧ s' = s := by
  unfold liftExcept at h
  simp only [Prod.mk.injEq] at h
  exact ⟨h.1, h.2.symm⟩

/-- What a successful `functionToFB` has gone through. -/
theorem functionToFB_ok_inv {ops : IValueOps} {qn : String} {func : Function}
    {s s' : Serializer} {a : FBFunction} (h : functionToFB ops qn func s = (.ok a, s')) :
    ∃ operator_vector constant_indexes s1 type_offsets sc,
      operatorsToFB func.code.op_names_ func.code.operator_input_sizes_ = .ok operator_vector ∧
      storeIValuesAndGetIndexes ops func.code.constants_ s = (.ok constant_indexes, s1) ∧
      typesToFB func.code.types_ = .ok type_offsets ∧
      schemaToFB ops func.schema s1 = (.ok sc, s') ∧
      a = ⟨c_str qn, func.code.instructions_.map (fun inst => ⟨inst.op, inst.N, inst.X⟩),
        operator_vector, constant_indexes, type_offsets,
        static_cast_int32 func.code.register_size_, sc.1, func.code.debug_handles_, sc.2⟩ := by
  unfold functionToFB at h
  dsimp only at h
  obtain ⟨operator_vector, s0, h0, hA⟩ := bind_eq_ok h
  obtain ⟨hop, hs0⟩ := liftExcept_ok h0
  rw [hs0] at hA
  obtain ⟨constant_indexes, s1, h1, hB⟩ := bind_eq_ok hA
  obtain ⟨type_offsets, s1', ht, hC⟩ := bind_eq_ok hB
  obtain ⟨hty, hs1'⟩ := liftExcept_ok ht
  rw [hs1'] at hC
  obtain ⟨sc, s2, h2, hD⟩ := bind_eq_ok hC
  rw [pure_apply] at hD
  simp only [Prod.mk.injEq, Except.ok.injEq] at hD
  obtain ⟨ha, hs2⟩ := hD
  rw [hs2] at h2
  exact ⟨operator_vector, constant_indexes, s1, type_offsets, sc, hop, h1, hty, h2, ha.symm⟩

theorem functionToFB_dag (ops : IValueOps) (qn : String) (func : Function) :
    DagSpec 0 (fun f => valueRefs (.Function f)) (functionToFB ops qn func) := by
  intro s a s' hs h
  obtain ⟨ov, ci, s1, tys, sc, _, h1, _, h2, ha⟩ := functionToFB_ok_inv h
  subst ha
  have p1 := storeIValuesAndGetIndexes_dag ops _ s ci s1 hs h1
  have p2 := schemaToFB_dag ops _ s1 sc s' p1.inv h2
  refine ⟨p2.inv, ?_, Nat.le_trans p1.le p2.le⟩
  intro r hr
  simp only [valueRefs, List.mem_append] at hr
  rcases hr with hr | hr
  · have := p1.refs r hr
    have := p2.le
    omega
  · exact p2.refs r hr

theorem insertFunction_dag (qn : String) (f : FBFunction) (s s' : Serializer) (a : Nat)
    (hs : DagInv 0 s) (hrec : ∀ r ∈ valueRefs (.Function f), r < s.ivalue_offsets_.length)
    (h : (do
      let index ← insertIValue (.Function f)
      assignQn qn index
      pure index : M Nat) s = (.ok a, s')) : DagPost 1 [a] s s' := by
  rw [insertFunction_apply] at h
  simp only [Prod.mk.injEq, Except.ok.injEq] at h
  obtain ⟨ha, hs'⟩ := h
  subst ha hs'
  refine ⟨⟨?_, ?_, ?_, ?_, ?_⟩, ?_, ?_⟩
  · exact dag_append _ _ hs.dag hrec
  · intro p hp
    have := hs.cache p hp
    simp only [List.length_append, List.length_singleton]
    omega
  · intro p hp
    simp only [List.length_append, List.length_singleton]
    rcases mapAssign_mem _ _ _ p hp with h1 | ⟨q, hq, h2⟩
    · omega
    · have := hs.qn q hq
      omega
  · have := hs.types
    simp only [List.length_append, List.length_singleton]
    omega
  · simp
  · intro r hr
    simp only [List.mem_singleton] at hr
    subst hr
    simp
  · simp

theorem storeFunctionAndGetIndex_apply (ops : IValueOps) (qn : String) (func : Function)
    (s : Serializer) :
    storeFunctionAndGetIndex ops qn func s =
      match mapFind s.qn_to_serialized_values_ qn with
      | some second => (.ok second, s)
      | none => (functionToFB ops qn func >>= fun offset => do
          let index ← insertIValue (.Function offset)
          assignQn qn index
          pure index) s := by
  unfold storeFunctionAndGetIndex
  rw [bind_apply, findQn_apply]
  cases mapFind s.qn_to_serialized_values_ qn <;> rfl

theorem storeFunctionAndGetIndex_dag (ops : IValueOps) (qn : String) (func : Function) :
    DagSpec 1 (fun a => [a]) (storeFunctionAndGetIndex ops qn func) := by
  intro s a s' hs h
  rw [storeFunctionAndGetIndex_apply] at h
  cases hiter : mapFind s.qn_to_serialized_values_ qn with
  | some second =>
    rw [hiter] at h
    simp only [Prod.mk.injEq, Except.ok.injEq] at h
    obtain ⟨ha, hs'⟩ := h
    subst ha hs'
    obtain ⟨p, hp, e⟩ := mapFind_mem _ _ _ hiter
    refine ⟨hs, ?_, Nat.le_refl _⟩
    intro r hr
    simp only [List.mem_singleton] at hr
    subst hr
    have := hs.qn p hp
    omega
  | none =>
    rw [hiter] at h
    obtain ⟨offset, s1, h1, hB⟩ := bind_eq_ok h
    have p1 := functionToFB_dag ops qn func s offset s1 hs h1
    have p2 := insertFunction_dag qn offset s1 s' a p1.inv p1.refs hB
    exact ⟨p2.inv, p2.refs, Nat.le_trans p1.le p2.le⟩

theorem storeMethods_dag (ops : IValueOps) : ∀ methods, DagSpec 1 id (storeMethods ops methods)
  | [] => by rw [storeMethods]; exact dag_pure_nil
  | method :: rest => by
    rw [storeMethods]
    exact dag_cons (storeFunctionAndGetIndex_dag ops _ _) (storeMethods_dag ops rest)

theorem start_dagInv (mcu : CompilationUnit) : DagInv 1 (Serializer.start mcu) := by
  refine ⟨?_, fun _ hp => (by cases hp), fun _ hp => (by cases hp), by
    simp [Serializer.start, insertIValue, Serializer.fresh], by
    simp [Serializer.start, insertIValue, Serializer.fresh]⟩
  intro i rec hi r hr
  simp only [Serializer.start, insertIValue, Serializer.fresh, List.nil_append] at hi
  cases i with
  | zero =>
    simp only [List.getElem?_cons_zero, Option.some.injEq] at hi
    subst hi
    cases hr
  | succ n => simp at hi

/-- What a successful `serializeModule` has gone through: the states after the
methods, after the module object and after the constants, the last one being
the state the container is read from. -/
theorem serializeModule_ok_inv {ops : IValueOps} {module : Module} {incl : Bool}
    {extra_files jit_sources : List (String × String)} {jit_constants : List IValue}
    {c : FBModule}
    (h : serializeModule ops module incl extra_files jit_sources jit_constants = .ok c) :
    ∃ functions_index s1 ivalue_index s2 jit_constants_indexes s3,
      storeMethods ops module.get_methods (Serializer.start module.compilation_unit)
        = (.ok functions_index, s1) ∧
      storeIValueAndGetIndex ops module._ivalue s1 = (.ok ivalue_index, s2) ∧
      storeIValuesAndGetIndexes ops jit_constants s2 = (.ok jit_constants_indexes, s3) ∧
      c = ⟨(module.bytecode_version % 4294967296).toNat,
        storeExtraFilesAndGetOffset extra_files, functions_index, ivalue_index,
        s3.ivalue_offsets_, s3.tensor_data_.length,
        (if incl then some (s2.tensor_data_.map storageBlock) else none),
        s3.obj_types_offset_, storeExtraFilesAndGetOffset jit_sources,
        jit_constants_indexes⟩ := by
  unfold serializeModule at h
  rcases hb : serializeModuleBody ops module incl extra_files jit_sources jit_constants
    (Serializer.fresh module.compilation_unit) with ⟨r, sf⟩
  rw [hb] at h
  simp only at h
  subst h
  unfold serializeModuleBody at hb
  obtain ⟨_, s0, h0, hA⟩ := bind_eq_ok hb
  have hs0 : s0 = Serializer.start module.compilation_unit := by
    unfold Serializer.start
    rw [h0]
  rw [hs0] at hA
  obtain ⟨functions_index, s1, h1, hB⟩ := bind_eq_ok hA
  obtain ⟨ivalue_index, s2, h2, hC⟩ := bind_eq_ok hB
  obtain ⟨storage_data_offset, s2', hsd, hD⟩ := bind_eq_ok hC
  dsimp only at hD
  obtain ⟨jit_constants_indexes, s3, h3, hE⟩ := bind_eq_ok hD
  have hsd' : storage_data_offset = (if incl then some (s2.tensor_data_.map storageBlock)
      else none) ∧ s2' = s2 := by
    unfold storageData at hsd
    cases incl with
    | true =>
      simp only [if_true, Prod.mk.injEq, Except.ok.injEq] at hsd
      exact ⟨hsd.1.symm, hsd.2.symm⟩
    | false =>
      simp only [Bool.false_eq_true, if_false, Prod.mk.injEq, Except.ok.injEq] at hsd
      exact ⟨hsd.1.symm, hsd.2.symm⟩
  obtain ⟨hsdv, hs2'⟩ := hsd'
  rw [hs2'] at h3
  refine ⟨functions_index, s1, ivalue_index, s2, jit_constants_indexes, s3, h1, h2, h3, ?_⟩
  unfold CreateModule at hE
  simp only [Prod.mk.injEq, Except.ok.injEq] at hE
  rw [← hE.1, hsdv]

/-- C2.  In every container `serializeModule` produces, every value index
stored inside the record at position `i` of the value sequence (tuple and list
items, dict keys and values, the underlying value of an enum, the state index,
the attribute indices and the set-state function index of an object, the
constant indices and the default-value indices of a function) is smaller than
`i`. -/
theorem dag_invariant (ops : IValueOps) (module : Module) (incl : Bool)
    (extra_files jit_sources : List (String × String)) (jit_constants : List IValue)
    (c : FBModule)
    (h : serializeModule ops module incl extra_files jit_sources jit_constants = .ok c) :
    ∀ i rec, c.ivalues[i]? = some rec → ∀ r ∈ valueRefs rec, r < i := by
  obtain ⟨fi, s1, ii, s2, ji, s3, h1, h2, h3, hc⟩ := serializeModule_ok_inv h
  have p1 := storeMethods_dag ops _ _ fi s1 (start_dagInv _) h1
  have p2 := storeIValueAndGetIndex_dag ops _ s1 ii s2 p1.inv h2
  have p3 := storeIValuesAndGetIndexes_dag ops _ s2 ji s3 p2.inv h3
  subst hc
  exact p3.inv.dag


theorem eq_ok_of_isOk {α : Type} (d : α) (r : Except Err α) (h : isOk r = true) :
    r = .ok (okValue d r) := by
  cases r with
  | ok a => rfl
  | error e => cases h

/-- C2, witness: the module of the end-to-end example with a tuple among the
constants; the value sequence has six records, whose references are listed. -/
theorem dag_invariant_witness :
    isOk (serializeModule sampleOps sampleModule true [] []
      [.Tuple [.Int 5, .String "m", .None]]) = true ∧
    (okValue FBModule.empty (serializeModule sampleOps sampleModule true [] []
      [.Tuple [.Int 5, .String "m", .None]])).ivalues.map valueRefs
      = [[], [0, 0, 0], [], [0, 0, 2], [], [4, 2, 0]] ∧
    ∀ i rec, (okValue FBModule.empty (serializeModule sampleOps sampleModule true [] []
        [.Tuple [.Int 5, .String "m", .None]])).ivalues[i]? = some rec →
      ∀ r ∈ valueRefs rec, r < i :=
  ⟨by decide!, by decide!,
    dag_invariant sampleOps sampleModule true [] [] [.Tuple [.Int 5, .String "m", .None]] _
      (eq_ok_of_isOk FBModule.empty _ (by decide!))⟩

/-! ### C5: the storage segment is written before the constants are encoded -/

/-- C5, the code at the failing input.  `save_mobile_module_to_bytes` on the
sample module with one tensor among `jit_constants`: the call returns, the
storage segment is empty, the declared storage-block count is 1, and the
record of the constant (position 4 of the value sequence) names storage slot
0, which is no position of the segment. -/
theorem storage_segment_jit_constants :
    isOk (save_mobile_module_to_bytes sampleOps sampleModule [] [] [.Tensor sampleTensor])
      = true ∧
    (okValue FBModule.empty (save_mobile_module_to_bytes sampleOps sampleModule [] []
      [.Tensor sampleTensor])).storage_data = some [] ∧
    (okValue FBModule.empty (save_mobile_module_to_bytes sampleOps sampleModule [] []
      [.Tensor sampleTensor])).storage_data_size = 1 ∧
    (okValue FBModule.empty (save_mobile_module_to_bytes sampleOps sampleModule [] []
      [.Tensor sampleTensor])).ivalues.map storageSlots = [[], [], [], [], [0]] ∧
    (okValue FBModule.empty (save_mobile_module_to_bytes sampleOps sampleModule [] []
      [.Tensor sampleTensor])).jit_constants = [4] := by
  refine ⟨by decide!, by decide!, by decide!, by decide!, by decide!⟩

/-! ### C6: schemas that are rejected -/

theorem liftExcept_apply {α : Type} (r : Except Err α) (s : Serializer) :
    liftExcept r s = (r, s) := rfl

/-- A function whose schema is overloaded or variadic is rejected, in the
state it was given or in the state its constants have left. -/
theorem functionToFB_rejected (ops : IValueOps) (qn : String) (func : Function)
    (schema : FunctionSchema) (s : Serializer) (hschema : func.schema = some schema)
    (hbad : schema.overload_name ≠ "" ∨ schema.is_vararg = true ∨ schema.is_varret = true) :
    ∃ e, functionToFB ops qn func s = (.error e, s) ∨
      functionToFB ops qn func s
        = (.error e, (storeIValuesAndGetIndexes ops func.code.constants_ s).2) := by
  unfold functionToFB
  dsimp only
  rw [bind_apply, liftExcept_apply]
  cases hop : operatorsToFB func.code.op_names_ func.code.operator_input_sizes_ with
  | error e => exact ⟨e, Or.inl rfl⟩
  | ok operator_vector =>
    dsimp only
    rw [bind_apply]
    rcases hc : storeIValuesAndGetIndexes ops func.code.constants_ s with ⟨r, s1⟩
    cases r with
    | error e => exact ⟨e, Or.inr rfl⟩
    | ok constant_indexes =>
      dsimp only
      rw [bind_apply, liftExcept_apply]
      cases hty : typesToFB func.code.types_ with
      | error e => exact ⟨e, Or.inr rfl⟩
      | ok type_offsets =>
        dsimp only
        rw [bind_apply, hschema, schemaToFB_some_apply]
        by_cases h1 : schema.overload_name ≠ ""
        · rw [if_pos h1]
          exact ⟨_, Or.inr rfl⟩
        · rw [if_neg h1]
          by_cases h2 : schema.is_vararg = true
          · rw [if_pos h2]
            exact ⟨_, Or.inr rfl⟩
          · rw [if_neg h2]
            by_cases h3 : schema.is_varret = true
            · rw [if_pos h3]
              exact ⟨_, Or.inr rfl⟩
            · rcases hbad with hb | hb | hb
              · exact absurd hb h1
              · exact absurd hb h2
              · exact absurd hb h3

theorem onlyValuesFrame (ops : IValueOps) : ValueFrame ops (fun _ => True) OnlyValues where
  refl := fun s => ⟨[], by simp, fun _ h => (by cases h)⟩
  trans := by
    rintro a b c ⟨l1, h1, g1⟩ ⟨l2, h2, g2⟩
    refine ⟨l1 ++ l2, by rw [h2, h1, List.append_assoc], ?_⟩
    intro rec hrec
    rcases List.mem_append.mp hrec with h | h
    · exact g1 rec h
    · exact g2 rec h
  storageIndex := by
    intro t s
    rcases storageIndex_cases t s with ⟨i, _, h⟩ | ⟨_, h⟩
    · rw [h]; exact ⟨[], by simp, fun _ h => (by cases h)⟩
    · rw [h]; exact ⟨[], by simp, fun _ h => (by cases h)⟩
  storeClass := by
    intro c _ s
    rcases storeClassTypeAndGetIndex_cases c s with ⟨i, _, h⟩ | ⟨_, h⟩
    · rw [h]; exact ⟨[], by simp, fun _ h => (by cases h)⟩
    · rw [h]; exact ⟨[], by simp, fun _ h => (by cases h)⟩
  insertRemember := by
    intro v offset hoff s
    obtain ⟨c, _, h⟩ := insertRemember_cases ops v offset s
    rw [h]
    refine ⟨[offset], rfl, ?_⟩
    intro rec hrec
    simp only [List.mem_singleton] at hrec
    subst hrec
    exact hoff

theorem qnKeptFrame (ops : IValueOps) (qn : String) :
    ValueFrame ops (fun c => c.name ≠ qn) (QnKept qn) where
  refl := fun _ => rfl
  trans := fun _ _ _ h1 h2 => Eq.trans h2 h1
  storageIndex := by
    intro t s
    rcases storageIndex_cases t s with ⟨i, _, h⟩ | ⟨_, h⟩
    · rw [h]; rfl
    · rw [h]; rfl
  storeClass := by
    intro c hc s
    rcases storeClassTypeAndGetIndex_cases c s with ⟨i, _, h⟩ | ⟨_, h⟩
    · rw [h]; rfl
    · rw [h]
      unfold QnKept
      simp only [mapFind_mapAssign]
      have : ¬ qn = c.name := fun e => hc e.symm
      rw [if_neg this]
  insertRemember := by
    intro v offset _ s
    obtain ⟨c, _, h⟩ := insertRemember_cases ops v offset s
    rw [h]
    rfl

/-- C6, as amended.  A function whose call schema has a non-empty overload
name, or is variadic in its arguments, or is variadic in its returns, makes
`functionToFB` fail; so does `storeFunctionAndGetIndex` on a name not yet
interned, and then no record of the function kind has been appended to the
value sequence, and the name is not registered when no object among the
constants of the function is of a class with that name. -/
theorem schema_rejection (ops : IValueOps) (qn : String) (func : Function)
    (schema : FunctionSchema) (s : Serializer) (hschema : func.schema = some schema)
    (hbad : schema.overload_name ≠ "" ∨ schema.is_vararg = true ∨ schema.is_varret = true) :
    isOk (functionToFB ops qn func s).1 = false ∧
    (mapFind s.qn_to_serialized_values_ qn = none →
      isOk (storeFunctionAndGetIndex ops qn func s).1 = false ∧
      OnlyValues s (storeFunctionAndGetIndex ops qn func s).2 ∧
      (ClassesInList (fun c => c.name ≠ qn) func.code.constants_ →
        mapFind (storeFunctionAndGetIndex ops qn func s).2.qn_to_serialized_values_ qn
          = none)) := by
  obtain ⟨e, hrej⟩ := functionToFB_rejected ops qn func schema s hschema hbad
  have hfail : isOk (functionToFB ops qn func s).1 = false := by
    rcases hrej with h | h <;> rw [h] <;> rfl
  refine ⟨hfail, ?_⟩
  intro hnone
  have hstore : storeFunctionAndGetIndex ops qn func s
      = (.error e, (functionToFB ops qn func s).2) := by
    rw [storeFunctionAndGetIndex_apply, hnone]
    rcases hrej with h | h
    · rw [bind_error h, h]
    · rw [bind_error h, h]
  rw [hstore]
  refine ⟨rfl, ?_, ?_⟩
  · rcases hrej with h | h
    · rw [h]
      exact (onlyValuesFrame ops).refl s
    · rw [h]
      exact storeIValuesAndGetIndexes_pres_of (onlyValuesFrame ops) _ (classesInList_true _) s
  · intro hcls
    rcases hrej with h | h
    · rw [h]
      exact hnone
    · rw [h]
      have := storeIValuesAndGetIndexes_pres_of (qnKeptFrame ops qn) _ hcls s
      unfold QnKept at this
      simp only
      rw [this]
      exact hnone

/-- C6, witness: an overloaded `forward` with one constant, in a fresh
session; the call fails, the record of the constant is the only one appended,
and the name is not registered. -/
theorem schema_rejection_witness :
    sampleOverloaded.schema
      = some ⟨"overload", [⟨"self", sampleSelfType, none⟩], [], false, false⟩ ∧
    isOk (functionToFB sampleOps "__torch__.M.forward" sampleOverloaded
      (Serializer.start ⟨[]⟩)).1 = false ∧
    isOk (storeFunctionAndGetIndex sampleOps "__torch__.M.forward" sampleOverloaded
      (Serializer.start ⟨[]⟩)).1 = false ∧
    OnlyValues (Serializer.start ⟨[]⟩)
      (storeFunctionAndGetIndex sampleOps "__torch__.M.forward" sampleOverloaded
        (Serializer.start ⟨[]⟩)).2 ∧
    mapFind (storeFunctionAndGetIndex sampleOps "__torch__.M.forward" sampleOverloaded
      (Serializer.start ⟨[]⟩)).2.qn_to_serialized_values_ "__torch__.M.forward" = none := by
  have h := schema_rejection sampleOps "__torch__.M.forward" sampleOverloaded _
    (Serializer.start ⟨[]⟩) rfl (Or.inl (by decide))
  have hcls : ClassesInList (fun c => c.name ≠ "__torch__.M.forward")
      sampleOverloaded.code.constants_ := by
    show ClassesInList _ [IValue.Int 5]
    rw [ClassesInList, ClassesInList]
    exact ⟨by simp [ClassesIn], trivial⟩
  exact ⟨rfl, h.1, (h.2 rfl).1, (h.2 rfl).2.1, (h.2 rfl).2.2 hcls⟩

/-- C6, counterexample to the claim as stated.  The function
`sampleOverloadedNamed` has an overloaded schema and a constant that is an
object of the class `__torch__.K`; stored under the name `__torch__.K`, not
yet interned, `storeFunctionAndGetIndex` fails, and the name is then
registered, under the index 0 of the class in the class table: the constants
are encoded before the schema is checked. -/
theorem schema_rejection_counterexample :
    sampleOverloadedNamed.schema
      = some ⟨"overload", [⟨"self", sampleSelfType, none⟩], [], false, false⟩ ∧
    mapFind (Serializer.start ⟨[]⟩).qn_to_serialized_values_ "__torch__.K" = none ∧
    isOk (storeFunctionAndGetIndex sampleOps "__torch__.K" sampleOverloadedNamed
      (Serializer.start ⟨[]⟩)).1 = false ∧
    mapFind (storeFunctionAndGetIndex sampleOps "__torch__.K" sampleOverloadedNamed
      (Serializer.start ⟨[]⟩)).2.qn_to_serialized_values_ "__torch__.K" = some 0 :=
  ⟨rfl, rfl, by decide!, by decide!⟩

/-! ### C7: schemas that are accepted -/

theorem storeIValuesAndGetIndexes_length (ops : IValueOps) :
    ∀ (vs : List IValue) (s s' : Serializer) (idxs : List Nat),
      storeIValuesAndGetIndexes ops vs s = (.ok idxs, s') → idxs.length = vs.length
  | [], s, s', idxs, h => by
    rw [storeIValuesAndGetIndexes, pure_apply] at h
    simp only [Prod.mk.injEq, Except.ok.injEq] at h
    obtain ⟨h1, _⟩ := h
    subst h1
    rfl
  | v :: rest, s, s', idxs, h => by
    rw [storeIValuesAndGetIndexes] at h
    obtain ⟨index, s1, _, hB⟩ := bind_eq_ok h
    obtain ⟨indexes, s2, h2, hC⟩ := bind_eq_ok hB
    rw [pure_apply] at hC
    simp only [Prod.mk.injEq, Except.ok.injEq] at hC
    rw [← hC.1]
    simp [storeIValuesAndGetIndexes_length ops rest s1 s2 indexes h2]

/-- The loop of `CreateFBSchema` stores the default values one after the other
and pairs each argument with the index of its default value. -/
theorem CreateFBSchemaArgs_eq (ops : IValueOps) :
    ∀ (args : List Argument) (s : Serializer),
      CreateFBSchemaArgs ops args s =
        match storeIValuesAndGetIndexes ops (args.map Argument.defaultIValue) s with
        | (.ok idxs, s') => (.ok (List.zipWith Argument.toArg args idxs), s')
        | (.error e, s') => (.error e, s')
  | [], s => by
    rw [CreateFBSchemaArgs, List.map_nil, storeIValuesAndGetIndexes]
    rfl
  | arg :: rest, s => by
    rw [CreateFBSchemaArgs, List.map_cons, storeIValuesAndGetIndexes, bind_apply, bind_apply]
    have hsame : storeIValueAndGetIndex ops (ofOptional arg.default_value) s
        = storeIValueAndGetIndexWith ops (iValueToFB ops arg.defaultIValue)
          arg.defaultIValue s := rfl
    rw [hsame]
    rcases storeIValueAndGetIndexWith ops (iValueToFB ops arg.defaultIValue)
      arg.defaultIValue s with ⟨r, s1⟩
    cases r with
    | error e => rfl
    | ok index =>
      dsimp only
      rw [bind_apply, bind_apply, CreateFBSchemaArgs_eq ops rest s1]
      rcases storeIValuesAndGetIndexes ops (rest.map Argument.defaultIValue) s1 with ⟨r2, s2⟩
      cases r2 with
      | error e => rfl
      | ok idxs => rfl

/-- C7, as amended.  A function whose schema has an empty overload name and is
variadic neither in its arguments nor in its returns, whose operator table has
an input size for every operator name, whose constants, referenced types and
default values are encodable, and whose first argument has a class type:
`functionToFB` succeeds, and the schema record lists one entry per argument
and one per return, in order, each with the name, the printed type string and
the index `storeIValueAndGetIndex` returned for the default value. -/
theorem schema_acceptance (ops : IValueOps) (qn : String) (func : Function)
    (schema : FunctionSchema) (s s1 s2 s3 : Serializer) (operator_vector : List Operator)
    (constant_indexes arg_indexes return_indexes : List Nat) (type_offsets : List String)
    (arg0 : Argument) (rest : List Argument) (classtype : ClassType)
    (hschema : func.schema = some schema)
    (hov : schema.overload_name = "") (hva : schema.is_vararg = false)
    (hvr : schema.is_varret = false)
    (hop : operatorsToFB func.code.op_names_ func.code.operator_input_sizes_
      = .ok operator_vector)
    (hconst : storeIValuesAndGetIndexes ops func.code.constants_ s = (.ok constant_indexes, s1))
    (htypes : typesToFB func.code.types_ = .ok type_offsets)
    (hargs : storeIValuesAndGetIndexes ops (schema.arguments.map Argument.defaultIValue) s1
      = (.ok arg_indexes, s2))
    (hrets : storeIValuesAndGetIndexes ops (schema.returns.map Argument.defaultIValue) s2
      = (.ok return_indexes, s3))
    (hfirst : schema.arguments = arg0 :: rest)
    (hclass : arg0.type.castClassType = some classtype) :
    ∃ f s4, functionToFB ops qn func s = (.ok f, s4) ∧
      f.schema = some ⟨List.zipWith Argument.toArg schema.arguments arg_indexes,
        List.zipWith Argument.toArg schema.returns return_indexes⟩ ∧
      arg_indexes.length = schema.arguments.length ∧
      return_indexes.length = schema.returns.length := by
  have hl1 := storeIValuesAndGetIndexes_length ops _ _ _ _ hargs
  have hl2 := storeIValuesAndGetIndexes_length ops _ _ _ _ hrets
  rw [List.length_map] at hl1 hl2
  have hcls : ∃ r s4, storeSchemaClass schema s3 = (.ok r, s4) := by
    unfold storeSchemaClass
    rw [hfirst]
    simp only [hclass]
    rcases storeClassTypeAndGetIndex_cases classtype s3 with ⟨i, _, h⟩ | ⟨_, h⟩
    · exact ⟨_, _, h⟩
    · exact ⟨_, _, h⟩
  obtain ⟨class_index, s4, hcls⟩ := hcls
  have hsc : schemaToFB ops (some schema) s1
      = (.ok (some ⟨List.zipWith Argument.toArg schema.arguments arg_indexes,
          List.zipWith Argument.toArg schema.returns return_indexes⟩, class_index), s4) := by
    rw [schemaToFB_some_apply]
    have h1 : ¬ schema.overload_name ≠ "" := fun h => h hov
    have h2 : ¬ schema.is_vararg = true := by rw [hva]; simp
    have h3 : ¬ schema.is_varret = true := by rw [hvr]; simp
    rw [if_neg h1, if_neg h2, if_neg h3]
    have hcreate : CreateFBSchema ops schema.arguments schema.returns s1
        = (.ok ⟨List.zipWith Argument.toArg schema.arguments arg_indexes,
          List.zipWith Argument.toArg schema.returns return_indexes⟩, s3) := by
      unfold CreateFBSchema
      have ha : CreateFBSchemaArgs ops schema.arguments s1
          = (.ok (List.zipWith Argument.toArg schema.arguments arg_indexes), s2) := by
        rw [CreateFBSchemaArgs_eq, hargs]
      have hr : CreateFBSchemaArgs ops schema.returns s2
          = (.ok (List.zipWith Argument.toArg schema.returns return_indexes), s3) := by
        rw [CreateFBSchemaArgs_eq, hrets]
      rw [bind_ok ha, bind_ok hr]
      rfl
    rw [bind_ok hcreate, bind_ok hcls]
    rfl
  have hfun : functionToFB ops qn func s
      = (.ok ⟨c_str qn, func.code.instructions_.map (fun inst => ⟨inst.op, inst.N, inst.X⟩),
          operator_vector, constant_indexes, type_offsets,
          static_cast_int32 func.code.register_size_,
          some ⟨List.zipWith Argument.toArg schema.arguments arg_indexes,
            List.zipWith Argument.toArg schema.returns return_indexes⟩,
          func.code.debug_handles_, class_index⟩, s4) := by
    unfold functionToFB
    dsimp only
    have h0 : liftExcept (operatorsToFB func.code.op_names_ func.code.operator_input_sizes_) s
        = (.ok operator_vector, s) := by rw [liftExcept_apply, hop]
    have ht : liftExcept (typesToFB func.code.types_) s1 = (.ok type_offsets, s1) := by
      rw [liftExcept_apply, htypes]
    rw [hschema]
    rw [bind_ok h0, bind_ok hconst, bind_ok ht, bind_ok hsc]
    rfl
  exact ⟨_, s4, hfun, rfl, hl1, hl2⟩

/-- C7, witness: the method `forward` of the sample module in a fresh
session. -/
theorem schema_acceptance_witness :
    ∃ f s4, functionToFB sampleOps "__torch__.M.forward" sampleForward (Serializer.start ⟨[]⟩)
        = (.ok f, s4) ∧
      f.schema = some ⟨[⟨"self", "__torch__.M", 0⟩, ⟨"x", "Tensor", 0⟩], [⟨"", "Tensor", 0⟩]⟩ ∧
      [0, 0].length = 2 ∧ [0].length = 1 :=
  schema_acceptance sampleOps "__torch__.M.forward" sampleForward
    ⟨"", [⟨"self", sampleSelfType, none⟩, ⟨"x", sampleTensorType, none⟩],
      [⟨"", sampleTensorType, none⟩], false, false⟩
    (Serializer.start ⟨[]⟩) (Serializer.start ⟨[]⟩) (Serializer.start ⟨[]⟩)
    (Serializer.start ⟨[]⟩) [] [] [0, 0] [0] [] ⟨"self", sampleSelfType, none⟩
    [⟨"x", sampleTensorType, none⟩] sampleClass rfl rfl rfl rfl rfl rfl rfl rfl rfl rfl rfl

/-- C7, counterexample to the claim as stated.  The schema of
`sampleFreeFunction` has an empty overload name and is not variadic, and the
function has no constants, no referenced types and no default values; its
first argument is a tensor, the cast to a class type yields a null pointer,
and `functionToFB` does not return. -/
theorem schema_acceptance_counterexample :
    sampleFreeFunction.schema
      = some ⟨"", [⟨"x", sampleTensorType, none⟩], [⟨"", sampleTensorType, none⟩], false, false⟩ ∧
    sampleFreeFunction.code.constants_ = [] ∧
    isOk (typesToFB sampleFreeFunction.code.types_) = true ∧
    isOk (functionToFB sampleOps "__torch__.f" sampleFreeFunction (Serializer.start ⟨[]⟩)).1
      = false :=
  ⟨rfl, rfl, rfl, rfl⟩

/-! ### C8: referenced types -/

theorem findIsZero_iff (str pre : String) : findIsZero str pre = true ↔ pre.toList <+: str.toList := by
  unfold findIsZero
  exact List.isPrefixOf_iff_prefix

theorem typesToFB_ok :
    ∀ (types : List TypePtr) (l : List String), typesToFB types = .ok l →
      l = types.map (fun t => t.annotation_str)
  | [], l, h => by
    rw [typesToFB] at h
    cases h
    rfl
  | t :: rest, l, h => by
    rw [typesToFB] at h
    split at h
    · cases h
    · cases hr : typesToFB rest with
      | error e => rw [hr] at h; cases h
      | ok l2 =>
        rw [hr] at h
        cases h
        rw [List.map_cons, typesToFB_ok rest l2 hr]

theorem typesToFB_fails_iff :
    ∀ types : List TypePtr, isOk (typesToFB types) = false ↔
      ∃ t ∈ types, String.toList torch_prefix <+: t.annotation_str.toList ∧
        ¬ String.toList class_prefix <+: t.annotation_str.toList
  | [] => by
    rw [typesToFB]
    simp [isOk]
  | t :: rest => by
    have ih := typesToFB_fails_iff rest
    rw [typesToFB]
    by_cases hbad : (findIsZero t.annotation_str torch_prefix &&
        !findIsZero t.annotation_str class_prefix) = true
    · rw [if_pos hbad]
      simp only [isOk, true_iff]
      simp only [Bool.and_eq_true, Bool.not_eq_true', findIsZero_iff] at hbad
      refine ⟨t, List.mem_cons_self _ _, hbad.1, ?_⟩
      intro hp
      have := (findIsZero_iff _ _).mpr hp
      rw [hbad.2] at this
      cases this
    · rw [if_neg hbad]
      have hgood : ¬ (String.toList torch_prefix <+: t.annotation_str.toList ∧
          ¬ String.toList class_prefix <+: t.annotation_str.toList) := by
        rintro ⟨h1, h2⟩
        apply hbad
        simp only [Bool.and_eq_true, Bool.not_eq_true']
        refine ⟨(findIsZero_iff _ _).mpr h1, ?_⟩
        cases hc : findIsZero t.annotation_str class_prefix with
        | false => rfl
        | true => exact absurd ((findIsZero_iff _ _).mp hc) h2
      cases hr : typesToFB rest with
      | error e =>
        rw [hr] at ih
        simp only [isOk, true_iff] at ih ⊢
        obtain ⟨t2, ht2, h2⟩ := ih
        exact ⟨t2, List.mem_cons_of_mem _ ht2, h2⟩
      | ok l2 =>
        rw [hr] at ih
        simp only [isOk, Bool.true_eq_false, false_iff] at ih ⊢
        rintro ⟨t2, ht2, h2⟩
        rcases List.mem_cons.mp ht2 with e | hmem
        · subst e
          exact hgood h2
        · exact ih ⟨t2, hmem, h2⟩

/-- C8.  The referenced-type step of `functionToFB` fails exactly when the
printed annotation string of some referenced type begins with `__torch__`
without beginning with `__torch__.torch.classes`, and `functionToFB` fails
with it; when the step does not fail, the type list of the record is the list
of the printed strings of the referenced types, in order. -/
theorem types_rejection (ops : IValueOps) (qn : String) (func : Function) (s : Serializer) :
    (isOk (typesToFB func.code.types_) = false ↔
      ∃ t ∈ func.code.types_, String.toList torch_prefix <+: t.annotation_str.toList ∧
        ¬ String.toList class_prefix <+: t.annotation_str.toList) ∧
    (isOk (typesToFB func.code.types_) = false →
      isOk (functionToFB ops qn func s).1 = false) ∧
    (∀ l, typesToFB func.code.types_ = .ok l →
      l = func.code.types_.map (fun t => t.annotation_str)) ∧
    (∀ f s', functionToFB ops qn func s = (.ok f, s') →
      f.type_annotations = func.code.types_.map (fun t => t.annotation_str)) := by
  refine ⟨typesToFB_fails_iff _, ?_, typesToFB_ok _, ?_⟩
  · intro hfail
    rcases hf : functionToFB ops qn func s with ⟨r, s'⟩
    cases r with
    | error e => rfl
    | ok f =>
      obtain ⟨_, _, _, tys, _, _, _, hty, _, _⟩ := functionToFB_ok_inv hf
      rw [hty] at hfail
      cases hfail
  · intro f s' hf
    obtain ⟨_, _, _, tys, _, _, _, hty, _, ha⟩ := functionToFB_ok_inv hf
    rw [ha]
    exact typesToFB_ok _ _ hty

/-! ### C9: the three kinds of classes -/

theorem map_getD_range {α : Type} (d : α) :
    ∀ l : List α, (List.range l.length).map (fun i => l.getD i d) = l
  | [] => rfl
  | a :: rest => by
    rw [List.length_cons, List.range_succ_eq_map, List.map_cons, List.map_map]
    have := map_getD_range d rest
    simp only [List.getD_cons_zero, List.cons.injEq, true_and]
    rw [← this]
    simp only [List.length_map, List.length_range]
    apply List.map_congr_left
    intro i _
    simp only [Function.comp_apply, List.getD_cons_succ]
    rw [this]

theorem find_function_iff (cu : CompilationUnit) (qn : String) :
    cu.find_function qn = true ↔ ∃ fn ∈ cu.methods_, fn.qualname = qn := by
  unfold CompilationUnit.find_function
  simp

/-- C9.  `classTypeToFB` returns, without touching the state, a record with
the qualified name of the class; its tag is class-with-setstate when the
compilation unit has a function named `<class name>.__setstate__`, otherwise
custom-class when the class has a method named `__setstate__`, otherwise
class-with-fields; the attribute names are present in the last case only,
where they are the attribute names of the class in declaration order. -/
theorem class_classification (c : ClassType) (s : Serializer) :
    ∃ rec, classTypeToFB c s = (.ok rec, s) ∧ rec.type_name = c.name ∧
      ((∃ fn ∈ s.mcu_.methods_, fn.qualname = c.name ++ ".__setstate__") →
        rec.type = .CLASS_WITH_SETSTATE ∧ rec.attr_names = none) ∧
      ((¬ ∃ fn ∈ s.mcu_.methods_, fn.qualname = c.name ++ ".__setstate__") →
        "__setstate__" ∈ c.methods → rec.type = .CUSTOM_CLASS ∧ rec.attr_names = none) ∧
      ((¬ ∃ fn ∈ s.mcu_.methods_, fn.qualname = c.name ++ ".__setstate__") →
        "__setstate__" ∉ c.methods →
        rec.type = .CLASS_WITH_FIELD ∧ rec.attr_names = some c.attributeNames) := by
  refine ⟨classTypeRecord s.mcu_ c, rfl, ?_, ?_, ?_, ?_⟩
  · unfold classTypeRecord
    dsimp only
    split
    · rfl
    · split <;> rfl
  · intro h
    have hf := (find_function_iff s.mcu_ _).mpr h
    unfold classTypeRecord
    dsimp only
    rw [if_pos hf]
    exact ⟨rfl, rfl⟩
  · intro h hm
    have hf : ¬ s.mcu_.find_function (c.name ++ ".__setstate__") = true :=
      fun e => h ((find_function_iff s.mcu_ _).mp e)
    have hm' : c.findMethod "__setstate__" = true := by
      unfold ClassType.findMethod
      simpa using hm
    unfold classTypeRecord
    dsimp only
    rw [if_neg hf, if_pos hm']
    exact ⟨rfl, rfl⟩
  · intro h hm
    have hf : ¬ s.mcu_.find_function (c.name ++ ".__setstate__") = true :=
      fun e => h ((find_function_iff s.mcu_ _).mp e)
    have hm' : ¬ c.findMethod "__setstate__" = true := by
      unfold ClassType.findMethod
      simpa using hm
    unfold classTypeRecord
    dsimp only
    rw [if_neg hf, if_neg hm']
    refine ⟨rfl, ?_⟩
    dsimp only
    unfold ClassType.numAttributes ClassType.getAttributeName
    rw [map_getD_range]

/-! ### C10: objects with a get-state and set-state pair -/

theorem iValueToFB_Object (ops : IValueOps) (type : ClassType) (slots : List IValue)
    (getstate : IValue) :
    iValueToFB ops (.Object type slots getstate) = (do
      let offset ← objectToFB ops type slots getstate
      pure (.Object offset)) := by
  rw [iValueToFB]
  rfl

/-- The get-state branch of `objectToFB`: the state is stored, the set-state
function is looked up, the class is stored. -/
theorem objectToFB_state_apply (ops : IValueOps) (type : ClassType) (slots : List IValue)
    (getstate : IValue) (s : Serializer) (hget : "__getstate__" ∈ type.methods)
    (hset : "__setstate__" ∈ type.methods) :
    objectToFB ops type slots getstate s =
      match storeIValueAndGetIndex ops getstate s with
      | (.ok state_index, s1) =>
        (.ok ⟨(storeClassTypeAndGetIndex type s1).1.toOption.getD 0, state_index, none,
          (mapFind s1.qn_to_serialized_values_ (type.name ++ ".__setstate__")).getD 0⟩,
          (storeClassTypeAndGetIndex type s1).2)
      | (.error e, s1) => (.error e, s1) := by
  have hcond : (type.findMethod "__getstate__" && type.findMethod "__setstate__") = true := by
    unfold ClassType.findMethod
    simp [hget, hset]
  unfold objectToFB objectToFBWith
  rw [if_pos hcond, bind_apply]
  rcases storeIValueAndGetIndex ops getstate s with ⟨r, s1⟩
  cases r with
  | error e => rfl
  | ok state_index =>
    dsimp only
    rw [bind_apply, findQn_apply]
    dsimp only
    rw [bind_apply]
    rcases storeClassTypeAndGetIndex_cases type s1 with ⟨i, _, h⟩ | ⟨_, h⟩
    · rw [h]
      cases mapFind s1.qn_to_serialized_values_ (type.name ++ ".__setstate__") <;> rfl
    · rw [h]
      cases mapFind s1.qn_to_serialized_values_ (type.name ++ ".__setstate__") <;> rfl

/-- C10, as amended.  For an object whose class has both a `__getstate__` and
a `__setstate__` method, in a session started by `serializeModule`:
`objectToFB` returns exactly when the encoding of the get-state result
returns, and the record then holds as state index the index
`storeIValueAndGetIndex` returned for that result and no attribute-index list;
the state index is 0 exactly when the get-state result is none. -/
theorem object_with_state (ops : IValueOps) (type : ClassType) (slots : List IValue)
    (getstate : IValue) (s : Serializer) (hs : Session ops s)
    (hget : "__getstate__" ∈ type.methods) (hset : "__setstate__" ∈ type.methods) :
    isOk (objectToFB ops type slots getstate s).1
      = isOk (storeIValueAndGetIndex ops getstate s).1 ∧
    ∀ o s', objectToFB ops type slots getstate s = (.ok o, s') →
      (storeIValueAndGetIndex ops getstate s).1 = .ok o.state ∧ o.attrs = none ∧
      (o.state = 0 ↔ getstate = .None) := by
  have happ := objectToFB_state_apply ops type slots getstate s hget hset
  have hsent := storeIValueAndGetIndex_eq_zero_iff ops s hs.sentinelInv getstate
  rcases hstore : storeIValueAndGetIndex ops getstate s with ⟨r, s1⟩
  rw [hstore] at happ hsent
  cases r with
  | error e =>
    rw [happ]
    refine ⟨rfl, ?_⟩
    intro o s' h
    cases h
  | ok state_index =>
    rw [happ]
    refine ⟨rfl, ?_⟩
    intro o s' h
    simp only [Prod.mk.injEq, Except.ok.injEq] at h
    obtain ⟨ho, _⟩ := h
    subst ho
    refine ⟨rfl, rfl, ?_⟩
    simp only [Except.ok.injEq] at hsent
    exact hsent

/-- C10, witness: an object of `sampleStateClass` whose get-state result is
the string `"m"`, in a fresh session. -/
theorem object_with_state_witness :
    (objectToFB sampleOps sampleStateClass [] (.String "m") (Serializer.start ⟨[]⟩)).1
      = .ok ⟨0, 1, none, 0⟩ ∧
    (isOk (objectToFB sampleOps sampleStateClass [] (.String "m") (Serializer.start ⟨[]⟩)).1
      = isOk (storeIValueAndGetIndex sampleOps (.String "m") (Serializer.start ⟨[]⟩)).1 ∧
    ∀ o s', objectToFB sampleOps sampleStateClass [] (.String "m") (Serializer.start ⟨[]⟩)
        = (.ok o, s') →
      (storeIValueAndGetIndex sampleOps (.String "m") (Serializer.start ⟨[]⟩)).1 = .ok o.state ∧
      o.attrs = none ∧ (o.state = 0 ↔ IValue.String "m" = .None)) :=
  ⟨rfl, object_with_state sampleOps sampleStateClass [] (.String "m") (Serializer.start ⟨[]⟩)
    ⟨⟨[]⟩, Steps.refl _⟩ (by decide) (by decide)⟩

/-- C10, counterexample to the claim as stated.  The class `sampleStateClass`
has both methods; when the get-state result of an object is none, the record
of the object holds the state index 0, the value of an unpopulated state
index, as the record of an object of the plain class `sampleClass` does. -/
theorem object_with_state_counterexample :
    "__getstate__" ∈ sampleStateClass.methods ∧ "__setstate__" ∈ sampleStateClass.methods ∧
    (objectToFB sampleOps sampleStateClass [] .None (Serializer.start ⟨[]⟩)).1
      = .ok ⟨0, 0, none, 0⟩ ∧
    (objectToFB sampleOps sampleClass [.String "m"] .None (Serializer.start ⟨[]⟩)).1
      = .ok ⟨0, 0, some [1], 0⟩ :=
  ⟨by decide, by decide, rfl, rfl⟩

/-! ### C11: objects of a plain class -/

theorem storeIValuesAndGetIndexes_cons (ops : IValueOps) (v : IValue) (rest : List IValue) :
    storeIValuesAndGetIndexes ops (v :: rest) = (do
      let index ← storeIValueAndGetIndex ops v
      let indexes ← storeIValuesAndGetIndexes ops rest
      pure (index :: indexes)) := by
  rw [storeIValuesAndGetIndexes]
  rfl

/-- The loop `storeIValuesAndGetIndexes` returns exactly the indices of a
chain of `storeIValueAndGetIndex` calls. -/
theorem storeIValuesAndGetIndexes_iff_chain (ops : IValueOps) :
    ∀ (vs : List IValue) (idxs : List Nat) (s s' : Serializer),
      storeIValuesAndGetIndexes ops vs s = (.ok idxs, s') ↔ StoreChain ops vs idxs s s'
  | [], idxs, s, s' => by
    rw [storeIValuesAndGetIndexes, pure_apply]
    constructor
    · intro h
      simp only [Prod.mk.injEq, Except.ok.injEq] at h
      obtain ⟨h1, h2⟩ := h
      subst h1 h2
      exact StoreChain.nil s
    · intro h
      cases h
      rfl
  | v :: rest, idxs, s, s' => by
    rw [storeIValuesAndGetIndexes_cons]
    constructor
    · intro h
      obtain ⟨index, s1, h1, hB⟩ := bind_eq_ok h
      obtain ⟨indexes, s2, h2, hC⟩ := bind_eq_ok hB
      rw [pure_apply] at hC
      simp only [Prod.mk.injEq, Except.ok.injEq] at hC
      obtain ⟨hi, hs⟩ := hC
      subst hi hs
      exact StoreChain.cons h1 ((storeIValuesAndGetIndexes_iff_chain ops rest indexes s1 s2).mp h2)
    · intro h
      cases h with
      | cons h1 hrest =>
        rw [bind_ok h1,
          bind_ok ((storeIValuesAndGetIndexes_iff_chain ops rest _ _ _).mpr hrest)]
        rfl

theorem storeChain_length {ops : IValueOps} {vs : List IValue} {idxs : List Nat}
    {s s' : Serializer} (h : StoreChain ops vs idxs s s') : idxs.length = vs.length := by
  induction h with
  | nil => rfl
  | cons _ _ ih => simp [ih]

/-- On an object with a slot for each attribute, the loop over the first
`num_attr` slots is `storeIValuesAndGetIndexes` on these slots. -/
theorem storeSlots_eq_take (ops : IValueOps) :
    ∀ (n : Nat) (slots : List IValue), n ≤ slots.length →
      storeSlots ops n slots = storeIValuesAndGetIndexes ops (slots.take n)
  | 0, slots, _ => by
    rw [storeSlots, List.take_zero, storeIValuesAndGetIndexes]
  | n + 1, [], h => by simp at h
  | n + 1, v :: rest, h => by
    rw [storeSlots, List.take_succ_cons, storeIValuesAndGetIndexes,
      storeSlots_eq_take ops n rest (by simpa using h)]

/-- The plain branch of `objectToFB`: the slots are stored, then the class. -/
theorem objectToFB_fields_apply (ops : IValueOps) (type : ClassType) (slots : List IValue)
    (getstate : IValue) (s : Serializer)
    (hpair : ¬ ("__getstate__" ∈ type.methods ∧ "__setstate__" ∈ type.methods)) :
    objectToFB ops type slots getstate s =
      match storeSlots ops type.numAttributes slots s with
      | (.ok tuple_index, s1) =>
        (.ok ⟨(storeClassTypeAndGetIndex type s1).1.toOption.getD 0, 0, some tuple_index, 0⟩,
          (storeClassTypeAndGetIndex type s1).2)
      | (.error e, s1) => (.error e, s1) := by
  have hcond : ¬ (type.findMethod "__getstate__" && type.findMethod "__setstate__") = true := by
    unfold ClassType.findMethod
    simpa using hpair
  unfold objectToFB objectToFBWith
  rw [if_neg hcond, bind_apply]
  rcases storeSlots ops type.numAttributes slots s with ⟨r, s1⟩
  cases r with
  | error e => rfl
  | ok tuple_index =>
    dsimp only
    rw [bind_apply]
    rcases storeClassTypeAndGetIndex_cases type s1 with ⟨i, _, h⟩ | ⟨_, h⟩
    · rw [h]; rfl
    · rw [h]; rfl

/-- C11.  For an object whose class lacks the pair of a `__getstate__` and a
`__setstate__` method and has `N` attributes, the object having a slot for
each of them: `objectToFB` returns exactly when the encoding of the first `N`
slots returns, and the record then holds an attribute-index list of exactly
`N` entries, the `i`-th being the index `storeIValueAndGetIndex` returned for
slot `i`, the slots taken in declared order, with state index 0 and set-state
function index 0. -/
theorem object_with_fields (ops : IValueOps) (type : ClassType) (slots : List IValue)
    (getstate : IValue) (s : Serializer)
    (hpair : ¬ ("__getstate__" ∈ type.methods ∧ "__setstate__" ∈ type.methods))
    (hslots : type.attributeNames.length ≤ slots.length) :
    isOk (objectToFB ops type slots getstate s).1
      = isOk (storeIValuesAndGetIndexes ops (slots.take type.attributeNames.length) s).1 ∧
    ∀ o s', objectToFB ops type slots getstate s = (.ok o, s') →
      ∃ idxs s1, StoreChain ops (slots.take type.attributeNames.length) idxs s s1 ∧
        o.attrs = some idxs ∧ idxs.length = type.attributeNames.length ∧
        o.state = 0 ∧ o.setstate_func = 0 := by
  have happ := objectToFB_fields_apply ops type slots getstate s hpair
  unfold ClassType.numAttributes at happ
  rw [storeSlots_eq_take ops _ slots hslots] at happ
  rcases hstore : storeIValuesAndGetIndexes ops (slots.take type.attributeNames.length) s
    with ⟨r, s1⟩
  rw [hstore] at happ
  cases r with
  | error e =>
    rw [happ]
    refine ⟨rfl, ?_⟩
    intro o s' h
    cases h
  | ok idxs =>
    rw [happ]
    refine ⟨rfl, ?_⟩
    intro o s' h
    simp only [Prod.mk.injEq, Except.ok.injEq] at h
    obtain ⟨ho, _⟩ := h
    subst ho
    have hchain := (storeIValuesAndGetIndexes_iff_chain ops _ _ _ _).mp hstore
    have hlen := storeChain_length hchain
    rw [List.length_take, Nat.min_eq_left hslots] at hlen
    exact ⟨idxs, s1, hchain, rfl, hlen, rfl, rfl⟩

/-- C11, witness: an object of a class with the attributes `first` and
`second`, holding the string `"m"` and the int `5`, in a fresh session. -/
theorem object_with_fields_witness :
    (objectToFB sampleOps samplePairClass [.String "m", .Int 5] .None
      (Serializer.start ⟨[]⟩)).1 = .ok ⟨0, 0, some [1, 2], 0⟩ ∧
    (isOk (objectToFB sampleOps samplePairClass [.String "m", .Int 5] .None
        (Serializer.start ⟨[]⟩)).1
      = isOk (storeIValuesAndGetIndexes sampleOps
        ([IValue.String "m", IValue.Int 5].take samplePairClass.attributeNames.length)
        (Serializer.start ⟨[]⟩)).1 ∧
    ∀ o s', objectToFB sampleOps samplePairClass [.String "m", .Int 5] .None
        (Serializer.start ⟨[]⟩) = (.ok o, s') →
      ∃ idxs s1, StoreChain sampleOps
          ([IValue.String "m", IValue.Int 5].take samplePairClass.attributeNames.length)
          idxs (Serializer.start ⟨[]⟩) s1 ∧
        o.attrs = some idxs ∧ idxs.length = samplePairClass.attributeNames.length ∧
        o.state = 0 ∧ o.setstate_func = 0) :=
  ⟨rfl, object_with_fields sampleOps samplePairClass [.String "m", .Int 5] .None
    (Serializer.start ⟨[]⟩) (by decide) (by decide)⟩

/-! ### C12: the set-state function index of an object -/

theorem storeIValueAndGetIndex_pres_of {ops : IValueOps} {C : ClassType → Prop}
    {R : Serializer → Serializer → Prop} (F : ValueFrame ops C R) (v : IValue)
    (hc : ClassesIn C v) : Pres R (storeIValueAndGetIndex ops v) :=
  storeIValueAndGetIndexWith_pres F v (iValueToFB_pres_of F v hc)
    (fun s a s1 h => iValueToFB_not_function ops v s s1 a h)

theorem objectToFB_pres_of {ops : IValueOps} {C : ClassType → Prop}
    {R : Serializer → Serializer → Prop} (F : ValueFrame ops C R) (type : ClassType)
    (slots : List IValue) (getstate : IValue)
    (hc : ClassesIn C (.Object type slots getstate)) :
    Pres R (objectToFB ops type slots getstate) := by
  rw [ClassesIn] at hc
  exact objectToFBWith_pres F type hc.1 (storeIValueAndGetIndex_pres_of F getstate hc.2.2)
    (storeSlots_pres_of F type.numAttributes slots hc.2.1)

theorem qnEntriesKeptFrame (ops : IValueOps) :
    ValueFrame ops (fun _ => True) QnEntriesKept where
  refl := fun _ _ _ h => h
  trans := fun _ _ _ h1 h2 k r h => h2 k r (h1 k r h)
  storageIndex := by
    intro t s
    rcases storageIndex_cases t s with ⟨i, _, h⟩ | ⟨_, h⟩
    · rw [h]; exact fun _ _ h => h
    · rw [h]; exact fun _ _ h => h
  storeClass := by
    intro c _ s
    rcases storeClassTypeAndGetIndex_cases c s with ⟨i, _, h⟩ | ⟨hnone, h⟩
    · rw [h]; exact fun _ _ h => h
    · rw [h]
      intro k r hk
      simp only [mapFind_mapAssign]
      have : ¬ k = c.name := by
        intro e
        rw [e, hnone] at hk
        cases hk
      rw [if_neg this]
      exact hk
  insertRemember := by
    intro v offset _ s
    obtain ⟨c, _, h⟩ := insertRemember_cases ops v offset s
    rw [h]
    exact fun _ _ h => h

/-- C12.  For an object whose class has both a `__getstate__` and a
`__setstate__` method: `objectToFB` returns exactly when the encoding of the
get-state result returns, whether or not the name table has an entry for the
set-state function; the set-state function index of the record is the index
found in the name table under the class name followed by `.__setstate__`, and
0 when nothing is found: an entry registered before the call is the one found,
and when none was registered (and no class inside the get-state result has
that name) the index is 0.  `objectToFB` appends no record of the function
kind, whatever its outcome. -/
theorem object_setstate_index (ops : IValueOps) (type : ClassType) (slots : List IValue)
    (getstate : IValue) (s : Serializer)
    (hget : "__getstate__" ∈ type.methods) (hset : "__setstate__" ∈ type.methods) :
    isOk (objectToFB ops type slots getstate s).1
      = isOk (storeIValueAndGetIndex ops getstate s).1 ∧
    (∀ o s', objectToFB ops type slots getstate s = (.ok o, s') →
      o.setstate_func =
        (mapFind (storeIValueAndGetIndex ops getstate s).2.qn_to_serialized_values_
          (type.name ++ ".__setstate__")).getD 0 ∧
      (∀ r, mapFind s.qn_to_serialized_values_ (type.name ++ ".__setstate__") = some r →
        o.setstate_func = r) ∧
      (mapFind s.qn_to_serialized_values_ (type.name ++ ".__setstate__") = none →
        ClassesIn (fun c => c.name ≠ type.name ++ ".__setstate__") getstate →
        o.setstate_func = 0)) ∧
    OnlyValues s (objectToFB ops type slots getstate s).2 := by
  have happ := objectToFB_state_apply ops type slots getstate s hget hset
  have hkept := storeIValueAndGetIndex_pres_of (qnEntriesKeptFrame ops) getstate
    (classesIn_true getstate) s
  have hsame := fun hc =>
    storeIValueAndGetIndex_pres_of (qnKeptFrame ops (type.name ++ ".__setstate__")) getstate hc s
  have honly := objectToFB_pres_of (onlyValuesFrame ops) type slots getstate
    (classesIn_true _) s
  refine ⟨?_, ?_, honly⟩
  · rw [happ]
    rcases storeIValueAndGetIndex ops getstate s with ⟨r, s1⟩
    cases r <;> rfl
  · intro o s' h
    rw [happ] at h
    rcases hstore : storeIValueAndGetIndex ops getstate s with ⟨r, s1⟩
    rw [hstore] at h hkept hsame
    cases r with
    | error e => cases h
    | ok state_index =>
      simp only [Prod.mk.injEq, Except.ok.injEq] at h
      obtain ⟨ho, _⟩ := h
      subst ho
      refine ⟨rfl, ?_, ?_⟩
      · intro r hr
        show (mapFind s1.qn_to_serialized_values_ (type.name ++ ".__setstate__")).getD 0 = r
        rw [hkept _ r hr]
        rfl
      · intro hnone hc
        show (mapFind s1.qn_to_serialized_values_ (type.name ++ ".__setstate__")).getD 0 = 0
        have h2 := hsame hc
        unfold QnKept at h2
        rw [h2, hnone]
        rfl

/-- C12, witness: an object of `sampleStateClass` with the get-state result
`"m"`, in a session in which the method `__setstate__` of the class has been
encoded as record 1, and in a fresh session. -/
theorem object_setstate_index_witness :
    (objectToFB sampleOps sampleStateClass [] (.String "m") sampleSetstateState).1
      = .ok ⟨0, 2, none, 1⟩ ∧
    (objectToFB sampleOps sampleStateClass [] (.String "m") (Serializer.start ⟨[]⟩)).1
      = .ok ⟨0, 1, none, 0⟩ ∧
    (isOk (objectToFB sampleOps sampleStateClass [] (.String "m") sampleSetstateState).1
      = isOk (storeIValueAndGetIndex sampleOps (.String "m") sampleSetstateState).1 ∧
    (∀ o s', objectToFB sampleOps sampleStateClass [] (.String "m") sampleSetstateState
        = (.ok o, s') →
      o.setstate_func =
        (mapFind (storeIValueAndGetIndex sampleOps (.String "m")
            sampleSetstateState).2.qn_to_serialized_values_
          (sampleStateClass.name ++ ".__setstate__")).getD 0 ∧
      (∀ r, mapFind sampleSetstateState.qn_to_serialized_values_
          (sampleStateClass.name ++ ".__setstate__") = some r → o.setstate_func = r) ∧
      (mapFind sampleSetstateState.qn_to_serialized_values_
          (sampleStateClass.name ++ ".__setstate__") = none →
        ClassesIn (fun c => c.name ≠ sampleStateClass.name ++ ".__setstate__")
          (.String "m") →
        o.setstate_func = 0)) ∧
    OnlyValues sampleSetstateState
      (objectToFB sampleOps sampleStateClass [] (.String "m") sampleSetstateState).2) :=
  ⟨rfl, rfl,
    object_setstate_index sampleOps sampleStateClass [] (.String "m") sampleSetstateState
      (by decide) (by decide)⟩

/-! ### C13: the quantization side-record -/

theorem tensorToFB_apply (t : Tensor) (s : Serializer) :
    tensorToFB t s =
      match qschemaToFB t.quantizer s with
      | (.ok q, sa) =>
        (.ok (.mk (okValue 0 (storageIndex t sa).1) t.scalar_type
          (static_cast_int32 t.storage_offset) (t.sizes.map static_cast_int32)
          (t.strides.map static_cast_int32) t.requires_grad q), (storageIndex t sa).2)
      | (.error e, sa) => (.error e, sa) := by
  cases t with
  | mk storage scalar_type storage_offset sizes strides requires_grad element_size quant =>
    rw [tensorToFB, bind_apply]
    show _ = match qschemaToFB quant s with
      | (.ok q, sa) => _
      | (.error e, sa) => _
    rcases qschemaToFB quant s with ⟨r, sa⟩
    cases r with
    | error e => rfl
    | ok q =>
      dsimp only
      rw [bind_apply]
      rcases storageIndex_cases (.mk storage scalar_type storage_offset sizes strides
        requires_grad element_size quant) sa with ⟨i, _, h⟩ | ⟨_, h⟩
      · rw [h]; rfl
      · rw [h]; rfl

theorem qschemaToFB_per_channel_apply (float_qparams : Bool) (q_scales q_zero_points : Tensor)
    (q_axis : Int) (s : Serializer) :
    qschemaToFB (.per_channel float_qparams q_scales q_zero_points q_axis) s =
      match tensorToFB q_scales s with
      | (.ok scales, s1) =>
        match tensorToFB q_zero_points s1 with
        | (.ok zero_points, s2) =>
          (.ok (some (.mk
            (Quantizer.per_channel float_qparams q_scales q_zero_points q_axis).qscheme.toInt
            ⟨0⟩ 0 (some scales) (some zero_points) (static_cast_int32 q_axis))), s2)
        | (.error e, s2) => (.error e, s2)
      | (.error e, s1) => (.error e, s1) := by
  rw [qschemaToFB, bind_apply]
  rcases tensorToFB q_scales s with ⟨r, s1⟩
  cases r with
  | error e => rfl
  | ok scales =>
    dsimp only
    rw [bind_apply]
    rcases tensorToFB q_zero_points s1 with ⟨r2, s2⟩
    cases r2 with
    | error e => rfl
    | ok zero_points => rfl

theorem static_cast_int32_of_fits (x : Int) (hlo : -2147483648 ≤ x) (hhi : x < 2147483648) :
    static_cast_int32 x = x := by
  unfold static_cast_int32
  omega

/-- C13, as amended.  For every tensor: when it is not quantized `tensorToFB`
returns a record without a quantization side-record; when it is quantized
per tensor affine, `tensorToFB` returns a record whose side-record holds the
scale of the tensor and its zero point narrowed to 32 bits (the zero point
itself when it fits), both nested slots absent; when it is quantized per
channel (affine, or affine with float parameters), `tensorToFB` returns
exactly when the encodings of the per-channel scales and then of the
per-channel zero points return, and the side-record then holds the two records
these encodings returned, both present, and the axis narrowed to 32 bits (the
axis itself when it fits); for every other scheme `tensorToFB` fails with the
error of an unsupported scheme. -/
theorem quantization_encoding (t : Tensor) (s : Serializer) :
    (t.quantizer = .not_quantized →
      ∃ m s', tensorToFB t s = (.ok m, s') ∧ m.quantized_schema = none) ∧
    (∀ q_scale q_zero_point, t.quantizer = .per_tensor_affine q_scale q_zero_point →
      ∃ m s', tensorToFB t s = (.ok m, s') ∧
        m.quantized_schema = some (.mk QScheme.kPerTensorAffine.toInt q_scale
          (static_cast_int32 q_zero_point) none none 0) ∧
        (-2147483648 ≤ q_zero_point → q_zero_point < 2147483648 →
          static_cast_int32 q_zero_point = q_zero_point)) ∧
    (∀ float_qparams q_scales q_zero_points q_axis,
      t.quantizer = .per_channel float_qparams q_scales q_zero_points q_axis →
      isOk (tensorToFB t s).1 = (isOk (tensorToFB q_scales s).1 &&
        isOk (tensorToFB q_zero_points (tensorToFB q_scales s).2).1) ∧
      ∀ m s', tensorToFB t s = (.ok m, s') →
        ∃ scales s1 zero_points s2, tensorToFB q_scales s = (.ok scales, s1) ∧
          tensorToFB q_zero_points s1 = (.ok zero_points, s2) ∧
          m.quantized_schema = some (.mk (if float_qparams then 4 else 1) ⟨0⟩ 0
            (some scales) (some zero_points) (static_cast_int32 q_axis)) ∧
          (-2147483648 ≤ q_axis → q_axis < 2147483648 → static_cast_int32 q_axis = q_axis)) ∧
    (∀ per_channel, t.quantizer = .symmetric per_channel →
      ∃ s', tensorToFB t s = (.error (.unsupported_qscheme t.quantizer.qscheme), s')) := by
  have happ := tensorToFB_apply t s
  refine ⟨?_, ?_, ?_, ?_⟩
  · intro hq
    rw [hq, qschemaToFB] at happ
    exact ⟨_, _, happ, rfl⟩
  · intro q_scale q_zero_point hq
    rw [hq, qschemaToFB] at happ
    exact ⟨_, _, happ, rfl, static_cast_int32_of_fits q_zero_point⟩
  · intro float_qparams q_scales q_zero_points q_axis hq
    rw [hq, qschemaToFB_per_channel_apply] at happ
    rcases hA : tensorToFB q_scales s with ⟨r, s1⟩
    rw [hA] at happ
    cases r with
    | error e =>
      rw [happ]
      refine ⟨rfl, ?_⟩
      intro m s' h
      cases h
    | ok scales =>
      dsimp only at happ ⊢
      rcases hB : tensorToFB q_zero_points s1 with ⟨r2, s2⟩
      rw [hB] at happ
      cases r2 with
      | error e =>
        rw [happ]
        refine ⟨rfl, ?_⟩
        intro m s' h
        cases h
      | ok zero_points =>
        rw [happ]
        refine ⟨rfl, ?_⟩
        intro m s' h
        simp only [Prod.mk.injEq, Except.ok.injEq] at h
        obtain ⟨hm, _⟩ := h
        subst hm
        refine ⟨scales, s1, zero_points, s2, rfl, hB, ?_, static_cast_int32_of_fits q_axis⟩
        cases float_qparams <;> rfl
  · intro per_channel hq
    rw [hq, qschemaToFB] at happ
    rw [hq]
    exact ⟨_, happ⟩

/-- C13, counterexample to the claim as stated.  The tensor
`sampleWideZeroPoint` is quantized per tensor affine with the zero point
`4294967301`; the side-record of its record holds the zero point `5`. -/
theorem quantization_encoding_counterexample :
    sampleWideZeroPoint.quantizer = .per_tensor_affine ⟨0⟩ 4294967301 ∧
    (tensorToFB sampleWideZeroPoint (Serializer.start ⟨[]⟩)).1
      = .ok (.mk 0 13 0 [4] [1] false (some (.mk 0 ⟨0⟩ 5 none none 0))) :=
  ⟨rfl, rfl⟩

/-- C13, witness: the per-channel quantized tensor `sampleQTensor` in a fresh
session; the nested records are those of `sampleScales` and
`sampleZeroPoints`, registered as storages 0 and 1. -/
theorem quantization_encoding_witness :
    sampleQTensor.quantizer = .per_channel false sampleScales sampleZeroPoints 0 ∧
    (tensorToFB sampleQTensor (Serializer.start ⟨[]⟩)).1
      = .ok (.mk 2 12 0 [4] [1] false (some (.mk 1 ⟨0⟩ 0
          (some (.mk 0 7 0 [1] [1] false none)) (some (.mk 1 4 0 [1] [1] false none)) 0))) ∧
    (isOk (tensorToFB sampleQTensor (Serializer.start ⟨[]⟩)).1 =
      (isOk (tensorToFB sampleScales (Serializer.start ⟨[]⟩)).1 &&
        isOk (tensorToFB sampleZeroPoints
          (tensorToFB sampleScales (Serializer.start ⟨[]⟩)).2).1) ∧
      ∀ m s', tensorToFB sampleQTensor (Serializer.start ⟨[]⟩) = (.ok m, s') →
        ∃ scales s1 zero_points s2,
          tensorToFB sampleScales (Serializer.start ⟨[]⟩) = (.ok scales, s1) ∧
          tensorToFB sampleZeroPoints s1 = (.ok zero_points, s2) ∧
          m.quantized_schema = some (.mk (if false then 4 else 1) ⟨0⟩ 0
            (some scales) (some zero_points) (static_cast_int32 0)) ∧
          (-2147483648 ≤ (0 : Int) → (0 : Int) < 2147483648 → static_cast_int32 0 = 0)) :=
  ⟨rfl, rfl,
    (quantization_encoding sampleQTensor (Serializer.start ⟨[]⟩)).2.2.1
      false sampleScales sampleZeroPoints 0 rfl⟩

/-! ### C14: the error of an unsupported kind -/

theorem errSpec_pure {α : Type} (P : Err → Prop) (a : α) : ErrSpec P (pure a : M α) := by
  intro s e s' h
  rw [pure_apply] at h
  cases h

theorem errSpec_throw {α : Type} {P : Err → Prop} {e : Err} (h : P e) :
    ErrSpec P (M.throw e : M α) := by
  intro s e1 s' h1
  rw [throw_apply] at h1
  cases h1
  exact h

theorem errSpec_bind {α β : Type} {P : Err → Prop} {m : M α} {f : α → M β}
    (hm : ErrSpec P m) (hf : ∀ a, ErrSpec P (f a)) : ErrSpec P (m >>= f) := by
  intro s e s' h
  rw [bind_apply] at h
  rcases hms : m s with ⟨r, s1⟩
  rw [hms] at h
  cases r with
  | error e1 =>
    cases h
    exact hm s e s' hms
  | ok a => exact hf a s1 e s' h

theorem errSpec_mono {α : Type} {P Q : Err → Prop} {m : M α} (hpq : ∀ e, P e → Q e)
    (hm : ErrSpec P m) : ErrSpec Q m :=
  fun s e s' h => hpq e (hm s e s' h)

theorem errSpec_of_ok {α : Type} {P : Err → Prop} {m : M α}
    (hm : ∀ s, isOk (m s).1 = true) : ErrSpec P m := by
  intro s e s' h
  have := hm s
  rw [h] at this
  cases this

mutual
theorem tensorToFB_errSpec :
    ∀ t, ErrSpec (fun e => ∃ q, e = .unsupported_qscheme q) (tensorToFB t)
  | .mk storage scalar_type storage_offset sizes strides requires_grad element_size q => by
    rw [tensorToFB]
    refine errSpec_bind (qschemaToFB_errSpec q) (fun _ => errSpec_bind ?_ (fun _ => errSpec_pure _ _))
    refine errSpec_of_ok ?_
    intro s
    rcases storageIndex_cases (.mk storage scalar_type storage_offset sizes strides
      requires_grad element_size q) s with ⟨i, _, h⟩ | ⟨_, h⟩
    · rw [h]; rfl
    · rw [h]; rfl
theorem qschemaToFB_errSpec :
    ∀ q, ErrSpec (fun e => ∃ q, e = .unsupported_qscheme q) (qschemaToFB q)
  | .not_quantized => by rw [qschemaToFB]; exact errSpec_pure _ _
  | .per_tensor_affine _ _ => by rw [qschemaToFB]; exact errSpec_pure _ _
  | .per_channel _ a b _ => by
    rw [qschemaToFB]
    exact errSpec_bind (tensorToFB_errSpec a)
      (fun _ => errSpec_bind (tensorToFB_errSpec b) (fun _ => errSpec_pure _ _))
  | .symmetric _ => by rw [qschemaToFB]; exact errSpec_throw ⟨_, rfl⟩
end

theorem storeIValueAndGetIndexWith_errSpec {ops : IValueOps} {P : Err → Prop}
    {encode : M FBIValue} (v : IValue) (henc : ErrSpec P encode) :
    ErrSpec P (storeIValueAndGetIndexWith ops encode v) := by
  unfold storeIValueAndGetIndexWith
  split
  · exact errSpec_pure _ _
  · refine errSpec_bind (errSpec_of_ok ?_) ?_
    · intro s
      unfold cachedIndex
      split <;> rfl
    · intro found
      cases found with
      | some index => exact errSpec_pure _ _
      | none =>
        refine errSpec_bind henc (fun offset => errSpec_of_ok ?_)
        intro s
        obtain ⟨c, _, h⟩ := insertRemember_cases ops v offset s
        rw [h]
        rfl

theorem storeClassTypeAndGetIndex_errSpec (P : Err → Prop) (c : ClassType) :
    ErrSpec P (storeClassTypeAndGetIndex c) := by
  refine errSpec_of_ok ?_
  intro s
  rcases storeClassTypeAndGetIndex_cases c s with ⟨i, _, h⟩ | ⟨_, h⟩
  · rw [h]; rfl
  · rw [h]; rfl

theorem objectToFBWith_errSpec {P : Err → Prop} (type : ClassType) {storeState : M Nat}
    {storeSlots : M (List Nat)} (hs : ErrSpec P storeState) (hl : ErrSpec P storeSlots) :
    ErrSpec P (objectToFBWith type storeState storeSlots) := by
  unfold objectToFBWith
  split
  · exact errSpec_bind hs (fun _ =>
      errSpec_bind (errSpec_of_ok (fun _ => rfl)) (fun _ =>
        errSpec_bind (storeClassTypeAndGetIndex_errSpec P type) (fun _ => errSpec_pure _ _)))
  · exact errSpec_bind hl (fun _ =>
      errSpec_bind (storeClassTypeAndGetIndex_errSpec P type) (fun _ => errSpec_pure _ _))

mutual
theorem iValueToFB_errSpec (ops : IValueOps) (k : String) :
    ∀ v, ErrSpec (fun e => e = .invalid_ivalue k → OtherIn k v) (iValueToFB ops v)
  | .Tensor t => by
    rw [iValueToFB]
    refine errSpec_bind (errSpec_mono ?_ (tensorToFB_errSpec t)) (fun _ => errSpec_pure _ _)
    rintro e ⟨q, rfl⟩ h
    cases h
  | .Tuple elements => by
    rw [iValueToFB]
    refine errSpec_bind (errSpec_mono ?_ (storeIValuesAndGetIndexes_errSpec ops k elements))
      (fun _ => errSpec_pure _ _)
    intro e h he
    rw [OtherIn]
    exact h he
  | .Double _ => by rw [iValueToFB]; exact errSpec_pure _ _
  | .ComplexDouble _ _ => by rw [iValueToFB]; exact errSpec_pure _ _
  | .Int _ => by rw [iValueToFB]; exact errSpec_pure _ _
  | .Bool _ => by rw [iValueToFB]; exact errSpec_pure _ _
  | .String _ => by rw [iValueToFB]; exact errSpec_pure _ _
  | .GenericDict entries _ => by
    rw [iValueToFB]
    refine errSpec_bind (errSpec_mono ?_ (storeDictEntries_errSpec ops k entries))
      (fun _ => errSpec_pure _ _)
    intro e h he
    rw [OtherIn]
    exact h he
  | .None => by rw [iValueToFB]; exact errSpec_pure _ _
  | .IntList _ => by rw [iValueToFB]; exact errSpec_pure _ _
  | .DoubleList _ => by rw [iValueToFB]; exact errSpec_pure _ _
  | .BoolList _ => by rw [iValueToFB]; exact errSpec_pure _ _
  | .List elements _ => by
    rw [iValueToFB]
    refine errSpec_bind (errSpec_mono ?_ (storeIValuesAndGetIndexes_errSpec ops k elements))
      (fun _ => errSpec_pure _ _)
    intro e h he
    rw [OtherIn]
    exact h he
  | .Object type slots getstate => by
    rw [iValueToFB]
    refine errSpec_bind (objectToFBWith_errSpec type
      (storeIValueAndGetIndexWith_errSpec getstate
        (errSpec_mono ?_ (iValueToFB_errSpec ops k getstate)))
      (errSpec_mono ?_ (storeSlots_errSpec ops k type.numAttributes slots)))
      (fun _ => errSpec_pure _ _)
    · intro e h he
      rw [OtherIn]
      exact Or.inr (h he)
    · intro e h he
      rw [OtherIn]
      exact Or.inl (h he)
  | .Device _ => by rw [iValueToFB]; exact errSpec_pure _ _
  | .Enum _ value => by
    rw [iValueToFB]
    refine errSpec_bind (storeIValueAndGetIndexWith_errSpec value
      (errSpec_mono ?_ (iValueToFB_errSpec ops k value))) (fun _ => errSpec_pure _ _)
    intro e h he
    rw [OtherIn]
    exact h he
  | .Other tagKind => by
    rw [iValueToFB]
    refine errSpec_throw ?_
    intro he
    rw [OtherIn]
    cases he
    rfl
theorem storeIValuesAndGetIndexes_errSpec (ops : IValueOps) (k : String) :
    ∀ vs, ErrSpec (fun e => e = .invalid_ivalue k → OtherInList k vs)
      (storeIValuesAndGetIndexes ops vs)
  | [] => by rw [storeIValuesAndGetIndexes]; exact errSpec_pure _ _
  | v :: rest => by
    rw [storeIValuesAndGetIndexes]
    refine errSpec_bind (storeIValueAndGetIndexWith_errSpec v
      (errSpec_mono ?_ (iValueToFB_errSpec ops k v)))
      (fun _ => errSpec_bind (errSpec_mono ?_ (storeIValuesAndGetIndexes_errSpec ops k rest))
        (fun _ => errSpec_pure _ _))
    · intro e h he
      rw [OtherInList]
      exact Or.inl (h he)
    · intro e h he
      rw [OtherInList]
      exact Or.inr (h he)
theorem storeDictEntries_errSpec (ops : IValueOps) (k : String) :
    ∀ es, ErrSpec (fun e => e = .invalid_ivalue k → OtherInDict k es)
      (storeDictEntries ops es)
  | [] => by rw [storeDictEntries]; exact errSpec_pure _ _
  | (key, value) :: rest => by
    rw [storeDictEntries]
    refine errSpec_bind (storeIValueAndGetIndexWith_errSpec key
      (errSpec_mono ?_ (iValueToFB_errSpec ops k key)))
      (fun _ => errSpec_bind (storeIValueAndGetIndexWith_errSpec value
        (errSpec_mono ?_ (iValueToFB_errSpec ops k value)))
        (fun _ => errSpec_bind (errSpec_mono ?_ (storeDictEntries_errSpec ops k rest))
          (fun _ => errSpec_pure _ _)))
    · intro e h he
      rw [OtherInDict]
      exact Or.inl (h he)
    · intro e h he
      rw [OtherInDict]
      exact Or.inr (Or.inl (h he))
    · intro e h he
      rw [OtherInDict]
      exact Or.inr (Or.inr (h he))
theorem storeSlots_errSpec (ops : IValueOps) (k : String) :
    ∀ n slots, ErrSpec (fun e => e = .invalid_ivalue k → OtherInList k slots)
      (storeSlots ops n slots)
  | 0, _ => by rw [storeSlots]; exact errSpec_pure _ _
  | _ + 1, [] => by
    rw [storeSlots]
    refine errSpec_throw ?_
    intro he
    cases he
  | n + 1, v :: rest => by
    rw [storeSlots]
    refine errSpec_bind (storeIValueAndGetIndexWith_errSpec v
      (errSpec_mono ?_ (iValueToFB_errSpec ops k v)))
      (fun _ => errSpec_bind (errSpec_mono ?_ (storeSlots_errSpec ops k n rest))
        (fun _ => errSpec_pure _ _))
    · intro e h he
      rw [OtherInList]
      exact Or.inl (h he)
    · intro e h he
      rw [OtherInList]
      exact Or.inr (h he)
end

/-- The record `iValueToFB` returns carries the tag of the branch taken. -/
theorem iValueToFB_tag (ops : IValueOps) (v : IValue) (s s1 : Serializer)
    (rec : FBIValue) (h : iValueToFB ops v s = (.ok rec, s1)) :
    dispatchTag v = some (ivalue_type rec) := by
  cases v <;> rw [iValueToFB] at h
  all_goals first
    | (obtain ⟨a, s2, _, h2⟩ := bind_eq_ok h
       rw [pure_apply] at h2
       cases h2; rfl)
    | (rw [pure_apply] at h; cases h; rfl)
    | (rw [throw_apply] at h; cases h)

/-- C14, as amended.  `iValueToFB` raises the error of an invalid value kind
for every value whose kind is outside the set none, int, bool, double,
complex double, string, tensor, tuple, list, dict, object, device, enum,
function, leaving the state as it is; for a value whose kind is in the set the
error is raised only by the encoding of a value of such a kind inside it, not
by the dispatch on the value itself; and the record returned for a value is
tagged with the kind of the value, except that a list of ints, of doubles or
of bools is tagged as int list, double list or bool list and not as list. -/
theorem unsupported_type_error (ops : IValueOps) :
    (∀ v s, kindOf v = none →
      ∃ k, v = .Other k ∧ iValueToFB ops v s = (.error (.invalid_ivalue k), s)) ∧
    (∀ v kind k s s', kindOf v = some kind →
      iValueToFB ops v s = (.error (.invalid_ivalue k), s') → OtherIn k v) ∧
    (∀ v rec s s', iValueToFB ops v s = (.ok rec, s') →
      ∃ kind, kindOf v = some kind ∧
        ivalue_type rec =
          match v with
          | .IntList _ => .IntList
          | .DoubleList _ => .DoubleList
          | .BoolList _ => .BoolList
          | _ => kindTag kind) := by
  refine ⟨?_, ?_, ?_⟩
  · intro v s hv
    cases v <;> simp only [kindOf] at hv <;> try cases hv
    exact ⟨_, rfl, by rw [iValueToFB]; rfl⟩
  · intro v kind k s s' _ h
    exact iValueToFB_errSpec ops k v s _ s' h rfl
  · intro v rec s s' h
    have htag := iValueToFB_tag ops v s s' rec h
    cases v <;> simp only [dispatchTag, Option.some.injEq] at htag <;>
      first
        | exact ⟨_, rfl, htag.symm⟩
        | cases htag

/-- C14, counterexample to the claim as stated.  A list of ints is of the kind
list, whose records carry the tag `List`; the record `iValueToFB` returns for
the int list `[1, 2, 3]` carries the tag `IntList`. -/
theorem unsupported_type_error_counterexample :
    kindOf (.IntList [1, 2, 3]) = some .listKind ∧ kindTag .listKind = .List ∧
    (iValueToFB sampleOps (.IntList [1, 2, 3]) (Serializer.start ⟨[]⟩)).1
      = .ok (.IntList [1, 2, 3]) ∧
    ivalue_type (.IntList [1, 2, 3]) = .IntList ∧
    ivalue_type (.IntList [1, 2, 3]) ≠ kindTag .listKind :=
  ⟨rfl, rfl, rfl, rfl, by decide⟩

/-- C14, witness: a tuple holding a value of the kind `Future`, which has no
branch in `iValueToFB`; the error names that kind. -/
theorem unsupported_type_error_witness :
    kindOf (.Tuple [.Int 1, .Other "Future"]) = some .tupleKind ∧
    (iValueToFB sampleOps (.Tuple [.Int 1, .Other "Future"]) (Serializer.start ⟨[]⟩)).1
      = .error (.invalid_ivalue "Future") ∧
    OtherIn "Future" (.Tuple [.Int 1, .Other "Future"]) :=
  ⟨rfl, rfl,
    (unsupported_type_error sampleOps).2.1 (.Tuple [.Int 1, .Other "Future"]) .tupleKind
      "Future" (Serializer.start ⟨[]⟩)
      (iValueToFB sampleOps (.Tuple [.Int 1, .Other "Future"]) (Serializer.start ⟨[]⟩)).2
      rfl rfl⟩

/-! ### C15: the element indices of containers -/

theorem storeDictEntries_chain (ops : IValueOps) :
    ∀ (es : List (IValue × IValue)) (kv : List Nat × List Nat) (s s' : Serializer),
      storeDictEntries ops es s = (.ok kv, s') → DictChain ops es kv.1 kv.2 s s'
  | [], kv, s, s', h => by
    rw [storeDictEntries, pure_apply] at h
    simp only [Prod.mk.injEq, Except.ok.injEq] at h
    obtain ⟨h1, h2⟩ := h
    subst h1 h2
    exact DictChain.nil s
  | (key, value) :: rest, kv, s, s', h => by
    rw [storeDictEntries] at h
    obtain ⟨key_index, s1, hA, hB⟩ := bind_eq_ok h
    obtain ⟨value_index, s2, hC, hD⟩ := bind_eq_ok hB
    obtain ⟨kv1, s3, hE, hF⟩ := bind_eq_ok hD
    rw [pure_apply] at hF
    simp only [Prod.mk.injEq, Except.ok.injEq] at hF
    obtain ⟨hkv, hs⟩ := hF
    subst hkv hs
    exact DictChain.cons hA hC (storeDictEntries_chain ops rest kv1 s2 s3 hE)

theorem dictChain_length {ops : IValueOps} {es : List (IValue × IValue)}
    {keys values : List Nat} {s s' : Serializer} (h : DictChain ops es keys values s s') :
    keys.length = es.length ∧ values.length = es.length := by
  induction h with
  | nil => exact ⟨rfl, rfl⟩
  | cons _ _ _ ih => simp [ih.1, ih.2]

/-- C15, as amended.  The record of a tuple and the record of a list that is
not a list of ints, of doubles or of bools store an index vector with one
entry per element, in element order, the `i`-th entry being the index
`storeIValueAndGetIndex` returned for element `i`, the record of the list
storing the type string of the list as well; the record of a dict stores
parallel vectors of key indices and value indices with one entry per entry of
the dict in iteration order, and the type string of the dict; the record of a
list of ints, of doubles or of bools stores the elements themselves, and no
element is encoded. -/
theorem container_element_indices (ops : IValueOps) :
    (∀ elements rec s s', iValueToFB ops (.Tuple elements) s = (.ok rec, s') →
      ∃ items, rec = .Tuple items ∧ StoreChain ops elements items s s' ∧
        items.length = elements.length) ∧
    (∀ elements type_str rec s s',
      iValueToFB ops (.List elements type_str) s = (.ok rec, s') →
      ∃ items, rec = .List items type_str ∧ StoreChain ops elements items s s' ∧
        items.length = elements.length) ∧
    (∀ entries type_str rec s s',
      iValueToFB ops (.GenericDict entries type_str) s = (.ok rec, s') →
      ∃ keys values, rec = .Dict keys values type_str ∧
        DictChain ops entries keys values s s' ∧
        keys.length = entries.length ∧ values.length = entries.length) ∧
    (∀ l s, iValueToFB ops (.IntList l) s = (.ok (.IntList l), s)) ∧
    (∀ l s, iValueToFB ops (.DoubleList l) s = (.ok (.DoubleList l), s)) ∧
    (∀ l s, iValueToFB ops (.BoolList l) s = (.ok (.BoolList l), s)) := by
  refine ⟨?_, ?_, ?_, ?_, ?_, ?_⟩
  · intro elements rec s s' h
    rw [iValueToFB] at h
    obtain ⟨items, s1, hA, hB⟩ := bind_eq_ok h
    rw [pure_apply] at hB
    simp only [Prod.mk.injEq, Except.ok.injEq] at hB
    obtain ⟨hrec, hs⟩ := hB
    subst hrec hs
    have hchain := (storeIValuesAndGetIndexes_iff_chain ops _ _ _ _).mp hA
    exact ⟨items, rfl, hchain, storeChain_length hchain⟩
  · intro elements type_str rec s s' h
    rw [iValueToFB] at h
    obtain ⟨items, s1, hA, hB⟩ := bind_eq_ok h
    rw [pure_apply] at hB
    simp only [Prod.mk.injEq, Except.ok.injEq] at hB
    obtain ⟨hrec, hs⟩ := hB
    subst hrec hs
    have hchain := (storeIValuesAndGetIndexes_iff_chain ops _ _ _ _).mp hA
    exact ⟨items, rfl, hchain, storeChain_length hchain⟩
  · intro entries type_str rec s s' h
    rw [iValueToFB] at h
    obtain ⟨kv, s1, hA, hB⟩ := bind_eq_ok h
    rw [pure_apply] at hB
    simp only [Prod.mk.injEq, Except.ok.injEq] at hB
    obtain ⟨hrec, hs⟩ := hB
    subst hrec hs
    have hchain := storeDictEntries_chain ops _ _ _ _ hA
    exact ⟨kv.1, kv.2, rfl, hchain, dictChain_length hchain⟩
  · intro l s
    rw [iValueToFB]
    rfl
  · intro l s
    rw [iValueToFB]
    rfl
  · intro l s
    rw [iValueToFB]
    rfl

/-- C15, witness: the tuple of the int `5` and the string `"m"` and the dict
with the entry `"m"` to `5`, in a fresh session. -/
theorem container_element_indices_witness :
    (iValueToFB sampleOps (.Tuple [.Int 5, .String "m"]) (Serializer.start ⟨[]⟩)).1
      = .ok (.Tuple [1, 2]) ∧
    (iValueToFB sampleOps (.GenericDict [(.String "m", .Int 5)] "Dict[str, int]")
      (Serializer.start ⟨[]⟩)).1 = .ok (.Dict [1] [2] "Dict[str, int]") ∧
    ∃ items, FBIValue.Tuple [1, 2] = .Tuple items ∧
      StoreChain sampleOps [.Int 5, .String "m"] items (Serializer.start ⟨[]⟩)
        (iValueToFB sampleOps (.Tuple [.Int 5, .String "m"]) (Serializer.start ⟨[]⟩)).2 ∧
      items.length = [IValue.Int 5, IValue.String "m"].length :=
  ⟨rfl, rfl,
    (container_element_indices sampleOps).1 [.Int 5, .String "m"] (.Tuple [1, 2])
      (Serializer.start ⟨[]⟩) _ rfl⟩

/-- C15, counterexample to the claim as stated.  The record of the list of
ints `[1, 2, 3]` holds the three ints and no index; no element is encoded (the
state is left as it is), whereas `storeIValueAndGetIndex` returns the index 1
for the first element. -/
theorem container_element_indices_counterexample :
    iValueToFB sampleOps (.IntList [1, 2, 3]) (Serializer.start ⟨[]⟩)
      = (.ok (.IntList [1, 2, 3]), Serializer.start ⟨[]⟩) ∧
    valueRefs (.IntList [1, 2, 3]) = [] ∧
    (storeIValueAndGetIndex sampleOps (.Int 1) (Serializer.start ⟨[]⟩)).1 = .ok 1 ∧
    (Serializer.start ⟨[]⟩).ivalue_offsets_.length = 1 :=
  ⟨rfl, rfl, rfl, rfl⟩

/-! ### C16: the returned index on a cache miss -/

/-- The record `iValueToFB` returns is tagged with the kind of the value,
a list of ints, of doubles or of bools with its own tag. -/
theorem iValueToFB_kindTag (ops : IValueOps) (v : IValue) (s s1 : Serializer)
    (rec : FBIValue) (h : iValueToFB ops v s = (.ok rec, s1)) :
    ∃ kind, kindOf v = some kind ∧ ivalue_type rec = valueTag v kind := by
  have htag := iValueToFB_tag ops v s s1 rec h
  cases v <;> simp only [dispatchTag, Option.some.injEq] at htag <;>
    first
      | exact ⟨_, rfl, htag.symm⟩
      | cases htag

/-- C16, as amended.  For a value `v` that is not none, when
`storeIValueAndGetIndex` does not find `v` in the cache and returns:
`iValueToFB` has returned a record for `v`, after appending the records `l` of
what `v` holds, and this one record has then been appended; the returned index
is the length of the value sequence minus one after the call, and the record
at that index is the record of `v`, tagged with the kind of `v`, except that
a list of ints, of doubles or of bools is tagged as int list, double list or
bool list and not as list. -/
theorem returned_index_position (ops : IValueOps) (v : IValue) (s s' : Serializer) (i : Nat)
    (hv : isNone v = false)
    (hmiss : ∀ j, cacheFind ops s.cached_ivalues_ v ≠ some (some j))
    (h : storeIValueAndGetIndex ops v s = (.ok i, s')) :
    ∃ rec s1 l, iValueToFB ops v s = (.ok rec, s1) ∧
      s1.ivalue_offsets_ = s.ivalue_offsets_ ++ l ∧
      s'.ivalue_offsets_ = s.ivalue_offsets_ ++ l ++ [rec] ∧
      i = s'.ivalue_offsets_.length - 1 ∧
      s'.ivalue_offsets_[i]? = some rec ∧
      ∃ kind, kindOf v = some kind ∧ ivalue_type rec = valueTag v kind := by
  unfold storeIValueAndGetIndex at h
  rw [storeIValueAndGetIndexWith_apply ops _ v s hv] at h
  have hrun : (iValueToFB ops v >>= fun offset => (do
      let index ← insertIValue offset
      rememberIndex ops v index
      pure index : M Nat)) s = (.ok i, s') := by
    cases hc : cacheFind ops s.cached_ivalues_ v with
    | none => rw [hc] at h; exact h
    | some found =>
      cases found with
      | none => rw [hc] at h; exact h
      | some j => exact absurd hc (hmiss j)
  obtain ⟨rec, s1, henc, hins⟩ := bind_eq_ok hrun
  obtain ⟨c, _, happ⟩ := insertRemember_cases ops v rec s1
  rw [happ] at hins
  simp only [Prod.mk.injEq, Except.ok.injEq] at hins
  obtain ⟨hi, hs⟩ := hins
  obtain ⟨l, hl⟩ := (iValueToFB_pres (growsFrame ops) v s).ivalues
  rw [henc] at hl
  have hl2 : s1.ivalue_offsets_ = s.ivalue_offsets_ ++ l := hl.symm
  have hs' : s'.ivalue_offsets_ = s1.ivalue_offsets_ ++ [rec] := by rw [← hs]
  refine ⟨rec, s1, l, henc, hl2, ?_, ?_, ?_, iValueToFB_kindTag ops v s s1 rec henc⟩
  · rw [hs', hl2]
  · rw [hs', ← hi]
    simp
  · rw [hs', ← hi]
    simp

/-- C16, witness: the tuple of the int `5` and the string `"m"` in a fresh
session; the records of the two elements are appended at 1 and 2, the record
of the tuple at 3, with the tag of tuples. -/
theorem returned_index_position_witness :
    (storeIValueAndGetIndex sampleOps (.Tuple [.Int 5, .String "m"])
      (Serializer.start ⟨[]⟩)).1 = .ok 3 ∧
    (storeIValueAndGetIndex sampleOps (.Tuple [.Int 5, .String "m"])
      (Serializer.start ⟨[]⟩)).2.ivalue_offsets_.map ivalue_type
      = [.NONE, .Int, .String, .Tuple] ∧
    ∃ rec s1 l,
      iValueToFB sampleOps (.Tuple [.Int 5, .String "m"]) (Serializer.start ⟨[]⟩)
        = (.ok rec, s1) ∧
      s1.ivalue_offsets_ = (Serializer.start ⟨[]⟩).ivalue_offsets_ ++ l ∧
      (storeIValueAndGetIndex sampleOps (.Tuple [.Int 5, .String "m"])
        (Serializer.start ⟨[]⟩)).2.ivalue_offsets_
        = (Serializer.start ⟨[]⟩).ivalue_offsets_ ++ l ++ [rec] ∧
      3 = (storeIValueAndGetIndex sampleOps (.Tuple [.Int 5, .String "m"])
        (Serializer.start ⟨[]⟩)).2.ivalue_offsets_.length - 1 ∧
      (storeIValueAndGetIndex sampleOps (.Tuple [.Int 5, .String "m"])
        (Serializer.start ⟨[]⟩)).2.ivalue_offsets_[3]? = some rec ∧
      ∃ kind, kindOf (.Tuple [.Int 5, .String "m"]) = some kind ∧
        ivalue_type rec = valueTag (.Tuple [.Int 5, .String "m"]) kind :=
  ⟨rfl, rfl, returned_index_position sampleOps (.Tuple [.Int 5, .String "m"])
    (Serializer.start ⟨[]⟩) _ 3 rfl (fun j hj => by simp [cacheFind, sampleOps] at hj) rfl⟩

/-- C16, counterexample to the claim as stated.  The list of ints `[1, 2, 3]`
is not none and of the kind list, whose tag is `List`; in a fresh session it
is not found in the cache, `storeIValueAndGetIndex` returns the index 1, the
length of the value sequence minus one, and the record at that index carries
the tag `IntList`. -/
theorem returned_index_position_counterexample :
    isNone (.IntList [1, 2, 3]) = false ∧
    cacheFind sampleOps (Serializer.start ⟨[]⟩).cached_ivalues_ (.IntList [1, 2, 3]) = none ∧
    (storeIValueAndGetIndex sampleOps (.IntList [1, 2, 3]) (Serializer.start ⟨[]⟩)).1
      = .ok 1 ∧
    (storeIValueAndGetIndex sampleOps (.IntList [1, 2, 3])
      (Serializer.start ⟨[]⟩)).2.ivalue_offsets_.map ivalue_type = [.NONE, .IntList] ∧
    kindOf (.IntList [1, 2, 3]) = some .listKind ∧ kindTag .listKind = .List ∧
    IValueUnion.IntList ≠ kindTag .listKind ∧
    valueTag (.IntList [1, 2, 3]) .listKind = .IntList ∧
    valueTag (.Tuple [.Int 5, .String "m"]) .tupleKind = kindTag .tupleKind :=
  ⟨rfl, rfl, rfl, rfl, rfl, rfl, by decide, rfl, rfl⟩

/-! ### C17: values that cannot be interned -/

theorem cacheScan_never (ops : IValueOps) (h : Nat) (k : IValue)
    (hne : ∀ k1, ops.equals k k1 ≠ some true) (j : Nat) :
    ∀ c : List (IValue × Nat), cacheScan ops h k c ≠ some (some j)
  | [] => by simp [cacheScan]
  | (k1, i) :: rest => by
    have ih := cacheScan_never ops h k hne j rest
    simp only [cacheScan]
    split
    · cases he : ops.equals k k1 with
      | none => simp
      | some b =>
        cases b with
        | true => exact absurd he (hne k1)
        | false => exact ih
    · exact ih

theorem cacheFind_never (ops : IValueOps) (v : IValue)
    (hfail : ops.hash v = none ∨ ∀ k, ops.equals v k ≠ some true)
    (c : List (IValue × Nat)) (j : Nat) : cacheFind ops c v ≠ some (some j) := by
  unfold cacheFind
  cases hh : ops.hash v with
  | none => simp
  | some h =>
    rcases hfail with hf | hf
    · rw [hf] at hh
      cases hh
    · exact cacheScan_never ops h v hf j c

/-- On a miss `storeIValueAndGetIndex` encodes the value and appends the
record. -/
theorem storeIValueAndGetIndex_miss (ops : IValueOps) (v : IValue) (s : Serializer)
    (hv : isNone v = false) (hmiss : ∀ j, cacheFind ops s.cached_ivalues_ v ≠ some (some j)) :
    storeIValueAndGetIndex ops v s = (iValueToFB ops v >>= fun offset => (do
      let index ← insertIValue offset
      rememberIndex ops v index
      pure index : M Nat)) s := by
  unfold storeIValueAndGetIndex
  rw [storeIValueAndGetIndexWith_apply ops _ v s hv]
  cases hc : cacheFind ops s.cached_ivalues_ v with
  | none => rfl
  | some found =>
    cases found with
    | none => rfl
    | some j => exact absurd hc (hmiss j)

theorem cacheScan_of_no_hash (ops : IValueOps) (h : Nat) (k : IValue) :
    ∀ c : List (IValue × Nat), (∀ p ∈ c, ops.hash p.1 ≠ some h) →
      cacheScan ops h k c = some none
  | [], _ => by rw [cacheScan]
  | (k1, i) :: rest, hc => by
    rw [cacheScan, if_neg (hc (k1, i) (List.mem_cons_self _ _))]
    exact cacheScan_of_no_hash ops h k rest (fun p hp => hc p (List.mem_cons_of_mem _ hp))

/-- The registration after a scan that throws leaves the cache as it is; after
a scan that passes every key it adds the value at the end. -/
theorem cacheAssignScan_of_cacheScan (ops : IValueOps) (h : Nat) (k : IValue) (index : Nat)
    (c : List (IValue × Nat)) :
    (cacheScan ops h k c = none → cacheAssignScan ops h k index c = none) ∧
    (cacheScan ops h k c = some none →
      cacheAssignScan ops h k index c = some (c ++ [(k, index)])) := by
  constructor
  · intro hc
    have := cacheAssignScan_append_of_throw ops h k index [] c hc
    rw [List.append_nil] at this
    exact this
  · intro hc
    have := cacheAssignScan_append_of_miss ops h k index [] c hc
    rw [List.append_nil] at this
    rw [this, cacheAssignScan]
    rfl

/-- C17, as amended.  For a value that is not none and whose hash fails, or
whose comparison with a key never returns true (it throws, or the key is
another value): `storeIValueAndGetIndex` returns exactly when `iValueToFB`
returns, so the failure is not propagated; it encodes the value and returns
the position of the record it appends; a later encoding of the value in the
session returns a strictly greater index.  When the hash fails the cache
gains no entry for the value.  When the value has a hash, the cache gains no
entry if a comparison of the registration throws, and it gains the entry of
the value under the returned index if none does, as when the cache holds no
key with the hash of the value. -/
theorem non_internable_fallback (ops : IValueOps) (v : IValue) (s : Serializer)
    (hv : isNone v = false)
    (hfail : ops.hash v = none ∨ ∀ k, ops.equals v k ≠ some true) :
    isOk (storeIValueAndGetIndex ops v s).1 = isOk (iValueToFB ops v s).1 ∧
    ∀ i s', storeIValueAndGetIndex ops v s = (.ok i, s') →
      (∃ rec s1, iValueToFB ops v s = (.ok rec, s1) ∧ i = s1.ivalue_offsets_.length ∧
        s'.ivalue_offsets_ = s1.ivalue_offsets_ ++ [rec] ∧
        (ops.hash v = none → s'.cached_ivalues_ = s1.cached_ivalues_) ∧
        (∀ h, ops.hash v = some h →
          (cacheScan ops h v s1.cached_ivalues_ = none →
            s'.cached_ivalues_ = s1.cached_ivalues_) ∧
          (cacheScan ops h v s1.cached_ivalues_ = some none →
            s'.cached_ivalues_ = s1.cached_ivalues_ ++ [(v, i)]) ∧
          ((∀ p ∈ s1.cached_ivalues_, ops.hash p.1 ≠ some h) →
            s'.cached_ivalues_ = s1.cached_ivalues_ ++ [(v, i)]))) ∧
      (∀ s2 j s3, Steps ops s' s2 → storeIValueAndGetIndex ops v s2 = (.ok j, s3) → i < j) := by
  have hrun := fun s0 =>
    storeIValueAndGetIndex_miss ops v s0 hv (cacheFind_never ops v hfail s0.cached_ivalues_)
  have hfresh : ∀ s0 i s', storeIValueAndGetIndex ops v s0 = (.ok i, s') →
      ∃ rec s1, iValueToFB ops v s0 = (.ok rec, s1) ∧ i = s1.ivalue_offsets_.length ∧
        s'.ivalue_offsets_ = s1.ivalue_offsets_ ++ [rec] ∧
        (ops.hash v = none → s'.cached_ivalues_ = s1.cached_ivalues_) ∧
        (∀ h, ops.hash v = some h →
          (cacheScan ops h v s1.cached_ivalues_ = none →
            s'.cached_ivalues_ = s1.cached_ivalues_) ∧
          (cacheScan ops h v s1.cached_ivalues_ = some none →
            s'.cached_ivalues_ = s1.cached_ivalues_ ++ [(v, i)]) ∧
          ((∀ p ∈ s1.cached_ivalues_, ops.hash p.1 ≠ some h) →
            s'.cached_ivalues_ = s1.cached_ivalues_ ++ [(v, i)])) := by
    intro s0 i s' h
    rw [hrun s0] at h
    obtain ⟨rec, s1, henc, hins⟩ := bind_eq_ok h
    obtain ⟨c, hc, happ⟩ := insertRemember_cases ops v rec s1
    rw [happ] at hins
    simp only [Prod.mk.injEq, Except.ok.injEq] at hins
    obtain ⟨hi, hs⟩ := hins
    have hcache : s'.cached_ivalues_ = c := by rw [← hs]
    refine ⟨rec, s1, henc, hi.symm, by rw [← hs], ?_, ?_⟩
    · intro hh
      rcases hc with ⟨_, hc⟩ | hc
      · rw [hcache]
        exact hc
      · unfold cacheAssign at hc
        rw [hh] at hc
        cases hc
    · intro h0 hh
      have hassign : cacheAssign ops s1.cached_ivalues_ v s1.ivalue_offsets_.length
          = cacheAssignScan ops h0 v s1.ivalue_offsets_.length s1.cached_ivalues_ := by
        unfold cacheAssign
        rw [hh]
      have hscan := cacheAssignScan_of_cacheScan ops h0 v s1.ivalue_offsets_.length
        s1.cached_ivalues_
      have hthrow : cacheScan ops h0 v s1.cached_ivalues_ = none →
          s'.cached_ivalues_ = s1.cached_ivalues_ := by
        intro hsc
        rcases hc with ⟨_, hc⟩ | hc
        · rw [hcache]
          exact hc
        · rw [hassign, hscan.1 hsc] at hc
          cases hc
      have hadd : cacheScan ops h0 v s1.cached_ivalues_ = some none →
          s'.cached_ivalues_ = s1.cached_ivalues_ ++ [(v, i)] := by
        intro hsc
        rcases hc with ⟨hn, _⟩ | hc
        · rw [hassign, hscan.2 hsc] at hn
          cases hn
        · rw [hassign, hscan.2 hsc] at hc
          simp only [Option.some.injEq] at hc
          rw [hcache, ← hc, hi]
      exact ⟨hthrow, hadd, fun hno => hadd (cacheScan_of_no_hash ops h0 v _ hno)⟩
  refine ⟨?_, ?_⟩
  · rw [hrun s, bind_apply]
    rcases iValueToFB ops v s with ⟨r, s1⟩
    cases r with
    | error e => rfl
    | ok rec =>
      dsimp only
      obtain ⟨c, _, happ⟩ := insertRemember_cases ops v rec s1
      rw [happ]
      rfl
  · intro i s' h
    refine ⟨hfresh s i s' h, ?_⟩
    intro s2 j s3 hsteps h2
    obtain ⟨rec, s1, _, hi, hs', _⟩ := hfresh s i s' h
    obtain ⟨rec2, s4, henc2, hj, _, _⟩ := hfresh s2 j s3 h2
    have hg1 : s'.ivalue_offsets_.length ≤ s2.ivalue_offsets_.length :=
      (steps_pres (growsFrame ops) hsteps).ivalues.length_le
    have hg2 := (iValueToFB_pres (growsFrame ops) v s2).ivalues.length_le
    rw [henc2] at hg2
    have hg3 : s2.ivalue_offsets_.length ≤ s4.ivalue_offsets_.length := hg2
    have hlen : s'.ivalue_offsets_.length = s1.ivalue_offsets_.length + 1 := by
      rw [hs']
      simp
    omega

/-- C17, witness: a list of one string, which `sampleOps` cannot hash, encoded
twice in a fresh session; the indices are 2 and 3 (the element is found in
the cache the second time), and the cache holds the element only.  The tensor
`sampleVector`, which has a hash and cannot be compared, is entered in the
empty cache by its first encoding. -/
theorem non_internable_fallback_witness :
    (storeIValueAndGetIndex sampleOps (.List [.String "m"] "List[str]")
      (Serializer.start ⟨[]⟩)).1 = .ok 2 ∧
    (storeIValueAndGetIndex sampleOps (.List [.String "m"] "List[str]")
      (storeIValueAndGetIndex sampleOps (.List [.String "m"] "List[str]")
        (Serializer.start ⟨[]⟩)).2).1 = .ok 3 ∧
    (storeIValueAndGetIndex sampleOps (.List [.String "m"] "List[str]")
      (Serializer.start ⟨[]⟩)).2.cached_ivalues_ = [(.String "m", 1)] ∧
    (isOk (storeIValueAndGetIndex sampleOps (.List [.String "m"] "List[str]")
        (Serializer.start ⟨[]⟩)).1
      = isOk (iValueToFB sampleOps (.List [.String "m"] "List[str]")
        (Serializer.start ⟨[]⟩)).1) ∧
    (∀ s2 j s3, Steps sampleOps (storeIValueAndGetIndex sampleOps
        (.List [.String "m"] "List[str]") (Serializer.start ⟨[]⟩)).2 s2 →
      storeIValueAndGetIndex sampleOps (.List [.String "m"] "List[str]") s2 = (.ok j, s3) →
      2 < j) ∧
    (∃ rec s1, iValueToFB sampleOps (.Tensor sampleVector) (Serializer.start ⟨[]⟩)
        = (.ok rec, s1) ∧ 1 = s1.ivalue_offsets_.length ∧
      (storeIValueAndGetIndex sampleOps (.Tensor sampleVector)
        (Serializer.start ⟨[]⟩)).2.ivalue_offsets_ = s1.ivalue_offsets_ ++ [rec] ∧
      (sampleOps.hash (.Tensor sampleVector) = none →
        (storeIValueAndGetIndex sampleOps (.Tensor sampleVector)
          (Serializer.start ⟨[]⟩)).2.cached_ivalues_ = s1.cached_ivalues_) ∧
      (∀ h, sampleOps.hash (.Tensor sampleVector) = some h →
        (cacheScan sampleOps h (.Tensor sampleVector) s1.cached_ivalues_ = none →
          (storeIValueAndGetIndex sampleOps (.Tensor sampleVector)
            (Serializer.start ⟨[]⟩)).2.cached_ivalues_ = s1.cached_ivalues_) ∧
        (cacheScan sampleOps h (.Tensor sampleVector) s1.cached_ivalues_ = some none →
          (storeIValueAndGetIndex sampleOps (.Tensor sampleVector)
            (Serializer.start ⟨[]⟩)).2.cached_ivalues_
            = s1.cached_ivalues_ ++ [(.Tensor sampleVector, 1)]) ∧
        ((∀ p ∈ s1.cached_ivalues_, sampleOps.hash p.1 ≠ some h) →
          (storeIValueAndGetIndex sampleOps (.Tensor sampleVector)
            (Serializer.start ⟨[]⟩)).2.cached_ivalues_
            = s1.cached_ivalues_ ++ [(.Tensor sampleVector, 1)]))) :=
  ⟨rfl, rfl, rfl,
    (non_internable_fallback sampleOps (.List [.String "m"] "List[str]")
      (Serializer.start ⟨[]⟩) rfl (Or.inl rfl)).1,
    ((non_internable_fallback sampleOps (.List [.String "m"] "List[str]")
      (Serializer.start ⟨[]⟩) rfl (Or.inl rfl)).2 2 _ rfl).2,
    ((non_internable_fallback sampleOps (.Tensor sampleVector) (Serializer.start ⟨[]⟩) rfl
      (Or.inr (fun k => by cases k <;> simp [sampleOps]))).2 1 _ rfl).1⟩

/-- C17, counterexample to the claim as stated.  The comparison of the tensor
`sampleVector`, of two elements, with a tensor fails, and its hash does not;
its first encoding in a fresh session finds no key with its hash and enters
it in the cache under the index 1; the second encoding compares it with that
key, fails to, and returns the index 2. -/
theorem non_internable_fallback_counterexample :
    sampleOps.equals (.Tensor sampleVector) (.Tensor sampleVector) = none ∧
    (storeIValueAndGetIndex sampleOps (.Tensor sampleVector) (Serializer.start ⟨[]⟩)).1
      = .ok 1 ∧
    (Serializer.start ⟨[]⟩).cached_ivalues_ = [] ∧
    (storeIValueAndGetIndex sampleOps (.Tensor sampleVector)
      (Serializer.start ⟨[]⟩)).2.cached_ivalues_ = [(.Tensor sampleVector, 1)] ∧
    (storeIValueAndGetIndex sampleOps (.Tensor sampleVector)
      (storeIValueAndGetIndex sampleOps (.Tensor sampleVector)
        (Serializer.start ⟨[]⟩)).2).1 = .ok 2 :=
  ⟨rfl, rfl, rfl, rfl, rfl⟩

/-! ### C18: functions are memoized by name -/

theorem CreateFBSchemaArgs_pres_of {ops : IValueOps} {C : ClassType → Prop}
    {R : Serializer → Serializer → Prop} (F : ValueFrame ops C R) :
    ∀ args, ClassesInList C (args.map Argument.defaultIValue) →
      Pres R (CreateFBSchemaArgs ops args)
  | [], _ => by rw [CreateFBSchemaArgs]; exact Pres.pure F.refl _
  | arg :: rest, hc => by
    rw [CreateFBSchemaArgs]
    rw [List.map_cons, ClassesInList] at hc
    exact Pres.bind F.trans (storeIValueAndGetIndex_pres_of F _ hc.1)
      (fun _ => Pres.bind F.trans (CreateFBSchemaArgs_pres_of F rest hc.2)
        (fun _ => Pres.pure F.refl _))

theorem storeSchemaClass_pres_of {ops : IValueOps} {C : ClassType → Prop}
    {R : Serializer → Serializer → Prop} (F : ValueFrame ops C R) (schema : FunctionSchema)
    (hc : ∀ c, schema.receiverClass = some c → C c) : Pres R (storeSchemaClass schema) := by
  unfold storeSchemaClass
  unfold FunctionSchema.receiverClass at hc
  cases hargs : schema.arguments with
  | nil => exact Pres.throw F.refl _
  | cons arg0 rest =>
    rw [hargs] at hc
    dsimp only at hc ⊢
    cases hcast : arg0.type.castClassType with
    | none => exact Pres.throw F.refl _
    | some classtype => exact F.storeClass classtype (hc classtype hcast)

theorem schemaToFB_pres_of {ops : IValueOps} {C : ClassType → Prop}
    {R : Serializer → Serializer → Prop} (F : ValueFrame ops C R) :
    ∀ schema : Option FunctionSchema, (∀ sc, schema = some sc → ClassesInSchema C sc) →
      Pres R (schemaToFB ops schema)
  | none, _ => by rw [schemaToFB]; exact Pres.pure F.refl _
  | some schema, hc => by
    obtain ⟨h1, h2, h3⟩ := hc schema rfl
    rw [schemaToFB]
    split
    · exact Pres.throw F.refl _
    · split
      · exact Pres.throw F.refl _
      · split
        · exact Pres.throw F.refl _
        · unfold CreateFBSchema
          exact Pres.bind F.trans
            (Pres.bind F.trans (CreateFBSchemaArgs_pres_of F _ h1)
              (fun _ => Pres.bind F.trans (CreateFBSchemaArgs_pres_of F _ h2)
                (fun _ => Pres.pure F.refl _)))
            (fun _ => Pres.bind F.trans (storeSchemaClass_pres_of F schema h3)
              (fun _ => Pres.pure F.refl _))

theorem functionToFB_pres_of {ops : IValueOps} {C : ClassType → Prop}
    {R : Serializer → Serializer → Prop} (F : ValueFrame ops C R) (qn : String)
    (func : Function) (hc : ClassesInFunction C func) : Pres R (functionToFB ops qn func) := by
  unfold functionToFB
  exact Pres.bind F.trans (Pres.of_state_eq F.refl (fun _ => rfl))
    (fun _ => Pres.bind F.trans (storeIValuesAndGetIndexes_pres_of F _ hc.1)
      (fun _ => Pres.bind F.trans (Pres.of_state_eq F.refl (fun _ => rfl))
        (fun _ => Pres.bind F.trans (schemaToFB_pres_of F _ hc.2)
          (fun _ => Pres.pure F.refl _))))

theorem classesInFunction_true (func : Function) : ClassesInFunction (fun _ => True) func :=
  ⟨classesInList_true _, fun _ _ => ⟨classesInList_true _, classesInList_true _,
    fun _ _ => trivial⟩⟩

/-- What `storeFunctionAndGetIndex` does to the name table keeps the entries
that were there: only a name without an entry is assigned. -/
theorem storeFunctionAndGetIndex_qnEntriesKept (ops : IValueOps) (qn : String)
    (func : Function) (s : Serializer) :
    QnEntriesKept s (storeFunctionAndGetIndex ops qn func s).2 := by
  rw [storeFunctionAndGetIndex_apply]
  cases hfind : mapFind s.qn_to_serialized_values_ qn with
  | some second => exact fun _ _ h => h
  | none =>
    dsimp only
    have hkept := functionToFB_pres_of (qnEntriesKeptFrame ops) qn func
      (classesInFunction_true func) s
    rw [bind_apply]
    rcases hfb : functionToFB ops qn func s with ⟨r, sa⟩
    rw [hfb] at hkept
    cases r with
    | error e => exact hkept
    | ok offset =>
      dsimp only at hkept ⊢
      rw [insertFunction_apply]
      intro k r hk
      have hne : ¬ k = qn := by
        intro e
        rw [e, hfind] at hk
        cases hk
      show mapFind (mapAssign sa.qn_to_serialized_values_ qn sa.ivalue_offsets_.length) k
        = some r
      rw [mapFind_mapAssign, if_neg hne]
      exact hkept k r hk

theorem step_qnEntriesKept {ops : IValueOps} {s s' : Serializer} (h : Step ops s s') :
    QnEntriesKept s s' := by
  cases h with
  | storeIValue v =>
    exact storeIValueAndGetIndex_pres_of (qnEntriesKeptFrame ops) v (classesIn_true v) s
  | storeFunction qn f => exact storeFunctionAndGetIndex_qnEntriesKept ops qn f s
  | storeClassType c => exact (qnEntriesKeptFrame ops).storeClass c trivial s
  | tensor t => exact tensorToFB_pres (qnEntriesKeptFrame ops).toTensorFrame t s

theorem steps_qnEntriesKept {ops : IValueOps} {s s' : Serializer} (h : Steps ops s s') :
    QnEntriesKept s s' := by
  induction h with
  | refl => exact fun _ _ h => h
  | tail _ hstep ih => exact fun k r hk => step_qnEntriesKept hstep k r (ih k r hk)

/-- After a successful `storeFunctionAndGetIndex` the name is registered under
the returned index. -/
theorem storeFunctionAndGetIndex_registered {ops : IValueOps} {qn : String} {func : Function}
    {s s1 : Serializer} {i : Nat} (h : storeFunctionAndGetIndex ops qn func s = (.ok i, s1)) :
    mapFind s1.qn_to_serialized_values_ qn = some i := by
  rw [storeFunctionAndGetIndex_apply] at h
  cases hfind : mapFind s.qn_to_serialized_values_ qn with
  | some second =>
    rw [hfind] at h
    simp only [Prod.mk.injEq, Except.ok.injEq] at h
    obtain ⟨hi, hs⟩ := h
    rw [← hs, ← hi]
    exact hfind
  | none =>
    rw [hfind] at h
    dsimp only at h
    obtain ⟨offset, sa, _, hins⟩ := bind_eq_ok h
    rw [insertFunction_apply] at hins
    simp only [Prod.mk.injEq, Except.ok.injEq] at hins
    obtain ⟨hi, hs⟩ := hins
    rw [← hs, ← hi]
    show mapFind (mapAssign sa.qn_to_serialized_values_ qn sa.ivalue_offsets_.length) qn = _
    rw [mapFind_mapAssign, if_pos rfl]

/-- C18.  Once `storeFunctionAndGetIndex` has returned an index for a
qualified name, every later call of the session with that name, whatever
function is passed, returns the same index and leaves the state as it is:
nothing is encoded and no record is appended. -/
theorem function_memoization (ops : IValueOps) (qn : String) (f : Function)
    (s s1 : Serializer) (i : Nat)
    (h : storeFunctionAndGetIndex ops qn f s = (.ok i, s1)) :
    ∀ s2, Steps ops s1 s2 → ∀ g, storeFunctionAndGetIndex ops qn g s2 = (.ok i, s2) := by
  intro s2 hsteps g
  have hreg := steps_qnEntriesKept hsteps qn i (storeFunctionAndGetIndex_registered h)
  rw [storeFunctionAndGetIndex_apply, hreg]

/-- C18, witness: the method `forward` of `sampleModule` is encoded in a fresh
session as record 1; after the encoding of the int `5`, a call with the same
name and the function `sampleSetstate` returns 1 and changes nothing. -/
theorem function_memoization_witness :
    (storeFunctionAndGetIndex sampleOps "__torch__.M.forward" sampleForward
      (Serializer.start ⟨[]⟩)).1 = .ok 1 ∧
    storeFunctionAndGetIndex sampleOps "__torch__.M.forward" sampleSetstate
      (storeIValueAndGetIndex sampleOps (.Int 5)
        (storeFunctionAndGetIndex sampleOps "__torch__.M.forward" sampleForward
          (Serializer.start ⟨[]⟩)).2).2
      = (.ok 1, (storeIValueAndGetIndex sampleOps (.Int 5)
        (storeFunctionAndGetIndex sampleOps "__torch__.M.forward" sampleForward
          (Serializer.start ⟨[]⟩)).2).2) :=
  ⟨rfl, function_memoization sampleOps "__torch__.M.forward" sampleForward
    (Serializer.start ⟨[]⟩) _ 1 rfl _ (Steps.tail (Steps.refl _) (Step.storeIValue (.Int 5) _))
    sampleSetstate⟩

/-! ### C19: the name table -/

theorem getElem?_append_some {α : Type} {l : List α} {i : Nat} {x : α}
    (hx : l[i]? = some x) (t : List α) : (l ++ t)[i]? = some x := by
  have hlt : i < l.length := by
    by_contra hne
    rw [List.getElem?_eq_none (by omega)] at hx
    cases hx
  rw [List.getElem?_append_left hlt]
  exact hx

theorem getElem?_of_prefix {α : Type} {l l' : List α} (h : l <+: l') {i : Nat} {x : α}
    (hx : l[i]? = some x) : l'[i]? = some x := by
  obtain ⟨t, rfl⟩ := h
  exact getElem?_append_some hx t

theorem classTypeRecord_name (mcu : CompilationUnit) (c : ClassType) :
    (classTypeRecord mcu c).type_name = c.name := by
  unfold classTypeRecord
  dsimp only
  split
  · rfl
  · split <;> rfl

theorem functionToFB_qn {ops : IValueOps} {qn : String} {func : Function}
    {s s' : Serializer} {a : FBFunction} (h : functionToFB ops qn func s = (.ok a, s')) :
    a.qn = c_str qn := by
  obtain ⟨_, _, _, _, _, _, _, _, _, ha⟩ := functionToFB_ok_inv h
  rw [ha]

theorem nameInvFrame (ops : IValueOps) (isFn : String → Prop) :
    ValueFrame ops (fun c => ¬ isFn c.name) (fun s s' => NameInv isFn s → NameInv isFn s') where
  refl := fun _ h => h
  trans := fun _ _ _ h1 h2 h => h2 (h1 h)
  storageIndex := by
    intro t s hs
    rcases storageIndex_cases t s with ⟨i, _, h⟩ | ⟨_, h⟩
    · rw [h]; exact hs
    · rw [h]; exact hs
  storeClass := by
    intro c hc s hs
    rcases storeClassTypeAndGetIndex_cases c s with ⟨i, _, h⟩ | ⟨_, h⟩
    · rw [h]; exact hs
    · rw [h]
      intro k r hk
      simp only [mapFind_mapAssign] at hk
      by_cases hkc : k = c.name
      · rw [if_pos hkc] at hk
        simp only [Option.some.injEq] at hk
        subst hk
        refine ⟨fun hf => absurd (hkc ▸ hf) hc, fun _ => ?_⟩
        refine ⟨classTypeRecord s.mcu_ c, by simp, ?_⟩
        rw [classTypeRecord_name, hkc]
      · rw [if_neg hkc] at hk
        obtain ⟨h1, h2⟩ := hs k r hk
        refine ⟨h1, fun hn => ?_⟩
        obtain ⟨o, ho, hname⟩ := h2 hn
        exact ⟨o, getElem?_append_some ho _, hname⟩
  insertRemember := by
    intro v offset _ s hs
    obtain ⟨c, _, h⟩ := insertRemember_cases ops v offset s
    rw [h]
    intro k r hk
    obtain ⟨h1, h2⟩ := hs k r hk
    refine ⟨fun hf => ?_, h2⟩
    obtain ⟨f, hf1, hf2⟩ := h1 hf
    exact ⟨f, getElem?_append_some hf1 _, hf2⟩

theorem storeFunctionAndGetIndex_nameInv (ops : IValueOps) (isFn : String → Prop)
    (qn : String) (func : Function) (s : Serializer) (hn : isFn qn)
    (hc : ClassesInFunction (fun c => ¬ isFn c.name) func) (hs : NameInv isFn s) :
    NameInv isFn (storeFunctionAndGetIndex ops qn func s).2 := by
  rw [storeFunctionAndGetIndex_apply]
  cases hfind : mapFind s.qn_to_serialized_values_ qn with
  | some second => exact hs
  | none =>
    dsimp only
    have hinv := functionToFB_pres_of (nameInvFrame ops isFn) qn func hc s hs
    rw [bind_apply]
    rcases hfb : functionToFB ops qn func s with ⟨r, sa⟩
    rw [hfb] at hinv
    cases r with
    | error e => exact hinv
    | ok offset =>
      dsimp only at hinv ⊢
      rw [insertFunction_apply]
      intro k r hk
      simp only [mapFind_mapAssign] at hk
      by_cases hkq : k = qn
      · rw [if_pos hkq] at hk
        simp only [Option.some.injEq] at hk
        subst hk
        refine ⟨fun _ => ⟨offset, by simp, ?_⟩, fun hnf => absurd (hkq ▸ hn) hnf⟩
        rw [functionToFB_qn hfb, hkq]
      · rw [if_neg hkq] at hk
        obtain ⟨h1, h2⟩ := hinv k r hk
        refine ⟨fun hf => ?_, h2⟩
        obtain ⟨f, hf1, hf2⟩ := h1 hf
        exact ⟨f, getElem?_append_some hf1 _, hf2⟩

theorem namedStep_nameInv {ops : IValueOps} {isFn : String → Prop} {s s' : Serializer}
    (h : NamedStep ops isFn s s') (hs : NameInv isFn s) : NameInv isFn s' := by
  cases h with
  | storeIValue v _ hc => exact storeIValueAndGetIndex_pres_of (nameInvFrame ops isFn) v hc s hs
  | storeFunction qn f _ hn hc => exact storeFunctionAndGetIndex_nameInv ops isFn qn f s hn hc hs
  | storeClassType c _ hc => exact (nameInvFrame ops isFn).storeClass c hc s hs
  | tensor t => exact tensorToFB_pres (nameInvFrame ops isFn).toTensorFrame t s hs

theorem namedSteps_nameInv {ops : IValueOps} {isFn : String → Prop} {s s' : Serializer}
    (h : NamedSteps ops isFn s s') (hs : NameInv isFn s) : NameInv isFn s' := by
  induction h with
  | refl => exact hs
  | tail _ hstep ih => exact namedStep_nameInv hstep ih

theorem start_nameInv (isFn : String → Prop) (mcu : CompilationUnit) :
    NameInv isFn (Serializer.start mcu) := by
  intro k r hk
  cases hk

/-- The index `storeFunctionAndGetIndex` returns is the position of a function
record that carries the name, as `c_str` passes it. -/
theorem storeFunctionAndGetIndex_points {ops : IValueOps} {isFn : String → Prop}
    {qn : String} {func : Function} {s s' : Serializer} {i : Nat} (hs : NameInv isFn s)
    (hn : isFn qn) (hc : ClassesInFunction (fun c => ¬ isFn c.name) func)
    (h : storeFunctionAndGetIndex ops qn func s = (.ok i, s')) :
    NameInv isFn s' ∧ ∃ rec, s'.ivalue_offsets_[i]? = some (.Function rec) ∧ rec.qn = c_str qn := by
  have hinv := storeFunctionAndGetIndex_nameInv ops isFn qn func s hn hc hs
  rw [h] at hinv
  exact ⟨hinv, (hinv qn i (storeFunctionAndGetIndex_registered h)).1 hn⟩

/-- The index `storeClassTypeAndGetIndex` returns is registered under the name
of the class. -/
theorem storeClassTypeAndGetIndex_registered {c : ClassType} {s s' : Serializer} {i : Nat}
    (h : storeClassTypeAndGetIndex c s = (.ok i, s')) :
    mapFind s'.qn_to_serialized_values_ c.name = some i := by
  rcases storeClassTypeAndGetIndex_cases c s with ⟨r, hr, happ⟩ | ⟨_, happ⟩
  · rw [happ] at h
    simp only [Prod.mk.injEq, Except.ok.injEq] at h
    obtain ⟨hi, hs⟩ := h
    rw [← hs, ← hi]
    exact hr
  · rw [happ] at h
    simp only [Prod.mk.injEq, Except.ok.injEq] at h
    obtain ⟨hi, hs⟩ := h
    rw [← hs, ← hi]
    show mapFind (mapAssign s.qn_to_serialized_values_ c.name s.obj_types_offset_.length) c.name
      = _
    rw [mapFind_mapAssign, if_pos rfl]

/-- A name without a NUL is passed whole by `c_str`. -/
theorem c_str_of_no_nul (qn : String) (h : Char.ofNat 0 ∉ qn.toList) : c_str qn = qn := by
  unfold c_str
  have hall : List.takeWhile (fun c => decide (c ≠ Char.ofNat 0)) qn.toList = qn.toList := by
    rw [List.takeWhile_eq_self_iff]
    intro c hc
    simp only [ne_eq, decide_not, Bool.not_eq_true', decide_eq_false_iff_not]
    intro e
    exact h (e ▸ hc)
  rw [hall]
  rfl

/-- C19, as amended.  In a session in which no class is named like a function,
every entry of the name table points to the record of its name; the index
`storeFunctionAndGetIndex` returns is the position in the value sequence of a
function record that carries the qualified name up to its first NUL, the
whole name when it has none; the index `storeClassTypeAndGetIndex` returns is
the position in the class table of a record that carries the name of the
class, and every later encoding of the class in the session returns the same
index and leaves the state as it is. -/
theorem name_table_integrity (ops : IValueOps) (isFn : String → Prop) (s : Serializer)
    (hs : NamedSession ops isFn s) :
    NameInv isFn s ∧
    (∀ qn f i s', isFn qn → ClassesInFunction (fun c => ¬ isFn c.name) f →
      storeFunctionAndGetIndex ops qn f s = (.ok i, s') →
      ∃ rec, s'.ivalue_offsets_[i]? = some (.Function rec) ∧ rec.qn = c_str qn ∧
        (Char.ofNat 0 ∉ qn.toList → rec.qn = qn)) ∧
    (∀ c i s', ¬ isFn c.name → storeClassTypeAndGetIndex c s = (.ok i, s') →
      (∃ o, s'.obj_types_offset_[i]? = some o ∧ o.type_name = c.name) ∧
      ∀ s2, Steps ops s' s2 → storeClassTypeAndGetIndex c s2 = (.ok i, s2)) := by
  obtain ⟨mcu, hsteps⟩ := hs
  have hinv := namedSteps_nameInv hsteps (start_nameInv isFn mcu)
  refine ⟨hinv, ?_, ?_⟩
  · intro qn f i s' hn hc h
    obtain ⟨rec, hrec, hqn⟩ := (storeFunctionAndGetIndex_points hinv hn hc h).2
    exact ⟨rec, hrec, hqn, fun hnul => by rw [hqn, c_str_of_no_nul qn hnul]⟩
  · intro c i s' hc h
    have hinv' := (nameInvFrame ops isFn).storeClass c hc s hinv
    rw [h] at hinv'
    have hreg := storeClassTypeAndGetIndex_registered h
    refine ⟨(hinv' c.name i hreg).2 hc, ?_⟩
    intro s2 hsteps2
    have hreg2 := steps_qnEntriesKept hsteps2 c.name i hreg
    rcases storeClassTypeAndGetIndex_cases c s2 with ⟨r, hr, happ⟩ | ⟨hnone, _⟩
    · rw [hreg2] at hr
      simp only [Option.some.injEq] at hr
      rw [happ, hr]
    · rw [hreg2] at hnone
      cases hnone

theorem sampleForward_classes :
    ClassesInFunction (fun c => ¬ c.name = "__torch__.M.forward") sampleForward := by
  refine ⟨trivial, ?_⟩
  intro schema h
  have hs := (Option.some.inj h).symm
  subst hs
  refine ⟨⟨trivial, trivial, trivial⟩, ⟨trivial, trivial⟩, ?_⟩
  intro c hcl
  have hc := (Option.some.inj hcl).symm
  subst hc
  decide

/-- C19, witness: the session in which the method `forward` of `sampleModule`
has been encoded, the only function name being `__torch__.M.forward`; the
function is record 1 of the value sequence and its class `__torch__.M` is
record 0 of the class table. -/
theorem name_table_integrity_witness :
    (storeFunctionAndGetIndex sampleOps "__torch__.M.forward" sampleForward
      sampleForwardState) = (.ok 1, sampleForwardState) ∧
    (sampleForwardState.ivalue_offsets_[1]?.bind functionOf).map FBFunction.qn
      = some "__torch__.M.forward" ∧
    (storeClassTypeAndGetIndex sampleClass sampleForwardState)
      = (.ok 0, sampleForwardState) ∧
    (NameInv (fun qn => qn = "__torch__.M.forward") sampleForwardState ∧
    (∀ qn f i s', qn = "__torch__.M.forward" →
      ClassesInFunction (fun c => ¬ c.name = "__torch__.M.forward") f →
      storeFunctionAndGetIndex sampleOps qn f sampleForwardState = (.ok i, s') →
      ∃ rec, s'.ivalue_offsets_[i]? = some (.Function rec) ∧ rec.qn = c_str qn ∧
        (Char.ofNat 0 ∉ qn.toList → rec.qn = qn)) ∧
    (∀ c i s', ¬ c.name = "__torch__.M.forward" →
      storeClassTypeAndGetIndex c sampleForwardState = (.ok i, s') →
      (∃ o, s'.obj_types_offset_[i]? = some o ∧ o.type_name = c.name) ∧
      ∀ s2, Steps sampleOps s' s2 → storeClassTypeAndGetIndex c s2 = (.ok i, s2))) :=
  ⟨rfl, by decide!, rfl,
    name_table_integrity sampleOps (fun qn => qn = "__torch__.M.forward") sampleForwardState
      ⟨⟨[]⟩, NamedSteps.tail (NamedSteps.refl _)
        (NamedStep.storeFunction sampleForward.qualname sampleForward _ rfl
          sampleForward_classes)⟩⟩

/-- C19, counterexample to the claim as stated.  The method `forward` of
`sampleModule` stored under the name `sampleNulName` (`f`, NUL, `g`) in a
fresh session, no class being named so: the call returns the index 1, the
name table holds the whole name under 1, and the function record at position
1 carries the name `f`. -/
theorem name_table_integrity_counterexample :
    sampleNulName ≠ "f" ∧ sampleClass.name ≠ sampleNulName ∧
    (storeFunctionAndGetIndex sampleOps sampleNulName sampleForward
      (Serializer.start ⟨[]⟩)).1 = .ok 1 ∧
    mapFind (storeFunctionAndGetIndex sampleOps sampleNulName sampleForward
      (Serializer.start ⟨[]⟩)).2.qn_to_serialized_values_ sampleNulName = some 1 ∧
    ((storeFunctionAndGetIndex sampleOps sampleNulName sampleForward
      (Serializer.start ⟨[]⟩)).2.ivalue_offsets_[1]?.bind functionOf).map FBFunction.qn
      = some "f" :=
  ⟨by decide, by decide, rfl, by decide!, by decide!⟩

/-! ### C20: the assembly of the module -/

/-- The loop over the methods returns, for each method in order, the position
of a function record that carries the qualified name of the method, as
`c_str` passes it. -/
theorem storeMethods_points {ops : IValueOps} {isFn : String → Prop} :
    ∀ (methods : List Function) (s s' : Serializer) (idxs : List Nat),
      NameInv isFn s →
      (∀ m ∈ methods, isFn m.qualname ∧ ClassesInFunction (fun c => ¬ isFn c.name) m) →
      storeMethods ops methods s = (.ok idxs, s') →
      NameInv isFn s' ∧
      List.Forall₂ (fun (m : Function) (i : Nat) =>
        ∃ rec, s'.ivalue_offsets_[i]? = some (.Function rec) ∧ rec.qn = c_str m.qualname)
        methods idxs
  | [], s, s', idxs, hs, _, h => by
    rw [storeMethods, pure_apply] at h
    simp only [Prod.mk.injEq, Except.ok.injEq] at h
    obtain ⟨h1, h2⟩ := h
    subst h1 h2
    exact ⟨hs, List.Forall₂.nil⟩
  | method :: rest, s, s', idxs, hs, hm, h => by
    rw [storeMethods] at h
    obtain ⟨i, s1, hA, hB⟩ := bind_eq_ok h
    obtain ⟨is, s2, hC, hD⟩ := bind_eq_ok hB
    rw [pure_apply] at hD
    simp only [Prod.mk.injEq, Except.ok.injEq] at hD
    obtain ⟨hidx, hs2⟩ := hD
    subst hidx hs2
    have hhead := hm method (List.mem_cons_self _ _)
    obtain ⟨hinv1, rec, hrec, hqn⟩ := storeFunctionAndGetIndex_points hs hhead.1 hhead.2 hA
    obtain ⟨hinv2, hrest⟩ := storeMethods_points rest s1 s2 is hinv1
      (fun m hmem => hm m (List.mem_cons_of_mem _ hmem)) hC
    have hgrow := (storeMethods_pres (growsFrame ops) rest s1).ivalues
    rw [hC] at hgrow
    exact ⟨hinv2, List.Forall₂.cons ⟨rec, getElem?_of_prefix hgrow hrec, hqn⟩ hrest⟩

theorem forall₂_length_eq {α β : Type} {P : α → β → Prop} {l1 : List α} {l2 : List β}
    (h : List.Forall₂ P l1 l2) : l2.length = l1.length := by
  induction h with
  | nil => rfl
  | cons _ _ ih => simp [ih]

/-- C20, as amended.  For a module that `serializeModule` serializes, no class
stored for a method (the class of an object among its constants or its default
values, or the class of its first argument) being named like a method: the
function-index list of the container has one entry per method, in method
order, each the position in the value sequence of a function record that
carries the qualified name of the method up to its first NUL, the whole name
when it has none;
the list is what the loop over the methods returned, and the root-object index
is the index `storeIValueAndGetIndex` returned for the object of the module in
the state the loop left.  The module of the end-to-end example (one method
`forward`, one string attribute `name = "m"`) is serialized to a container
with a function list of length 1, the none record at index 0, and a root
object record whose attribute-index list is `[2]`, the record at index 2
being the string `"m"`. -/
theorem module_assembly (ops : IValueOps) (module : Module) (incl : Bool)
    (extra_files jit_sources : List (String × String)) (jit_constants : List IValue)
    (c : FBModule)
    (hnames : ∀ m ∈ module.get_methods,
      ClassesInFunction (fun cl => ¬ ∃ m' ∈ module.get_methods, m'.qualname = cl.name) m)
    (h : serializeModule ops module incl extra_files jit_sources jit_constants = .ok c) :
    c.methods.length = module.get_methods.length ∧
    List.Forall₂ (fun (m : Function) (i : Nat) =>
      ∃ rec, c.ivalues[i]? = some (.Function rec) ∧ rec.qn = c_str m.qualname ∧
        (Char.ofNat 0 ∉ m.qualname.toList → rec.qn = m.qualname))
      module.get_methods c.methods ∧
    (∃ s1 s2, storeMethods ops module.get_methods (Serializer.start module.compilation_unit)
        = (.ok c.methods, s1) ∧
      storeIValueAndGetIndex ops module._ivalue s1 = (.ok c.state_obj, s2)) ∧
    (isOk (serializeModule sampleOps sampleModule true [] [] []) = true ∧
      (okValue FBModule.empty
        (serializeModule sampleOps sampleModule true [] [] [])).methods.length = 1 ∧
      ((okValue FBModule.empty
        (serializeModule sampleOps sampleModule true [] [] [])).ivalues[0]?).map ivalue_type
        = some .NONE ∧
      (((okValue FBModule.empty (serializeModule sampleOps sampleModule true [] [] [])).ivalues[
        (okValue FBModule.empty
          (serializeModule sampleOps sampleModule true [] [] [])).state_obj]?).bind
        objectOf).map FBObject.attrs = some (some [2]) ∧
      ((okValue FBModule.empty
        (serializeModule sampleOps sampleModule true [] [] [])).ivalues[2]?).bind stringOf
        = some "m") := by
  obtain ⟨functions_index, s1, ivalue_index, s2, jit_constants_indexes, s3, h1, h2, h3, hc⟩ :=
    serializeModule_ok_inv h
  have hpoints := @storeMethods_points ops
    (fun qn => ∃ m' ∈ module.get_methods, m'.qualname = qn)
    module.get_methods _ s1 functions_index (start_nameInv _ module.compilation_unit)
    (fun m hm => ⟨⟨m, hm, rfl⟩, hnames m hm⟩) h1
  have hg2 := (storeIValueAndGetIndex_pres (growsFrame ops) module._ivalue s1).ivalues
  rw [h2] at hg2
  have hg3 := (storeIValuesAndGetIndexes_pres (growsFrame ops) jit_constants s2).ivalues
  rw [h3] at hg3
  have hall : List.Forall₂ (fun (m : Function) (i : Nat) =>
      ∃ rec, s3.ivalue_offsets_[i]? = some (.Function rec) ∧ rec.qn = c_str m.qualname ∧
        (Char.ofNat 0 ∉ m.qualname.toList → rec.qn = m.qualname))
      module.get_methods functions_index :=
    hpoints.2.imp (fun m _ ⟨rec, hrec, hqn⟩ =>
      ⟨rec, getElem?_of_prefix (hg2.trans hg3) hrec, hqn,
        fun hnul => by rw [hqn, c_str_of_no_nul m.qualname hnul]⟩)
  subst hc
  exact ⟨forall₂_length_eq hall, hall, ⟨s1, s2, h1, h2⟩,
    by decide!, by decide!, by decide!, by decide!, by decide!⟩

theorem sampleModule_classes : ∀ m ∈ sampleModule.get_methods,
    ClassesInFunction (fun cl => ¬ ∃ m' ∈ sampleModule.get_methods, m'.qualname = cl.name)
      m := by
  intro m hm
  have hm' : m = sampleForward := by
    simpa [sampleModule] using hm
  subst hm'
  refine ⟨trivial, ?_⟩
  intro schema h
  have hs := (Option.some.inj h).symm
  subst hs
  refine ⟨⟨trivial, trivial, trivial⟩, ⟨trivial, trivial⟩, ?_⟩
  intro c hcl
  have hc := (Option.some.inj hcl).symm
  subst hc
  simp [sampleModule, sampleForward, sampleClass]

/-- C20, witness: the module of the end-to-end example; the function list is
`[1]`, record 1 is the function record of `__torch__.M.forward`, and the root
object is record 3. -/
theorem module_assembly_witness :
    (okValue FBModule.empty (serializeModule sampleOps sampleModule true [] [] [])).methods
      = [1] ∧
    (okValue FBModule.empty (serializeModule sampleOps sampleModule true [] [] [])).state_obj
      = 3 ∧
    (okValue FBModule.empty
      (serializeModule sampleOps sampleModule true [] [] [])).ivalues.map ivalue_type
      = [.NONE, .Function, .String, .Object] ∧
    (okValue FBModule.empty
      (serializeModule sampleOps sampleModule true [] [] [])).methods.length
      = sampleModule.get_methods.length ∧
    List.Forall₂ (fun (m : Function) (i : Nat) =>
      ∃ rec, (okValue FBModule.empty
          (serializeModule sampleOps sampleModule true [] [] [])).ivalues[i]?
        = some (.Function rec) ∧ rec.qn = c_str m.qualname ∧
        (Char.ofNat 0 ∉ m.qualname.toList → rec.qn = m.qualname))
      sampleModule.get_methods
      (okValue FBModule.empty (serializeModule sampleOps sampleModule true [] [] [])).methods :=
  ⟨by decide!, by decide!, by decide!,
    (module_assembly sampleOps sampleModule true [] [] [] _ sampleModule_classes
      (eq_ok_of_isOk FBModule.empty _ (by decide!))).1,
    (module_assembly sampleOps sampleModule true [] [] [] _ sampleModule_classes
      (eq_ok_of_isOk FBModule.empty _ (by decide!))).2.1⟩

/-- C20, counterexample to the claim as stated.  The module
`sampleClashModule` has the methods `__torch__.M.f`, whose constant is an
object of the class `__torch__.M.g`, and `__torch__.M.g`.  It is serialized
successfully; the function-index list is `[2, 0]`: the entry of the second
method is the index of the class in the class table, and the record at
position 0 of the value sequence is the none record; no function record
carries the name of the second method. -/
theorem module_assembly_counterexample :
    sampleClashModule.get_methods.map Function.qualname = ["__torch__.M.f", "__torch__.M.g"] ∧
    isOk (serializeModule sampleOps sampleClashModule true [] [] []) = true ∧
    (okValue FBModule.empty
      (serializeModule sampleOps sampleClashModule true [] [] [])).methods = [2, 0] ∧
    (okValue FBModule.empty
      (serializeModule sampleOps sampleClashModule true [] [] [])).ivalues.map ivalue_type
      = [.NONE, .Object, .Function, .String, .Object] ∧
    (okValue FBModule.empty
      (serializeModule sampleOps sampleClashModule true [] [] [])).ivalues.map
      (fun rec => (functionOf rec).map FBFunction.qn)
      = [none, none, some "__torch__.M.f", none, none] :=
  ⟨by decide!, by decide!, by decide!, by decide!, by decide!⟩

/-! ### C21: the state is append-only -/

/-- C21.  Every encoding operation, in the state it leaves when it returns
and in the state it leaves when it throws, has only extended the value
sequence, the class table and the storage list: `storeIValueAndGetIndex`,
`storeFunctionAndGetIndex`, `storeClassTypeAndGetIndex` and `tensorToFB`, and
the operations they run (`iValueToFB`, `storeIValuesAndGetIndexes`,
`functionToFB`).  Hence along any sequence of operations each of the three
sequences is a prefix of what it becomes, and a record keeps its index and
its content. -/
theorem append_only (ops : IValueOps) (s : Serializer) :
    (∀ v, Grows s (storeIValueAndGetIndex ops v s).2) ∧
    (∀ qn f, Grows s (storeFunctionAndGetIndex ops qn f s).2) ∧
    (∀ c, Grows s (storeClassTypeAndGetIndex c s).2) ∧
    (∀ t, Grows s (tensorToFB t s).2) ∧
    (∀ v, Grows s (iValueToFB ops v s).2) ∧
    (∀ vs, Grows s (storeIValuesAndGetIndexes ops vs s).2) ∧
    (∀ qn f, Grows s (functionToFB ops qn f s).2) ∧
    (∀ s', Steps ops s s' →
      s.ivalue_offsets_ <+: s'.ivalue_offsets_ ∧
      s.obj_types_offset_ <+: s'.obj_types_offset_ ∧
      s.tensor_data_ <+: s'.tensor_data_ ∧
      (∀ (i : Nat) (rec : FBIValue), s.ivalue_offsets_[i]? = some rec → s'.ivalue_offsets_[i]? = some rec) ∧
      (∀ (i : Nat) (o : ObjectType), s.obj_types_offset_[i]? = some o → s'.obj_types_offset_[i]? = some o) ∧
      (∀ (i : Nat) (t : Tensor), s.tensor_data_[i]? = some t → s'.tensor_data_[i]? = some t)) := by
  refine ⟨fun v => storeIValueAndGetIndex_pres (growsFrame ops) v s,
    fun qn f => storeFunctionAndGetIndex_pres (growsFrame ops) qn f s,
    fun c => (growsFrame ops).storeClass c trivial s,
    fun t => tensorToFB_pres (growsFrame ops).toTensorFrame t s,
    fun v => iValueToFB_pres (growsFrame ops) v s,
    fun vs => storeIValuesAndGetIndexes_pres (growsFrame ops) vs s,
    fun qn f => functionToFB_pres (growsFrame ops) qn f s, ?_⟩
  intro s' hsteps
  have hg := steps_pres (growsFrame ops) hsteps
  exact ⟨hg.ivalues, hg.types, hg.tensors,
    fun _ _ h => getElem?_of_prefix hg.ivalues h,
    fun _ _ h => getElem?_of_prefix hg.types h,
    fun _ _ h => getElem?_of_prefix hg.tensors h⟩

/-! ### C22: the record of a function -/

/-- The narrowing conversion keeps a list of values that fit. -/
theorem map_static_cast_int32_of_fit (l : List Int)
    (hfit : ∀ x ∈ l, -2147483648 ≤ x ∧ x < 2147483648) : l.map static_cast_int32 = l := by
  induction l with
  | nil => rfl
  | cons x rest ih =>
    rw [List.map_cons, ih (fun y hy => hfit y (List.mem_cons_of_mem _ hy)),
      static_cast_int32_of_fits x (hfit x (List.mem_cons_self _ _)).1
        (hfit x (List.mem_cons_self _ _)).2]

/-- C23, as amended.  For every tensor that `tensorToFB` encodes, the size
vector and the stride vector of the record have the lengths of those of the
tensor and hold their values narrowed to 32 bits, element by element, and the
storage offset of the record is that of the tensor narrowed to 32 bits; the
vectors and the offset of the record are those of the tensor when the values
fit in 32 bits. -/
theorem tensor_metadata_fidelity (t : Tensor) (s s' : Serializer) (m : TensorMetadata)
    (h : tensorToFB t s = (.ok m, s')) :
    m.sizes = t.sizes.map static_cast_int32 ∧
    m.strides = t.strides.map static_cast_int32 ∧
    m.storage_offset = static_cast_int32 t.storage_offset ∧
    m.sizes.length = t.sizes.length ∧ m.strides.length = t.strides.length ∧
    ((∀ x ∈ t.sizes, -2147483648 ≤ x ∧ x < 2147483648) → m.sizes = t.sizes) ∧
    ((∀ x ∈ t.strides, -2147483648 ≤ x ∧ x < 2147483648) → m.strides = t.strides) ∧
    (-2147483648 ≤ t.storage_offset → t.storage_offset < 2147483648 →
      m.storage_offset = t.storage_offset) := by
  rw [tensorToFB_apply] at h
  rcases hq : qschemaToFB t.quantizer s with ⟨r, sa⟩
  rw [hq] at h
  cases r with
  | error e => cases h
  | ok q =>
    simp only [Prod.mk.injEq, Except.ok.injEq] at h
    obtain ⟨hm, _⟩ := h
    subst hm
    refine ⟨rfl, rfl, rfl, ?_, ?_, ?_, ?_, ?_⟩
    · show (t.sizes.map static_cast_int32).length = _
      rw [List.length_map]
    · show (t.strides.map static_cast_int32).length = _
      rw [List.length_map]
    · intro hfit
      exact map_static_cast_int32_of_fit _ hfit
    · intro hfit
      exact map_static_cast_int32_of_fit _ hfit
    · intro hlo hhi
      exact static_cast_int32_of_fits _ hlo hhi

/-- C23, witness: the tensor `sampleTensor`, of size `[1]`, stride `[1]` and
storage offset 0, in a fresh session. -/
theorem tensor_metadata_fidelity_witness :
    (tensorToFB sampleTensor (Serializer.start ⟨[]⟩)).1
      = .ok (.mk 0 6 0 [1] [1] false none) ∧
    TensorMetadata.sizes (.mk 0 6 0 [1] [1] false none) = sampleTensor.sizes ∧
    TensorMetadata.strides (.mk 0 6 0 [1] [1] false none) = sampleTensor.strides ∧
    TensorMetadata.storage_offset (.mk 0 6 0 [1] [1] false none)
      = sampleTensor.storage_offset :=
  ⟨rfl,
    (tensor_metadata_fidelity sampleTensor (Serializer.start ⟨[]⟩)
      (tensorToFB sampleTensor (Serializer.start ⟨[]⟩)).2 (.mk 0 6 0 [1] [1] false none)
      rfl).2.2.2.2.2.1 (by decide),
    (tensor_metadata_fidelity sampleTensor (Serializer.start ⟨[]⟩)
      (tensorToFB sampleTensor (Serializer.start ⟨[]⟩)).2 (.mk 0 6 0 [1] [1] false none)
      rfl).2.2.2.2.2.2.1 (by decide),
    (tensor_metadata_fidelity sampleTensor (Serializer.start ⟨[]⟩)
      (tensorToFB sampleTensor (Serializer.start ⟨[]⟩)).2 (.mk 0 6 0 [1] [1] false none)
      rfl).2.2.2.2.2.2.2 (by decide) (by decide)⟩

/-- C23, counterexample to the claim as stated.  The tensor `sampleWideTensor`
has the size `2^32 + 1` and the storage offset `2^31`; its record holds the
size `1` and the storage offset `-2^31`. -/
theorem tensor_metadata_fidelity_counterexample :
    sampleWideTensor.sizes = [4294967297] ∧ sampleWideTensor.storage_offset = 2147483648 ∧
    (tensorToFB sampleWideTensor (Serializer.start ⟨[]⟩)).1
      = .ok (.mk 0 0 (-2147483648) [1] [0] false none) ∧
    TensorMetadata.sizes (.mk 0 0 (-2147483648) [1] [0] false none) ≠ sampleWideTensor.sizes ∧
    TensorMetadata.storage_offset (.mk 0 0 (-2147483648) [1] [0] false none)
      ≠ sampleWideTensor.storage_offset :=
  ⟨rfl, rfl, rfl, by decide, by decide⟩

/-! ### C24: the tag of the class and the representation of the object -/

theorem storeSlots_length (ops : IValueOps) :
    ∀ (n : Nat) (slots : List IValue) (s s' : Serializer) (idxs : List Nat),
      storeSlots ops n slots s = (.ok idxs, s') → idxs.length = n
  | 0, _, s, s', idxs, h => by
    rw [storeSlots, pure_apply] at h
    cases h
    rfl
  | _ + 1, [], s, s', idxs, h => by
    rw [storeSlots, throw_apply] at h
    cases h
  | n + 1, v :: rest, s, s', idxs, h => by
    rw [storeSlots] at h
    obtain ⟨index, s1, _, hB⟩ := bind_eq_ok h
    obtain ⟨indexes, s2, hC, hD⟩ := bind_eq_ok hB
    rw [pure_apply] at hD
    simp only [Prod.mk.injEq, Except.ok.injEq] at hD
    obtain ⟨hidx, _⟩ := hD
    rw [← hidx, List.length_cons, storeSlots_length ops n rest s1 s2 indexes hC]

/-- The record of a class whose `__setstate__` is neither a function of the
compilation unit nor a method of the class. -/
theorem classTypeRecord_fields (mcu : CompilationUnit) (c : ClassType)
    (hf : ¬ mcu.find_function (c.name ++ ".__setstate__") = true)
    (hm : "__setstate__" ∉ c.methods) :
    classTypeRecord mcu c = ⟨c.name, .CLASS_WITH_FIELD,
      some ((List.range c.numAttributes).map c.getAttributeName)⟩ := by
  have hm' : ¬ c.findMethod "__setstate__" = true := by
    unfold ClassType.findMethod
    simpa using hm
  unfold classTypeRecord
  dsimp only
  rw [if_neg hf, if_neg hm']

/-- The record of a class that has a `__setstate__` method. -/
theorem classTypeRecord_setstate (mcu : CompilationUnit) (c : ClassType)
    (hm : "__setstate__" ∈ c.methods) :
    (classTypeRecord mcu c).attr_names = none ∧
    ((classTypeRecord mcu c).type = .CLASS_WITH_SETSTATE ∨
      (classTypeRecord mcu c).type = .CUSTOM_CLASS) := by
  have hm' : c.findMethod "__setstate__" = true := by
    unfold ClassType.findMethod
    simpa using hm
  unfold classTypeRecord
  dsimp only
  by_cases hf : mcu.find_function (c.name ++ ".__setstate__") = true
  · rw [if_pos hf]
    exact ⟨rfl, Or.inl rfl⟩
  · rw [if_neg hf, if_pos hm']
    exact ⟨rfl, Or.inr rfl⟩

/-- C24, as amended.  For an object that `objectToFB` encodes and the record
`classTypeToFB` produces for its class in the session, the class having a
`__getstate__` method whenever it has a `__setstate__` method, and the
compilation unit having a function `<class name>.__setstate__` only when the
class has a `__setstate__` method: the object record holds an
attribute-index list exactly when the class record is tagged
class-with-fields, the list then having as many entries as the class record
has attribute names, and it holds none (the state-value representation)
exactly when the class record is tagged class-with-setstate or
custom-class. -/
theorem class_tag_agreement (ops : IValueOps) (type : ClassType) (slots : List IValue)
    (getstate : IValue) (s s' : Serializer) (o : FBObject)
    (hSG : "__setstate__" ∈ type.methods → "__getstate__" ∈ type.methods)
    (hFS : s.mcu_.find_function (type.name ++ ".__setstate__") = true →
      "__setstate__" ∈ type.methods)
    (h : objectToFB ops type slots getstate s = (.ok o, s')) :
    classTypeToFB type s' = (.ok (classTypeRecord s.mcu_ type), s') ∧
    (o.attrs.isSome = true ↔ (classTypeRecord s.mcu_ type).type = .CLASS_WITH_FIELD) ∧
    (o.attrs = none ↔ ((classTypeRecord s.mcu_ type).type = .CLASS_WITH_SETSTATE ∨
      (classTypeRecord s.mcu_ type).type = .CUSTOM_CLASS)) ∧
    (∀ idxs, o.attrs = some idxs →
      ∃ names, (classTypeRecord s.mcu_ type).attr_names = some names ∧
        idxs.length = names.length) := by
  have hmcu : s'.mcu_ = s.mcu_ := by
    have hg := (objectToFB_pres_of (growsFrame ops).toValueFrame type slots getstate
      (classesIn_true _) s).mcu
    rw [h] at hg
    exact hg
  refine ⟨by rw [classTypeToFB_apply, hmcu], ?_⟩
  by_cases hset : "__setstate__" ∈ type.methods
  · have hget := hSG hset
    obtain ⟨hnames, htag⟩ := classTypeRecord_setstate s.mcu_ type hset
    have happ := objectToFB_state_apply ops type slots getstate s hget hset
    rw [h] at happ
    rcases hstore : storeIValueAndGetIndex ops getstate s with ⟨r, s1⟩
    rw [hstore] at happ
    cases r with
    | error e => cases happ
    | ok state_index =>
      simp only [Prod.mk.injEq, Except.ok.injEq] at happ
      obtain ⟨ho, _⟩ := happ
      subst ho
      refine ⟨?_, ?_, ?_⟩
      · constructor
        · intro hsome
          cases hsome
        · intro hfield
          rcases htag with ht | ht <;> rw [ht] at hfield <;> cases hfield
      · exact ⟨fun _ => htag, fun _ => rfl⟩
      · intro idxs hidxs
        cases hidxs
  · have hf : ¬ s.mcu_.find_function (type.name ++ ".__setstate__") = true :=
      fun e => hset (hFS e)
    have hrec := classTypeRecord_fields s.mcu_ type hf hset
    have happ := objectToFB_fields_apply ops type slots getstate s (fun hp => hset hp.2)
    rw [h] at happ
    rcases hstore : storeSlots ops type.numAttributes slots s with ⟨r, s1⟩
    rw [hstore] at happ
    cases r with
    | error e => cases happ
    | ok tuple_index =>
      simp only [Prod.mk.injEq, Except.ok.injEq] at happ
      obtain ⟨ho, _⟩ := happ
      subst ho
      rw [hrec]
      refine ⟨⟨fun _ => rfl, fun _ => rfl⟩, ?_, ?_⟩
      · constructor
        · intro hnone
          cases hnone
        · intro htag
          rcases htag with ht | ht <;> cases ht
      · intro idxs hidxs
        simp only [Option.some.injEq] at hidxs
        subst hidxs
        refine ⟨_, rfl, ?_⟩
        rw [storeSlots_length ops _ _ _ _ _ hstore, List.length_map, List.length_range]

/-- C24, witness: an object of the plain class `samplePairClass`, of two
attributes, in a fresh session. -/
theorem class_tag_agreement_witness :
    (objectToFB sampleOps samplePairClass [.String "m", .Int 5] .None
      (Serializer.start ⟨[]⟩)).1 = .ok ⟨0, 0, some [1, 2], 0⟩ ∧
    classTypeRecord (Serializer.start ⟨[]⟩).mcu_ samplePairClass
      = ⟨"__torch__.P", .CLASS_WITH_FIELD, some ["first", "second"]⟩ ∧
    ((some [1, 2] : Option (List Nat)).isSome = true ↔
      (classTypeRecord (Serializer.start ⟨[]⟩).mcu_ samplePairClass).type
        = .CLASS_WITH_FIELD) :=
  ⟨rfl, rfl,
    (class_tag_agreement sampleOps samplePairClass [.String "m", .Int 5] .None
      (Serializer.start ⟨[]⟩)
      (objectToFB sampleOps samplePairClass [.String "m", .Int 5] .None
        (Serializer.start ⟨[]⟩)).2
      ⟨0, 0, some [1, 2], 0⟩ (by decide) (by decide) rfl).2.1⟩

/-- C24, counterexample to the claim as stated.  The class
`sampleSetOnlyClass` has a `__setstate__` method and no `__getstate__`
method: the record of an object of the class holds an attribute-index list,
and the record of the class, the one `objectToFB` enters in the class table,
is tagged custom-class and has no attribute names. -/
theorem class_tag_agreement_counterexample :
    (objectToFB sampleOps sampleSetOnlyClass [.Int 1] .None (Serializer.start ⟨[]⟩)).1
      = .ok ⟨0, 0, some [1], 0⟩ ∧
    (classTypeToFB sampleSetOnlyClass (Serializer.start ⟨[]⟩)).1
      = .ok ⟨"__torch__.C", .CUSTOM_CLASS, none⟩ ∧
    (objectToFB sampleOps sampleSetOnlyClass [.Int 1] .None
      (Serializer.start ⟨[]⟩)).2.obj_types_offset_
      = [⟨"__torch__.C", .CUSTOM_CLASS, none⟩] :=
  ⟨rfl, rfl, rfl⟩

/-! ### C25: the numbering of the storage slots -/

/-- A tensor that is not quantized and whose storage has not been seen is
registered in the next slot. -/
theorem tensorToFB_plain_unseen (t : Tensor) (s : Serializer)
    (hq : t.quantizer = .not_quantized)
    (hnew : mapFind s.memoized_storage_map_ t.storage.impl = none) :
    tensorToFB t s =
      (.ok (.mk s.tensor_data_.length t.scalar_type (static_cast_int32 t.storage_offset)
        (t.sizes.map static_cast_int32) (t.strides.map static_cast_int32) t.requires_grad
        none),
        { s with
          memoized_storage_map_ :=
            mapAssign s.memoized_storage_map_ t.storage.impl s.tensor_data_.length
          tensor_data_ := s.tensor_data_ ++ [t] }) := by
  have hidx : storageIndex t s = (.ok s.tensor_data_.length,
      { s with
        memoized_storage_map_ :=
          mapAssign s.memoized_storage_map_ t.storage.impl s.tensor_data_.length
        tensor_data_ := s.tensor_data_ ++ [t] }) := by
    rcases storageIndex_cases t s with ⟨i, hi, _⟩ | ⟨_, h⟩
    · rw [hnew] at hi
      cases hi
    · exact h
  have happ : tensorToFB t s =
      (.ok (.mk (okValue 0 (storageIndex t s).1) t.scalar_type
        (static_cast_int32 t.storage_offset) (t.sizes.map static_cast_int32)
        (t.strides.map static_cast_int32) t.requires_grad none), (storageIndex t s).2) := by
    rw [tensorToFB_apply, hq, qschemaToFB]
    rfl
  rw [happ, hidx]
  rfl

theorem storageInv_injective {s : Serializer} (h : StorageInv s) {a b i : Nat}
    (ha : mapFind s.memoized_storage_map_ a = some i)
    (hb : mapFind s.memoized_storage_map_ b = some i) : a = b := by
  obtain ⟨t1, ht1, hid1⟩ := h.1 a i ha
  obtain ⟨t2, ht2, hid2⟩ := h.1 b i hb
  rw [ht1] at ht2
  simp only [Option.some.injEq] at ht2
  rw [← hid1, ← hid2, ht2]

/-- C25.  In every state of a session the storage memo table is a bijection
between the storage identities seen and the positions of the storage list:
the slot of an identity is a position, the tensor at that position lies on
that storage, every position is the slot of an identity, and no two
identities have the same slot.  A storage not yet seen is registered in the
next slot, the length of the list.  Two tensors encoded in the session on
different storages get different slots.  For a tensor quantized per channel,
the storages of the scales, of the zero points and of the tensor being unseen
and different (the scales and the zero points being plain tensors), the
storage of the scales is registered in the next slot, then that of the zero
points, then that of the tensor. -/
theorem storage_slot_numbering (ops : IValueOps) (s : Serializer) (hs : Session ops s) :
    (∀ a i, mapFind s.memoized_storage_map_ a = some i →
      i < s.tensor_data_.length ∧
      ∃ t : Tensor, s.tensor_data_[i]? = some t ∧ t.storage.impl = a) ∧
    (∀ i, i < s.tensor_data_.length → ∃ a, mapFind s.memoized_storage_map_ a = some i) ∧
    (∀ a b i, mapFind s.memoized_storage_map_ a = some i →
      mapFind s.memoized_storage_map_ b = some i → a = b) ∧
    (∀ t : Tensor, t.quantizer = .not_quantized →
      mapFind s.memoized_storage_map_ t.storage.impl = none →
      ∃ m s', tensorToFB t s = (.ok m, s') ∧
        m.storage_location_index = s.tensor_data_.length ∧
        s'.tensor_data_ = s.tensor_data_ ++ [t]) ∧
    (∀ (t1 t2 : Tensor) (m1 m2 : TensorMetadata) (s1 s2 s3 : Serializer),
      tensorToFB t1 s = (.ok m1, s1) → Steps ops s1 s2 → tensorToFB t2 s2 = (.ok m2, s3) →
      t1.storage.impl ≠ t2.storage.impl →
      m1.storage_location_index ≠ m2.storage_location_index) ∧
    (∀ (t q_scales q_zero_points : Tensor) (float_qparams : Bool) (q_axis : Int),
      t.quantizer = .per_channel float_qparams q_scales q_zero_points q_axis →
      q_scales.quantizer = .not_quantized → q_zero_points.quantizer = .not_quantized →
      mapFind s.memoized_storage_map_ q_scales.storage.impl = none →
      mapFind s.memoized_storage_map_ q_zero_points.storage.impl = none →
      mapFind s.memoized_storage_map_ t.storage.impl = none →
      q_scales.storage.impl ≠ q_zero_points.storage.impl →
      q_scales.storage.impl ≠ t.storage.impl →
      q_zero_points.storage.impl ≠ t.storage.impl →
      ∃ m scales zero_points s',
        tensorToFB t s = (.ok m, s') ∧
        m.quantized_schema = some (.mk (if float_qparams then 4 else 1) ⟨0⟩ 0
          (some scales) (some zero_points) (static_cast_int32 q_axis)) ∧
        scales.storage_location_index = s.tensor_data_.length ∧
        zero_points.storage_location_index = s.tensor_data_.length + 1 ∧
        m.storage_location_index = s.tensor_data_.length + 2 ∧
        s'.tensor_data_ = s.tensor_data_ ++ [q_scales, q_zero_points, t]) := by
  have hinv := hs.storageInv
  refine ⟨?_, ?_, ?_, ?_, ?_, ?_⟩
  · intro a i ha
    obtain ⟨t, ht, hid⟩ := hinv.1 a i ha
    refine ⟨?_, t, ht, hid⟩
    by_contra hne
    rw [List.getElem?_eq_none (by omega)] at ht
    cases ht
  · intro i hi
    have hget : s.tensor_data_[i]? = some (s.tensor_data_.get ⟨i, hi⟩) := by
      simp
    exact ⟨_, hinv.2 i _ hget⟩
  · intro a b i ha hb
    exact storageInv_injective hinv ha hb
  · intro t hq hnew
    exact ⟨_, _, tensorToFB_plain_unseen t s hq hnew, rfl, rfl⟩
  · intro t1 t2 m1 m2 s1 s2 s3 h1 hsteps h2 hne heq
    have hreg1 := tensorToFB_registered h1
    have hreg2 := tensorToFB_registered h2
    have hk2 := (tensorToFB_pres (storageFrame ops).toTensorFrame t2 s2)
    rw [h2] at hk2
    have hreg1' := hk2.1 _ _ ((steps_pres (storageFrame ops) hsteps).1 _ _ hreg1)
    have hk1 := (tensorToFB_pres (storageFrame ops).toTensorFrame t1 s)
    rw [h1] at hk1
    have hinv3 : StorageInv s3 :=
      hk2.2 ((steps_pres (storageFrame ops) hsteps).2 (hk1.2 hinv))
    rw [heq] at hreg1'
    exact hne (storageInv_injective hinv3 hreg1' hreg2)
  · intro t q_scales q_zero_points float_qparams q_axis hq hqa hqb hna hnb hnt hab hat hbt
    have hA := tensorToFB_plain_unseen q_scales s hqa hna
    have hnb1 : mapFind (mapAssign s.memoized_storage_map_ q_scales.storage.impl
        s.tensor_data_.length) q_zero_points.storage.impl = none := by
      rw [mapFind_mapAssign, if_neg (fun e => hab e.symm)]
      exact hnb
    have hB := tensorToFB_plain_unseen q_zero_points
      { s with
        memoized_storage_map_ :=
          mapAssign s.memoized_storage_map_ q_scales.storage.impl s.tensor_data_.length
        tensor_data_ := s.tensor_data_ ++ [q_scales] } hqb hnb1
    have hnt2 : mapFind (mapAssign (mapAssign s.memoized_storage_map_ q_scales.storage.impl
        s.tensor_data_.length) q_zero_points.storage.impl (s.tensor_data_ ++ [q_scales]).length)
        t.storage.impl = none := by
      rw [mapFind_mapAssign, if_neg (fun e => hbt e.symm), mapFind_mapAssign,
        if_neg (fun e => hat e.symm)]
      exact hnt
    have happ := tensorToFB_apply t s
    rw [hq, qschemaToFB_per_channel_apply, hA] at happ
    dsimp only at happ
    rw [hB] at happ
    dsimp only at happ
    rcases storageIndex_cases t
      { s with
        memoized_storage_map_ := mapAssign (mapAssign s.memoized_storage_map_
          q_scales.storage.impl s.tensor_data_.length) q_zero_points.storage.impl
          (s.tensor_data_ ++ [q_scales]).length
        tensor_data_ := s.tensor_data_ ++ [q_scales] ++ [q_zero_points] }
      with ⟨i, hi, _⟩ | ⟨_, hidx⟩
    · rw [hnt2] at hi
      cases hi
    · rw [hidx] at happ
      refine ⟨_,
        .mk s.tensor_data_.length q_scales.scalar_type
          (static_cast_int32 q_scales.storage_offset) (q_scales.sizes.map static_cast_int32)
          (q_scales.strides.map static_cast_int32) q_scales.requires_grad none,
        .mk (s.tensor_data_ ++ [q_scales]).length q_zero_points.scalar_type
          (static_cast_int32 q_zero_points.storage_offset)
          (q_zero_points.sizes.map static_cast_int32)
          (q_zero_points.strides.map static_cast_int32) q_zero_points.requires_grad none,
        _, happ, ?_, ?_, ?_, ?_, ?_⟩
      · cases float_qparams <;> rfl
      · rfl
      · show (s.tensor_data_ ++ [q_scales]).length = _
        simp
      · show (s.tensor_data_ ++ [q_scales] ++ [q_zero_points]).length = _
        simp
      · show s.tensor_data_ ++ [q_scales] ++ [q_zero_points] ++ [t] = _
        simp

/-- C25, witness: the per-channel quantized tensor `sampleQTensor` in a fresh
session; the storage of its scales gets slot 0, that of its zero points slot
1, its own storage slot 2. -/
theorem storage_slot_numbering_witness :
    (tensorToFB sampleQTensor (Serializer.start ⟨[]⟩)).1
      = .ok (.mk 2 12 0 [4] [1] false (some (.mk 1 ⟨0⟩ 0
          (some (.mk 0 7 0 [1] [1] false none)) (some (.mk 1 4 0 [1] [1] false none)) 0))) ∧
    (tensorToFB sampleQTensor (Serializer.start ⟨[]⟩)).2.tensor_data_
      = [sampleScales, sampleZeroPoints, sampleQTensor] ∧
    ∃ m scales zero_points s',
      tensorToFB sampleQTensor (Serializer.start ⟨[]⟩) = (.ok m, s') ∧
      m.quantized_schema = some (.mk (if false then 4 else 1) ⟨0⟩ 0
        (some scales) (some zero_points) (static_cast_int32 0)) ∧
      scales.storage_location_index = (Serializer.start ⟨[]⟩).tensor_data_.length ∧
      zero_points.storage_location_index = (Serializer.start ⟨[]⟩).tensor_data_.length + 1 ∧
      m.storage_location_index = (Serializer.start ⟨[]⟩).tensor_data_.length + 2 ∧
      s'.tensor_data_ = (Serializer.start ⟨[]⟩).tensor_data_
        ++ [sampleScales, sampleZeroPoints, sampleQTensor] :=
  ⟨rfl, rfl,
    (storage_slot_numbering sampleOps (Serializer.start ⟨[]⟩) ⟨⟨[]⟩, Steps.refl _⟩).2.2.2.2.2
      sampleQTensor sampleScales sampleZeroPoints false 0 rfl rfl rfl rfl rfl rfl
      (by decide) (by decide) (by decide)⟩

end FlatbufferSerializer
